import Mathlib

/-!
Verification development for the Hako task-orchestration core
(src/task/executor.rs, src/task/manager.rs, src/task/task_trait.rs).

The executor and manager are embedded as a small-step interleaving
semantics.  Each atomic step of the model corresponds to one
lock-protected critical section (or one point-of-no-suspension stretch)
of the Rust code: tokio RwLock guards are never held across an await in
the source, so every guarded section is one atomic step, and arbitrary
interleavings between the sections are allowed.

Missing repository files (lock.rs, handle.rs, error.rs) are modelled
from the specification where noted.
-/

namespace Hako

/-- Task state enumeration. Modelled from the spec: handle.rs (which
defines TaskState) is not in the sources; the spec fixes the states as
Pending, Running, Completed, Failed. -/
inductive TaskState where
  | pending
  | running
  | completed
  | failed
deriving DecidableEq, Repr

/-- Task error kinds. Modelled from the spec: error.rs is not in the
sources; the spec fixes the kinds LockConflict (carrying a message) and
InvalidState. -/
inductive TaskError where
  | lockConflict (msg : String)
  | invalidState
deriving DecidableEq, Repr

/-- A work contract: one submitted task instance, mirroring the Task
trait of task_trait.rs.  The execution body is abstracted by its
outcome (succeeds): the body is caller-supplied code, opaque to the
core. -/
structure Contract where
  tname : String
  queueable : Bool
  maxConcurrent : Option Nat
  requiresGlobalLock : Bool
  locks : List String
  succeeds : Bool
deriving DecidableEq, Repr

/-- Program counter of one submit call (TaskExecutor::submit lines
36-144 plus TaskManager::submit / track_task).  Each constructor names
the next atomic section to execute. -/
inductive SubPc where
  | start
  | pushWait
  | waiting
  | acquireLocks
  | insertRunning
  | typeSem
  | spawnBody
  | track
  | doneOk
  | doneErr (e : TaskError)
deriving DecidableEq, Repr

/-- Program counter of one spawned task body (the async block at
executor.rs lines 103-141). -/
inductive BodyPc where
  | acqGlobal
  | acqType
  | setRunning
  | runBody
  | relLocks
  | rmRunning
  | wakeNext
  | setDone
  | finish
  | dropAll
  | done
deriving DecidableEq, Repr

/-- Program counter of one manager cleanup observer (the async block at
manager.rs lines 57-60). -/
inductive CleanPc where
  | reg
  | wait
  | done
deriving DecidableEq, Repr

/-- One in-flight submit call. -/
structure SubProc where
  id : Nat
  c : Contract
  viaManager : Bool
  pc : SubPc
  wakePermit : Bool
  wokenBy : Option Nat
deriving DecidableEq, Repr

/-- One spawned task body. -/
structure BodyProc where
  id : Nat
  c : Contract
  pc : BodyPc
deriving DecidableEq, Repr

/-- One manager cleanup observer. -/
structure CleanProc where
  id : Nat
  pc : CleanPc
deriving DecidableEq, Repr

/-- Per-task shared cells: the TaskState cell, the cancellation watch
channel (value and whether a receiver is still alive), and the
completion Notify object (whether the cleanup observer is registered,
and whether it has been woken).  tokio::sync::Notify semantics:
notify_waiters wakes only currently registered waiters and stores no
permit. -/
structure Cells where
  c : Contract
  tstate : TaskState
  cancelFlag : Bool
  rxAlive : Bool
  compRegistered : Bool
  compNotified : Bool
deriving DecidableEq, Repr

/-- The whole system state: executor registries, lock manager held set,
manager registry, and all in-flight activities. -/
structure Sys where
  subs : List SubProc
  bodies : List BodyProc
  cleans : List CleanProc
  cells : List (Nat × Cells)
  running : List (String × Nat)
  queues : List (String × List Nat)
  typeSems : List (String × Nat)
  globalCap : Option Nat
  lockHeld : List String
  tasks : List Nat
deriving DecidableEq, Repr

/-! Association list helpers (the HashMaps of the source). -/

def lookupA {κ β : Type} [DecidableEq κ] : List (κ × β) → κ → Option β
  | [], _ => none
  | kv :: rest, key => if kv.1 = key then some kv.2 else lookupA rest key

def removeA {κ β : Type} [DecidableEq κ] : List (κ × β) → κ → List (κ × β)
  | [], _ => []
  | kv :: rest, key => if kv.1 = key then removeA rest key else kv :: removeA rest key

def insertA {κ β : Type} [DecidableEq κ] (l : List (κ × β)) (key : κ) (v : β) : List (κ × β) :=
  (key, v) :: removeA l key

def updA {κ β : Type} [DecidableEq κ] (l : List (κ × β)) (key : κ) (v : β) : List (κ × β) :=
  l.map (fun kv => if kv.1 = key then (kv.1, v) else kv)

def updV {κ β : Type} [DecidableEq κ] (l : List (κ × β)) (key : κ) (f : β → β) :
    List (κ × β) :=
  l.map (fun kv => if kv.1 = key then (kv.1, f kv.2) else kv)

/-- queues.entry(t).or_default().push(id) of executor.rs line 55. -/
def pushQ (l : List (String × List Nat)) (key : String) (v : Nat) : List (String × List Nat) :=
  match lookupA l key with
  | some q => updA l key (q ++ [v])
  | none => l ++ [(key, [v])]

/-! Process lookup and update helpers. -/

def updP {α : Type} (key : α → Nat) (l : List α) (id : Nat) (f : α → α) : List α :=
  l.map (fun x => if key x = id then f x else x)

def findSub (s : Sys) (id : Nat) : Option SubProc :=
  s.subs.find? (fun p => p.id = id)

def findBody (s : Sys) (id : Nat) : Option BodyProc :=
  s.bodies.find? (fun p => p.id = id)

def findClean (s : Sys) (id : Nat) : Option CleanProc :=
  s.cleans.find? (fun p => p.id = id)

def updSub (l : List SubProc) (id : Nat) (f : SubProc → SubProc) : List SubProc :=
  updP SubProc.id l id f

def updBody (l : List BodyProc) (id : Nat) (f : BodyProc → BodyProc) : List BodyProc :=
  updP BodyProc.id l id f

def updClean (l : List CleanProc) (id : Nat) (f : CleanProc → CleanProc) : List CleanProc :=
  updP CleanProc.id l id f

/-! Semaphore accounting.  tokio permits are held by a body from the
moment its acquire resolves until the guard is dropped at the end of
the async block; the number of outstanding permits therefore equals
the number of bodies between those two program points, and acquisition
is enabled exactly when that number is below the capacity. -/

/-- Body is holding a global-semaphore permit (acquired at acqGlobal,
dropped at the end of the block). -/
def holdGlobal : BodyPc → Bool
  | .acqGlobal => false
  | .done => false
  | _ => true

/-- Body is holding a type-semaphore permit (acquired at acqType,
dropped at the end of the block). -/
def holdType : BodyPc → Bool
  | .acqGlobal => false
  | .acqType => false
  | .done => false
  | _ => true

def globalHeldCount (s : Sys) : Nat :=
  s.bodies.countP (fun b => holdGlobal b.pc)

def typeHeldCount (s : Sys) (tn : String) : Nat :=
  s.bodies.countP (fun b => b.c.tname == tn && b.c.maxConcurrent.isSome && holdType b.pc)

/-- Successor pc after the resource-lock step (executor.rs lines 64-99:
global-lock holders go on to record themselves in running, then a
declared max_concurrent routes through the type-semaphore map). -/
def subNextAfterLocks (c : Contract) : SubPc :=
  if c.requiresGlobalLock then .insertRunning
  else if c.maxConcurrent.isSome then .typeSem
  else .spawnBody

def subNextAfterInsert (c : Contract) : SubPc :=
  if c.maxConcurrent.isSome then .typeSem else .spawnBody

/-- One atomic section of a submit call.  Returns none when the call
has no enabled step (already finished, or suspended without a wake
permit). -/
def stepSub (s : Sys) (id : Nat) : Option Sys :=
  match findSub s id with
  | none => none
  | some p =>
    match p.pc with
    | .start =>
      -- executor.rs lines 41-49: one read-guarded section.
      if p.c.requiresGlobalLock && (lookupA s.running p.c.tname).isSome then
        if p.c.queueable then
          some { s with subs := updSub s.subs id (fun q => { q with pc := .pushWait }) }
        else
          some { s with subs := updSub s.subs id (fun q =>
            { q with pc := .doneErr (.lockConflict (p.c.tname ++ " already running")) }) }
      else
        some { s with subs := updSub s.subs id (fun q => { q with pc := .acquireLocks }) }
    | .pushWait =>
      -- executor.rs lines 52-59: queues.write section.
      some { s with
        queues := pushQ s.queues p.c.tname id,
        subs := updSub s.subs id (fun q => { q with pc := .waiting }) }
    | .waiting =>
      -- executor.rs line 60: notified().await; notify_one stores a permit.
      if p.wakePermit then
        some { s with subs := updSub s.subs id (fun q => { q with pc := .acquireLocks }) }
      else none
    | .acquireLocks =>
      -- executor.rs lines 64-81.  Modelled from the spec: lock.rs is not
      -- in the sources; try_acquire is all-or-nothing and fails naming
      -- the contended keys.  On success the handle, channels and state
      -- cell are created (lines 69-81), with state Pending.
      if p.c.locks.any (fun k => s.lockHeld.contains k) then
        some { s with subs := updSub s.subs id (fun q =>
          { q with pc := .doneErr (.lockConflict
              (String.intercalate ", " (p.c.locks.filter (fun k => s.lockHeld.contains k)))) }) }
      else
        some { s with
          lockHeld := s.lockHeld ++ p.c.locks,
          cells := insertA s.cells id ⟨p.c, .pending, false, true, false, false⟩,
          subs := updSub s.subs id (fun q => { q with pc := subNextAfterLocks p.c }) }
    | .insertRunning =>
      -- executor.rs lines 83-85: running.write section.
      some { s with
        running := insertA s.running p.c.tname id,
        subs := updSub s.subs id (fun q => { q with pc := subNextAfterInsert p.c }) }
    | .typeSem =>
      -- executor.rs lines 91-99: type_semaphores.write section; the pool
      -- is created on first use, sized by the first declarer.
      match p.c.maxConcurrent with
      | some limit =>
        some { s with
          typeSems := if (lookupA s.typeSems p.c.tname).isSome then s.typeSems
                      else insertA s.typeSems p.c.tname limit,
          subs := updSub s.subs id (fun q => { q with pc := .spawnBody }) }
      | none => none
    | .spawnBody =>
      -- executor.rs lines 101-103 and 143: spawn the body, return the
      -- handle (no shared-state suspension between them).
      some { s with
        bodies := s.bodies ++ [⟨id, p.c, .acqGlobal⟩],
        subs := updSub s.subs id (fun q =>
          { q with pc := if q.viaManager then .track else .doneOk }) }
    | .track =>
      -- manager.rs lines 45-60: tasks.write insert, spawn the cleanup
      -- observer.
      some { s with
        tasks := s.tasks ++ [id],
        cleans := s.cleans ++ [⟨id, .reg⟩],
        subs := updSub s.subs id (fun q => { q with pc := .doneOk }) }
    | .doneOk => none
    | .doneErr _ => none

/-- One atomic section of a spawned body (executor.rs lines 103-141 and
the implicit drops at the end of the block). -/
def stepBody (s : Sys) (id : Nat) : Option Sys :=
  match findBody s id with
  | none => none
  | some b =>
    match b.pc with
    | .acqGlobal =>
      -- lines 104-108: global semaphore acquire when configured.
      match s.globalCap with
      | some cap =>
        if globalHeldCount s < cap then
          some { s with bodies := updBody s.bodies id (fun q => { q with pc := .acqType }) }
        else none
      | none =>
        some { s with bodies := updBody s.bodies id (fun q => { q with pc := .acqType }) }
    | .acqType =>
      -- lines 109-113: type semaphore acquire when declared.
      match b.c.maxConcurrent with
      | some _ =>
        match lookupA s.typeSems b.c.tname with
        | some cap =>
          if typeHeldCount s b.c.tname < cap then
            some { s with bodies := updBody s.bodies id (fun q => { q with pc := .setRunning }) }
          else none
        | none => none
      | none =>
        some { s with bodies := updBody s.bodies id (fun q => { q with pc := .setRunning }) }
    | .setRunning =>
      -- line 115: state.write section.
      some { s with
        cells := updV s.cells id (fun cl => { cl with tstate := .running }),
        bodies := updBody s.bodies id (fun q => { q with pc := .runBody }) }
    | .runBody =>
      -- lines 117-118: the caller-supplied body runs to its outcome.
      some { s with bodies := updBody s.bodies id (fun q => { q with pc := .relLocks }) }
    | .relLocks =>
      -- line 120: lock manager release (idempotent, unconditional).
      some { s with
        lockHeld := s.lockHeld.filter (fun k => !b.c.locks.contains k),
        bodies := updBody s.bodies id (fun q =>
          { q with pc := if b.c.requiresGlobalLock then .rmRunning else .setDone }) }
    | .rmRunning =>
      -- lines 122-123: running.write section.
      some { s with
        running := removeA s.running b.c.tname,
        bodies := updBody s.bodies id (fun q => { q with pc := .wakeNext }) }
    | .wakeNext =>
      -- lines 124-131: queues.write section; Vec::pop takes the most
      -- recently pushed entry; notify_one stores a permit for it.
      match lookupA s.queues b.c.tname with
      | some q =>
        match q.getLast? with
        | some w =>
          some { s with
            queues := updA s.queues b.c.tname q.dropLast,
            subs := updSub s.subs w (fun sp =>
              { sp with wakePermit := true, wokenBy := some id }),
            bodies := updBody s.bodies id (fun q2 => { q2 with pc := .setDone }) }
        | none =>
          some { s with
            queues := removeA s.queues b.c.tname,
            bodies := updBody s.bodies id (fun q2 => { q2 with pc := .setDone }) }
      | none =>
        some { s with bodies := updBody s.bodies id (fun q2 => { q2 with pc := .setDone }) }
    | .setDone =>
      -- lines 134-138: state.write section; terminal state from the
      -- body outcome.
      some { s with
        cells := updV s.cells id (fun cl =>
          { cl with tstate := if b.c.succeeds then .completed else .failed }),
        bodies := updBody s.bodies id (fun q => { q with pc := .finish }) }
    | .finish =>
      -- lines 139-140: publish the result; notify_waiters wakes only
      -- waiters registered now and stores no permit.
      some { s with
        cells := updV s.cells id (fun cl =>
          if cl.compRegistered then { cl with compNotified := true } else cl),
        bodies := updBody s.bodies id (fun q => { q with pc := .dropAll }) }
    | .dropAll =>
      -- end of the async block: ctx (the cancel receiver) and the
      -- permit guards are dropped.
      some { s with
        cells := updV s.cells id (fun cl => { cl with rxAlive := false }),
        bodies := updBody s.bodies id (fun q => { q with pc := .done }) }
    | .done => none

/-- One atomic section of a manager cleanup observer (manager.rs lines
57-60): register on the completion Notify, then once woken remove the
entry. -/
def stepClean (s : Sys) (id : Nat) : Option Sys :=
  match findClean s id with
  | none => none
  | some cp =>
    match cp.pc with
    | .reg =>
      some { s with
        cells := updV s.cells id (fun cl => { cl with compRegistered := true }),
        cleans := updClean s.cleans id (fun q => { q with pc := .wait }) }
    | .wait =>
      match lookupA s.cells id with
      | some cl =>
        if cl.compNotified then
          some { s with
            tasks := s.tasks.filter (fun t => t ≠ id),
            cleans := updClean s.cleans id (fun q => { q with pc := .done }) }
        else none
      | none => none
    | .done => none

/-- TaskManager::cancel (manager.rs lines 37-43): look the identity up
in the registry, then send true on the watch channel; the send fails
when every receiver has been dropped, and both failures surface as
InvalidState. -/
def cancelTask (s : Sys) (tid : Nat) : Except TaskError Sys :=
  if s.tasks.contains tid then
    match lookupA s.cells tid with
    | some cl =>
      if cl.rxAlive then
        .ok { s with cells := updV s.cells tid (fun c2 => { c2 with cancelFlag := true }) }
      else .error .invalidState
    | none => .error .invalidState
  else .error .invalidState

/-- TaskContext::is_cancelled (task_trait.rs lines 49-51): the current
value of the watch channel. -/
def isCancelledCtx (s : Sys) (tid : Nat) : Bool :=
  match lookupA s.cells tid with
  | some cl => cl.cancelFlag
  | none => false

/-- A scheduling action: which activity takes its next atomic section,
or an external cancel call. -/
inductive Action where
  | sub (id : Nat)
  | body (id : Nat)
  | clean (id : Nat)
  | cancel (tid : Nat)
deriving DecidableEq, Repr

def stepA (s : Sys) : Action → Option Sys
  | .sub id => stepSub s id
  | .body id => stepBody s id
  | .clean id => stepClean s id
  | .cancel tid =>
    match cancelTask s tid with
    | .ok s2 => some s2
    | .error _ => some s

def runOpt (s : Sys) : List Action → Option Sys
  | [] => some s
  | a :: as =>
    match stepA s a with
    | some s2 => runOpt s2 as
    | none => none

/-- Reachability from an initial state under some interleaving. -/
def Reachable (s0 s : Sys) : Prop := ∃ as, runOpt s0 as = some s

/-- The pending submit calls of an initial state: one per contract,
with distinct identities (Uuid::new_v4 yields distinct ids). -/
def mkSubs : List (Contract × Bool) → Nat → List SubProc
  | [], _ => []
  | cv :: rest, k => ⟨k, cv.1, cv.2, .start, false, none⟩ :: mkSubs rest (k + 1)

/-- An executor freshly built by TaskExecutor::new (executor.rs lines
26-34) with a workload of submit calls about to start. -/
def initSys (gcap : Option Nat) (cs : List (Contract × Bool)) : Sys :=
  { subs := mkSubs cs 0, bodies := [], cleans := [], cells := [],
    running := [], queues := [], typeSems := [], globalCap := gcap,
    lockHeld := [], tasks := [] }

/-- A manager freshly built by TaskManager::new (manager.rs lines
23-29): its executor gets Some(5) as the global ceiling, and every
submission goes through TaskManager::submit. -/
def managerInit (cs : List Contract) : Sys :=
  initSys (some 5) (cs.map (fun c => (c, true)))

/-! Derived observations used by the stated properties. -/

/-- The TaskState currently held by the state cell of a task identity
(none when no such task was ever admitted). -/
def tstateOf (s : Sys) (id : Nat) : Option TaskState :=
  (lookupA s.cells id).map (fun cl => cl.tstate)

/-- Number of tasks of one type tag currently in Running state. -/
def countRunningOfType (s : Sys) (tn : String) : Nat :=
  s.cells.countP (fun kv => kv.2.c.tname == tn && kv.2.tstate == TaskState.running)

/-- Number of task bodies currently inside the execution phase guarded
by the global permit (between the global acquire resolving and the
permit guard dropping). -/
def countInGlobalPhase (s : Sys) : Nat :=
  globalHeldCount s

/-! Program-counter phases of a body, relative to the state cell:
before the Running write, between the Running write and the terminal
write, and after the terminal write. -/

def prePhase : BodyPc → Bool
  | .acqGlobal => true
  | .acqType => true
  | .setRunning => true
  | _ => false

def runPhase : BodyPc → Bool
  | .runBody => true
  | .relLocks => true
  | .rmRunning => true
  | .wakeNext => true
  | .setDone => true
  | _ => false

def donePhase : BodyPc → Bool
  | .finish => true
  | .dropAll => true
  | .done => true
  | _ => false

/-- The body has executed its running-registry removal (executor.rs
line 123). -/
def pastRM : BodyPc → Bool
  | .wakeNext => true
  | .setDone => true
  | .finish => true
  | .dropAll => true
  | .done => true
  | _ => false

/-- Submit pcs at which the handle and state cell already exist. -/
def postAcquire : SubPc → Bool
  | .insertRunning => true
  | .typeSem => true
  | .spawnBody => true
  | .track => true
  | .doneOk => true
  | _ => false

/-- The state cell agrees with the phase of the unique body of the same
identity. -/
def stateMatches (cl : Cells) (b : BodyProc) : Prop :=
  (prePhase b.pc = true → cl.tstate = .pending) ∧
  (runPhase b.pc = true → cl.tstate = .running) ∧
  (donePhase b.pc = true →
    cl.tstate = (if b.c.succeeds then TaskState.completed else TaskState.failed))

/-! Library lemmas about the association-list and process-list
operations. -/

theorem lookupA_removeA {κ β : Type} [DecidableEq κ] (l : List (κ × β)) (k k2 : κ) :
    lookupA (removeA l k) k2 = if k2 = k then none else lookupA l k2 := by
  induction l with
  | nil => simp [removeA, lookupA]
  | cons kv rest ih =>
    rcases kv with ⟨k1, v⟩
    by_cases h1 : k1 = k <;> by_cases h2 : k2 = k <;> by_cases h3 : k1 = k2 <;>
      simp_all [removeA, lookupA]

theorem lookupA_insertA {κ β : Type} [DecidableEq κ] (l : List (κ × β)) (k k2 : κ) (v : β) :
    lookupA (insertA l k v) k2 = if k2 = k then some v else lookupA l k2 := by
  simp only [insertA, lookupA]
  by_cases h : k2 = k
  · subst h
    simp
  · have h2 : ¬ k = k2 := fun hh => h hh.symm
    simp [h, h2, lookupA_removeA]

theorem lookupA_updV {κ β : Type} [DecidableEq κ] (l : List (κ × β)) (k k2 : κ) (f : β → β) :
    lookupA (updV l k f) k2 = if k2 = k then (lookupA l k).map f else lookupA l k2 := by
  induction l with
  | nil => simp [updV, lookupA]
  | cons kv rest ih =>
    rcases kv with ⟨k1, v⟩
    by_cases h1 : k1 = k
    · subst h1
      by_cases h2 : k2 = k1
      · subst h2
        simp [updV, lookupA]
      · have h3 : ¬ k1 = k2 := fun hh => h2 hh.symm
        simp only [updV, List.map_cons] at ih ⊢
        simp [lookupA, h2, h3, ih]
    · by_cases h2 : k2 = k
      · subst h2
        simp only [updV, List.map_cons] at ih ⊢
        simp [lookupA, h1, ih]
      · by_cases h3 : k1 = k2
        · subst h3
          simp only [updV, List.map_cons] at ih ⊢
          simp [lookupA, h1, h2, ih]
        · simp only [updV, List.map_cons] at ih ⊢
          simp [lookupA, h1, h2, h3, ih]

theorem lookupA_updA {κ β : Type} [DecidableEq κ] (l : List (κ × β)) (k k2 : κ) (v : β) :
    lookupA (updA l k v) k2 = if k2 = k then (lookupA l k).map (fun _ => v)
      else lookupA l k2 := by
  have : updA l k v = updV l k (fun _ => v) := by
    simp [updA, updV]
  rw [this, lookupA_updV]

theorem lookupA_mem {κ β : Type} [DecidableEq κ] {l : List (κ × β)} {k : κ} {v : β}
    (h : lookupA l k = some v) : (k, v) ∈ l := by
  induction l with
  | nil => simp [lookupA] at h
  | cons kv rest ih =>
    rcases kv with ⟨k1, v1⟩
    by_cases h1 : k1 = k
    · subst h1
      simp [lookupA] at h
      simp [h]
    · simp [lookupA, h1] at h
      exact List.mem_cons_of_mem _ (ih h)

theorem lookupA_of_mem_nodup {κ β : Type} [DecidableEq κ] {l : List (κ × β)} {k : κ} {v : β}
    (hn : (l.map Prod.fst).Nodup) (h : (k, v) ∈ l) : lookupA l k = some v := by
  induction l with
  | nil => simp at h
  | cons kv rest ih =>
    rcases kv with ⟨k1, v1⟩
    simp only [List.map_cons, List.nodup_cons] at hn
    rcases List.mem_cons.mp h with h2 | h2
    · rw [Prod.mk.injEq] at h2
      simp [lookupA, h2.1, h2.2]
    · by_cases h1 : k1 = k
      · subst h1
        exact absurd (List.mem_map_of_mem Prod.fst h2) hn.1
      · simp [lookupA, h1]
        exact ih hn.2 h2

theorem lookupA_append {κ β : Type} [DecidableEq κ] (l1 l2 : List (κ × β)) (k : κ) :
    lookupA (l1 ++ l2) k = (lookupA l1 k).or (lookupA l2 k) := by
  induction l1 with
  | nil => simp [lookupA]
  | cons kv rest ih =>
    by_cases h1 : kv.1 = k <;> simp [lookupA, h1, ih]

theorem mem_removeA {κ β : Type} [DecidableEq κ] {l : List (κ × β)} {k : κ} {kv : κ × β}
    (h : kv ∈ removeA l k) : kv ∈ l ∧ kv.1 ≠ k := by
  induction l with
  | nil => simp [removeA] at h
  | cons kv1 rest ih =>
    by_cases h1 : kv1.1 = k
    · simp only [removeA, if_pos h1] at h
      exact ⟨List.mem_cons_of_mem _ (ih h).1, (ih h).2⟩
    · simp only [removeA, if_neg h1] at h
      rcases List.mem_cons.mp h with h2 | h2
      · subst h2; exact ⟨List.mem_cons_self _ _, h1⟩
      · exact ⟨List.mem_cons_of_mem _ (ih h2).1, (ih h2).2⟩

theorem removeA_sublist {κ β : Type} [DecidableEq κ] (l : List (κ × β)) (k : κ) :
    List.Sublist (removeA l k) l := by
  induction l with
  | nil => simp [removeA]
  | cons kv rest ih =>
    by_cases h1 : kv.1 = k
    · simpa [removeA, h1] using ih.cons kv
    · simpa [removeA, h1] using ih.cons₂ kv

theorem nodup_fst_removeA {κ β : Type} [DecidableEq κ] {l : List (κ × β)} (k : κ)
    (hn : (l.map Prod.fst).Nodup) : ((removeA l k).map Prod.fst).Nodup :=
  ((removeA_sublist l k).map Prod.fst).nodup hn

theorem nodup_fst_insertA {κ β : Type} [DecidableEq κ] {l : List (κ × β)} (k : κ) (v : β)
    (hn : (l.map Prod.fst).Nodup) : ((insertA l k v).map Prod.fst).Nodup := by
  simp only [insertA, List.map_cons, List.nodup_cons]
  refine ⟨?_, nodup_fst_removeA k hn⟩
  intro hmem
  rcases List.mem_map.mp hmem with ⟨kv, hkv, hfst⟩
  exact (mem_removeA hkv).2 hfst

theorem map_fst_updV {κ β : Type} [DecidableEq κ] (l : List (κ × β)) (k : κ) (f : β → β) :
    (updV l k f).map Prod.fst = l.map Prod.fst := by
  induction l with
  | nil => simp [updV]
  | cons kv rest ih =>
    by_cases h1 : kv.1 = k <;> simp [updV, h1] at ih ⊢ <;> exact ih

theorem mem_updV_elim {κ β : Type} [DecidableEq κ] {l : List (κ × β)} {k : κ} {f : β → β}
    {kv : κ × β} (h : kv ∈ updV l k f) :
    (kv ∈ l ∧ kv.1 ≠ k) ∨ (∃ v, (k, v) ∈ l ∧ kv = (k, f v)) := by
  rcases List.mem_map.mp h with ⟨kv0, hkv0, heq⟩
  by_cases h1 : kv0.1 = k
  · simp only [if_pos h1] at heq
    right
    refine ⟨kv0.2, ?_, ?_⟩
    · rw [← h1]
      exact hkv0
    · rw [← heq, h1]
  · simp only [if_neg h1] at heq
    subst heq
    exact Or.inl ⟨hkv0, h1⟩

theorem mem_updA_elim {κ β : Type} [DecidableEq κ] {l : List (κ × β)} {k : κ} {v : β}
    {kv : κ × β} (h : kv ∈ updA l k v) :
    (kv ∈ l ∧ kv.1 ≠ k) ∨ (∃ v0, (k, v0) ∈ l ∧ kv = (k, v)) := by
  have : updA l k v = updV l k (fun _ => v) := by simp [updA, updV]
  rw [this] at h
  rcases mem_updV_elim h with h2 | ⟨v0, h2, h3⟩
  · exact Or.inl h2
  · exact Or.inr ⟨v0, h2, h3⟩

/-! updP lemmas. -/

theorem mem_updP_elim {α : Type} {key : α → Nat} {l : List α} {id : Nat} {f : α → α} {x : α}
    (h : x ∈ updP key l id f) :
    (x ∈ l ∧ key x ≠ id) ∨ (∃ y, y ∈ l ∧ key y = id ∧ x = f y) := by
  rcases List.mem_map.mp h with ⟨y, hy, heq⟩
  by_cases h1 : key y = id
  · simp only [if_pos h1] at heq
    exact Or.inr ⟨y, hy, h1, heq.symm⟩
  · simp only [if_neg h1] at heq
    subst heq
    exact Or.inl ⟨hy, h1⟩

theorem mem_updP_of_mem {α : Type} (key : α → Nat) {l : List α} (id : Nat) (f : α → α) {y : α}
    (hy : y ∈ l) : (if key y = id then f y else y) ∈ updP key l id f :=
  List.mem_map_of_mem _ hy

theorem map_key_updP {α : Type} (key : α → Nat) (l : List α) (id : Nat) (f : α → α)
    (hf : ∀ x, key (f x) = key x) : (updP key l id f).map key = l.map key := by
  induction l with
  | nil => simp [updP]
  | cons y rest ih =>
    by_cases h1 : key y = id <;> simp [updP, h1, hf] at ih ⊢ <;> exact ih

theorem updP_eq_of_not_mem {α : Type} {key : α → Nat} {l : List α} {id : Nat} {f : α → α}
    (h : ∀ x ∈ l, key x ≠ id) : updP key l id f = l := by
  induction l with
  | nil => simp [updP]
  | cons y rest ih =>
    have h1 : key y ≠ id := h y (List.mem_cons_self _ _)
    simp only [updP, List.map_cons, if_neg h1]
    have := ih (fun x hx => h x (List.mem_cons_of_mem _ hx))
    simp only [updP] at this
    rw [this]

theorem countP_updP {α : Type} {key : α → Nat} {l : List α} {id : Nat} {f : α → α}
    {b : α} (hn : (l.map key).Nodup) (hb : b ∈ l) (hid : key b = id) (p : α → Bool) :
    (updP key l id f).countP p + (if p b then 1 else 0) =
      l.countP p + (if p (f b) then 1 else 0) := by
  induction l with
  | nil => simp at hb
  | cons y rest ih =>
    simp only [List.map_cons, List.nodup_cons] at hn
    rcases List.mem_cons.mp hb with h2 | h2
    · subst h2
      have hrest : ∀ x ∈ rest, key x ≠ id := by
        intro x hx hkey
        apply hn.1
        have : key x = key b := hkey.trans hid.symm
        rw [← this]
        exact List.mem_map_of_mem key hx
      simp only [updP, List.map_cons, if_pos hid]
      have hrw : rest.map (fun x => if key x = id then f x else x) = rest := by
        have := @updP_eq_of_not_mem _ key rest id f hrest
        simpa [updP] using this
      rw [hrw, List.countP_cons, List.countP_cons]
      omega
    · have hby : key y ≠ id := by
        intro hkey
        apply hn.1
        have : key b = key y := hid.trans hkey.symm
        rw [← this]
        exact List.mem_map_of_mem key h2
      simp only [updP, List.map_cons, if_neg hby]
      have hrec := ih hn.2 h2
      simp only [updP] at hrec
      rw [List.countP_cons, List.countP_cons]
      omega

theorem nodup_key_inj {α : Type} {key : α → Nat} {l : List α} (hn : (l.map key).Nodup)
    {a b : α} (ha : a ∈ l) (hb : b ∈ l) (hk : key a = key b) : a = b :=
  List.inj_on_of_nodup_map hn ha hb hk

/-- Countable injection: if every element of l1 satisfying p points, by
key, to an element of l2 satisfying q, and the keys of l1 are distinct,
then the p-count is at most the q-count. -/
theorem countP_le_of_ids {α β : Type} (ka : α → Nat) (kb : β → Nat)
    (p : α → Bool) (q : β → Bool) (l1 : List α) (l2 : List β)
    (h1 : (l1.map ka).Nodup)
    (hsub : ∀ x ∈ l1, p x = true → ∃ y ∈ l2, q y = true ∧ kb y = ka x) :
    l1.countP p ≤ l2.countP q := by
  have hn1 : ((l1.filter p).map ka).Nodup :=
    List.Nodup.sublist ((List.filter_sublist l1).map ka) h1
  have hsubset : ∀ a ∈ (l1.filter p).map ka, a ∈ (l2.filter q).map kb := by
    intro a ha
    rcases List.mem_map.mp ha with ⟨x, hx, hax⟩
    rcases List.mem_filter.mp hx with ⟨hxl, hpx⟩
    obtain ⟨y, hy, hqy, hky⟩ := hsub x hxl hpx
    exact List.mem_map.mpr ⟨y, List.mem_filter.mpr ⟨hy, hqy⟩, by rw [hky, hax]⟩
  calc l1.countP p = ((l1.filter p).map ka).length := by
        rw [List.length_map, List.countP_eq_length_filter]
    _ = ((l1.filter p).map ka).toFinset.card :=
        (List.toFinset_card_of_nodup hn1).symm
    _ ≤ ((l2.filter q).map kb).toFinset.card :=
        Finset.card_le_card (fun a ha =>
          List.mem_toFinset.mpr (hsubset a (List.mem_toFinset.mp ha)))
    _ ≤ ((l2.filter q).map kb).length := List.toFinset_card_le _
    _ = l2.countP q := by rw [List.length_map, List.countP_eq_length_filter]

/-! Lemmas about process lookup and the initial workload. -/

theorem find_pred_mem {α : Type} {pr : α → Bool} {l : List α} {a : α}
    (h : l.find? pr = some a) : a ∈ l ∧ pr a = true := by
  induction l with
  | nil => simp at h
  | cons x rest ih =>
    cases hpx : pr x
    · rw [List.find?_cons_of_neg _ (by simp [hpx])] at h
      exact ⟨List.mem_cons_of_mem _ (ih h).1, (ih h).2⟩
    · rw [List.find?_cons_of_pos _ hpx] at h
      cases h
      exact ⟨List.mem_cons_self _ _, hpx⟩

theorem findSub_mem {s : Sys} {id : Nat} {p : SubProc} (h : findSub s id = some p) :
    p ∈ s.subs ∧ p.id = id := by
  unfold findSub at h
  exact ⟨(find_pred_mem h).1, of_decide_eq_true (find_pred_mem h).2⟩

theorem findBody_mem {s : Sys} {id : Nat} {b : BodyProc} (h : findBody s id = some b) :
    b ∈ s.bodies ∧ b.id = id := by
  unfold findBody at h
  exact ⟨(find_pred_mem h).1, of_decide_eq_true (find_pred_mem h).2⟩

theorem findClean_mem {s : Sys} {id : Nat} {cp : CleanProc} (h : findClean s id = some cp) :
    cp ∈ s.cleans ∧ cp.id = id := by
  unfold findClean at h
  exact ⟨(find_pred_mem h).1, of_decide_eq_true (find_pred_mem h).2⟩

theorem mem_mkSubs {cs : List (Contract × Bool)} {k : Nat} {p : SubProc}
    (h : p ∈ mkSubs cs k) :
    (p.c, p.viaManager) ∈ cs ∧ p.pc = SubPc.start ∧ p.wakePermit = false ∧
      p.wokenBy = none ∧ k ≤ p.id := by
  induction cs generalizing k with
  | nil => simp [mkSubs] at h
  | cons cv rest ih =>
    simp only [mkSubs] at h
    rcases List.mem_cons.mp h with h2 | h2
    · subst h2
      simp
    · obtain ⟨hm, hpc, hwp, hwb, hk⟩ := ih h2
      exact ⟨List.mem_cons_of_mem _ hm, hpc, hwp, hwb, by omega⟩

theorem mkSubs_id_nodup (cs : List (Contract × Bool)) (k : Nat) :
    ((mkSubs cs k).map SubProc.id).Nodup := by
  induction cs generalizing k with
  | nil => simp [mkSubs]
  | cons cv rest ih =>
    simp only [mkSubs, List.map_cons, List.nodup_cons]
    refine ⟨?_, ih (k + 1)⟩
    intro hmem
    rcases List.mem_map.mp hmem with ⟨p, hp, hid⟩
    have := (mem_mkSubs hp).2.2.2.2
    omega

/-! Elimination principles for the step functions: one disjunct per
atomic section, each giving the exact successor state. -/

theorem stepSub_elim {s s' : Sys} {id : Nat} (h : stepSub s id = some s') :
    ∃ p, findSub s id = some p ∧
    ((p.pc = SubPc.start ∧
        (p.c.requiresGlobalLock && (lookupA s.running p.c.tname).isSome) = true ∧
        p.c.queueable = true ∧
        s' = { s with subs := updSub s.subs id (fun q => { q with pc := SubPc.pushWait }) }) ∨
     (p.pc = SubPc.start ∧
        (p.c.requiresGlobalLock && (lookupA s.running p.c.tname).isSome) = true ∧
        p.c.queueable = false ∧
        s' = { s with subs := updSub s.subs id (fun q =>
          { q with pc := SubPc.doneErr (TaskError.lockConflict
            (p.c.tname ++ " already running")) }) }) ∨
     (p.pc = SubPc.start ∧
        (p.c.requiresGlobalLock && (lookupA s.running p.c.tname).isSome) = false ∧
        s' = { s with subs := updSub s.subs id (fun q => { q with pc := SubPc.acquireLocks }) }) ∨
     (p.pc = SubPc.pushWait ∧
        s' = { s with queues := pushQ s.queues p.c.tname id,
                      subs := updSub s.subs id (fun q => { q with pc := SubPc.waiting }) }) ∨
     (p.pc = SubPc.waiting ∧ p.wakePermit = true ∧
        s' = { s with subs := updSub s.subs id (fun q => { q with pc := SubPc.acquireLocks }) }) ∨
     (p.pc = SubPc.acquireLocks ∧
        (p.c.locks.any (fun k => s.lockHeld.contains k)) = true ∧
        s' = { s with subs := updSub s.subs id (fun q =>
          { q with pc := SubPc.doneErr (TaskError.lockConflict
            (String.intercalate ", "
              (p.c.locks.filter (fun k => s.lockHeld.contains k)))) }) }) ∨
     (p.pc = SubPc.acquireLocks ∧
        (p.c.locks.any (fun k => s.lockHeld.contains k)) = false ∧
        s' = { s with lockHeld := s.lockHeld ++ p.c.locks,
                      cells := insertA s.cells id
                        ⟨p.c, TaskState.pending, false, true, false, false⟩,
                      subs := updSub s.subs id (fun q =>
                        { q with pc := subNextAfterLocks p.c }) }) ∨
     (p.pc = SubPc.insertRunning ∧
        s' = { s with running := insertA s.running p.c.tname id,
                      subs := updSub s.subs id (fun q =>
                        { q with pc := subNextAfterInsert p.c }) }) ∨
     (∃ limit, p.pc = SubPc.typeSem ∧ p.c.maxConcurrent = some limit ∧
        s' = { s with
          typeSems := if (lookupA s.typeSems p.c.tname).isSome then s.typeSems
                      else insertA s.typeSems p.c.tname limit,
          subs := updSub s.subs id (fun q => { q with pc := SubPc.spawnBody }) }) ∨
     (p.pc = SubPc.spawnBody ∧
        s' = { s with bodies := s.bodies ++ [⟨id, p.c, BodyPc.acqGlobal⟩],
                      subs := updSub s.subs id (fun q =>
                        { q with pc := if q.viaManager then SubPc.track else SubPc.doneOk }) }) ∨
     (p.pc = SubPc.track ∧
        s' = { s with tasks := s.tasks ++ [id],
                      cleans := s.cleans ++ [⟨id, CleanPc.reg⟩],
                      subs := updSub s.subs id (fun q => { q with pc := SubPc.doneOk }) })) := by
  unfold stepSub at h
  split at h
  · simp at h
  · rename_i p hf
    refine ⟨p, hf, ?_⟩
    split at h
    · -- start
      rename_i hpc
      split at h
      · rename_i hgate
        split at h
        · rename_i hq
          cases h
          exact Or.inl ⟨hpc, hgate, hq, rfl⟩
        · rename_i hq
          cases h
          exact Or.inr (Or.inl ⟨hpc, hgate, by simpa using hq, rfl⟩)
      · rename_i hgate
        cases h
        exact Or.inr (Or.inr (Or.inl ⟨hpc, by simpa using hgate, rfl⟩))
    · rename_i hpc
      cases h
      exact Or.inr (Or.inr (Or.inr (Or.inl ⟨hpc, rfl⟩)))
    · rename_i hpc
      split at h
      · rename_i hwp
        cases h
        exact Or.inr (Or.inr (Or.inr (Or.inr (Or.inl ⟨hpc, hwp, rfl⟩))))
      · simp at h
    · rename_i hpc
      split at h
      · rename_i hconf
        cases h
        exact Or.inr (Or.inr (Or.inr (Or.inr (Or.inr (Or.inl ⟨hpc, hconf, rfl⟩)))))
      · rename_i hconf
        cases h
        exact Or.inr (Or.inr (Or.inr (Or.inr (Or.inr (Or.inr (Or.inl
          ⟨hpc, by simpa using hconf, rfl⟩))))))
    · rename_i hpc
      cases h
      exact Or.inr (Or.inr (Or.inr (Or.inr (Or.inr (Or.inr (Or.inr (Or.inl ⟨hpc, rfl⟩)))))))
    · rename_i hpc
      split at h
      · rename_i limit hmc
        cases h
        exact Or.inr (Or.inr (Or.inr (Or.inr (Or.inr (Or.inr (Or.inr (Or.inr (Or.inl
          ⟨limit, hpc, hmc, rfl⟩))))))))
      · simp at h
    · rename_i hpc
      cases h
      exact Or.inr (Or.inr (Or.inr (Or.inr (Or.inr (Or.inr (Or.inr (Or.inr (Or.inr (Or.inl
        ⟨hpc, rfl⟩)))))))))
    · rename_i hpc
      cases h
      exact Or.inr (Or.inr (Or.inr (Or.inr (Or.inr (Or.inr (Or.inr (Or.inr (Or.inr (Or.inr
        ⟨hpc, rfl⟩)))))))))
    · simp at h
    · simp at h

theorem stepBody_elim {s s' : Sys} {id : Nat} (h : stepBody s id = some s') :
    ∃ b, findBody s id = some b ∧
    ((∃ cap, b.pc = BodyPc.acqGlobal ∧ s.globalCap = some cap ∧ globalHeldCount s < cap ∧
        s' = { s with bodies := updBody s.bodies id (fun q => { q with pc := BodyPc.acqType }) }) ∨
     (b.pc = BodyPc.acqGlobal ∧ s.globalCap = none ∧
        s' = { s with bodies := updBody s.bodies id (fun q => { q with pc := BodyPc.acqType }) }) ∨
     (∃ mc cap, b.pc = BodyPc.acqType ∧ b.c.maxConcurrent = some mc ∧
        lookupA s.typeSems b.c.tname = some cap ∧ typeHeldCount s b.c.tname < cap ∧
        s' = { s with bodies := updBody s.bodies id (fun q =>
          { q with pc := BodyPc.setRunning }) }) ∨
     (b.pc = BodyPc.acqType ∧ b.c.maxConcurrent = none ∧
        s' = { s with bodies := updBody s.bodies id (fun q =>
          { q with pc := BodyPc.setRunning }) }) ∨
     (b.pc = BodyPc.setRunning ∧
        s' = { s with
          cells := updV s.cells id (fun cl => { cl with tstate := TaskState.running }),
          bodies := updBody s.bodies id (fun q => { q with pc := BodyPc.runBody }) }) ∨
     (b.pc = BodyPc.runBody ∧
        s' = { s with bodies := updBody s.bodies id (fun q =>
          { q with pc := BodyPc.relLocks }) }) ∨
     (b.pc = BodyPc.relLocks ∧
        s' = { s with
          lockHeld := s.lockHeld.filter (fun k => !b.c.locks.contains k),
          bodies := updBody s.bodies id (fun q =>
            { q with pc := if b.c.requiresGlobalLock then BodyPc.rmRunning
                           else BodyPc.setDone }) }) ∨
     (b.pc = BodyPc.rmRunning ∧
        s' = { s with
          running := removeA s.running b.c.tname,
          bodies := updBody s.bodies id (fun q => { q with pc := BodyPc.wakeNext }) }) ∨
     (∃ q w, b.pc = BodyPc.wakeNext ∧ lookupA s.queues b.c.tname = some q ∧
        q.getLast? = some w ∧
        s' = { s with
          queues := updA s.queues b.c.tname q.dropLast,
          subs := updSub s.subs w (fun sp =>
            { sp with wakePermit := true, wokenBy := some id }),
          bodies := updBody s.bodies id (fun q2 => { q2 with pc := BodyPc.setDone }) }) ∨
     (∃ q, b.pc = BodyPc.wakeNext ∧ lookupA s.queues b.c.tname = some q ∧
        q.getLast? = none ∧
        s' = { s with
          queues := removeA s.queues b.c.tname,
          bodies := updBody s.bodies id (fun q2 => { q2 with pc := BodyPc.setDone }) }) ∨
     (b.pc = BodyPc.wakeNext ∧ lookupA s.queues b.c.tname = none ∧
        s' = { s with bodies := updBody s.bodies id (fun q2 =>
          { q2 with pc := BodyPc.setDone }) }) ∨
     (b.pc = BodyPc.setDone ∧
        s' = { s with
          cells := updV s.cells id (fun cl =>
            { cl with tstate := if b.c.succeeds then TaskState.completed
                                else TaskState.failed }),
          bodies := updBody s.bodies id (fun q => { q with pc := BodyPc.finish }) }) ∨
     (b.pc = BodyPc.finish ∧
        s' = { s with
          cells := updV s.cells id (fun cl =>
            if cl.compRegistered then { cl with compNotified := true } else cl),
          bodies := updBody s.bodies id (fun q => { q with pc := BodyPc.dropAll }) }) ∨
     (b.pc = BodyPc.dropAll ∧
        s' = { s with
          cells := updV s.cells id (fun cl => { cl with rxAlive := false }),
          bodies := updBody s.bodies id (fun q => { q with pc := BodyPc.done }) })) := by
  unfold stepBody at h
  split at h
  · simp at h
  · rename_i b hf
    refine ⟨b, hf, ?_⟩
    split at h
    · rename_i hpc
      split at h
      · rename_i cap hcap
        split at h
        · rename_i hlt
          cases h
          exact Or.inl ⟨cap, hpc, hcap, hlt, rfl⟩
        · simp at h
      · rename_i hcap
        cases h
        exact Or.inr (Or.inl ⟨hpc, hcap, rfl⟩)
    · rename_i hpc
      split at h
      · rename_i mc hmc
        split at h
        · rename_i cap hsem
          split at h
          · rename_i hlt
            cases h
            exact Or.inr (Or.inr (Or.inl ⟨mc, cap, hpc, hmc, hsem, hlt, rfl⟩))
          · simp at h
        · simp at h
      · rename_i hmc
        cases h
        exact Or.inr (Or.inr (Or.inr (Or.inl ⟨hpc, hmc, rfl⟩)))
    · rename_i hpc
      cases h
      exact Or.inr (Or.inr (Or.inr (Or.inr (Or.inl ⟨hpc, rfl⟩))))
    · rename_i hpc
      cases h
      exact Or.inr (Or.inr (Or.inr (Or.inr (Or.inr (Or.inl ⟨hpc, rfl⟩)))))
    · rename_i hpc
      cases h
      exact Or.inr (Or.inr (Or.inr (Or.inr (Or.inr (Or.inr (Or.inl ⟨hpc, rfl⟩))))))
    · rename_i hpc
      cases h
      exact Or.inr (Or.inr (Or.inr (Or.inr (Or.inr (Or.inr (Or.inr (Or.inl ⟨hpc, rfl⟩)))))))
    · rename_i hpc
      split at h
      · rename_i q hq
        split at h
        · rename_i w hw
          cases h
          exact Or.inr (Or.inr (Or.inr (Or.inr (Or.inr (Or.inr (Or.inr (Or.inr (Or.inl
            ⟨q, w, hpc, hq, hw, rfl⟩))))))))
        · rename_i hw
          cases h
          exact Or.inr (Or.inr (Or.inr (Or.inr (Or.inr (Or.inr (Or.inr (Or.inr (Or.inr (Or.inl
            ⟨q, hpc, hq, hw, rfl⟩)))))))))
      · rename_i hq
        cases h
        exact Or.inr (Or.inr (Or.inr (Or.inr (Or.inr (Or.inr (Or.inr (Or.inr (Or.inr (Or.inr
          (Or.inl ⟨hpc, hq, rfl⟩))))))))))
    · rename_i hpc
      cases h
      exact Or.inr (Or.inr (Or.inr (Or.inr (Or.inr (Or.inr (Or.inr (Or.inr (Or.inr (Or.inr
        (Or.inr (Or.inl ⟨hpc, rfl⟩)))))))))))
    · rename_i hpc
      cases h
      exact Or.inr (Or.inr (Or.inr (Or.inr (Or.inr (Or.inr (Or.inr (Or.inr (Or.inr (Or.inr
        (Or.inr (Or.inr (Or.inl ⟨hpc, rfl⟩))))))))))))
    · rename_i hpc
      cases h
      exact Or.inr (Or.inr (Or.inr (Or.inr (Or.inr (Or.inr (Or.inr (Or.inr (Or.inr (Or.inr
        (Or.inr (Or.inr (Or.inr ⟨hpc, rfl⟩))))))))))))
    · simp at h

theorem stepClean_elim {s s' : Sys} {id : Nat} (h : stepClean s id = some s') :
    ∃ cp, findClean s id = some cp ∧
    ((cp.pc = CleanPc.reg ∧
        s' = { s with
          cells := updV s.cells id (fun cl => { cl with compRegistered := true }),
          cleans := updClean s.cleans id (fun q => { q with pc := CleanPc.wait }) }) ∨
     (∃ cl, cp.pc = CleanPc.wait ∧ lookupA s.cells id = some cl ∧ cl.compNotified = true ∧
        s' = { s with
          tasks := s.tasks.filter (fun t => t ≠ id),
          cleans := updClean s.cleans id (fun q => { q with pc := CleanPc.done }) })) := by
  unfold stepClean at h
  split at h
  · simp at h
  · rename_i cp hf
    refine ⟨cp, hf, ?_⟩
    split at h
    · rename_i hpc
      cases h
      exact Or.inl ⟨hpc, rfl⟩
    · rename_i hpc
      split at h
      · rename_i cl hcl
        split at h
        · rename_i hnot
          cases h
          exact Or.inr ⟨cl, hpc, hcl, hnot, rfl⟩
        · simp at h
      · simp at h
    · simp at h

theorem cancel_elim {s s' : Sys} {tid : Nat} (h : stepA s (Action.cancel tid) = some s') :
    s' = s ∨
    s' = { s with cells := updV s.cells tid (fun c2 => { c2 with cancelFlag := true }) } := by
  simp only [stepA] at h
  unfold cancelTask at h
  split at h
  · rename_i s2 heq
    cases h
    split at heq
    · split at heq
      · rename_i cl hcl
        split at heq
        · cases heq
          exact Or.inr rfl
        · simp at heq
      · simp at heq
    · simp at heq
  · cases h
    exact Or.inl rfl

theorem updSub_eq (l : List SubProc) (id : Nat) (f : SubProc → SubProc) :
    updSub l id f = updP SubProc.id l id f := rfl

theorem updBody_eq (l : List BodyProc) (id : Nat) (f : BodyProc → BodyProc) :
    updBody l id f = updP BodyProc.id l id f := rfl

theorem updClean_eq (l : List CleanProc) (id : Nat) (f : CleanProc → CleanProc) :
    updClean l id f = updP CleanProc.id l id f := rfl

theorem updP_witness {α : Type} (key : α → Nat) (l : List α) (id : Nat) (f : α → α) {y : α}
    (hy : y ∈ l) :
    ∃ y2, y2 ∈ updP key l id f ∧ (y2 = y ∨ (key y = id ∧ y2 = f y)) := by
  refine ⟨if key y = id then f y else y, mem_updP_of_mem key id f hy, ?_⟩
  by_cases h : key y = id <;> simp [h]

/-! Transfer lemmas: the executor components of the invariant survive a
pc-style update of one submit call, because such updates keep identity,
contract and manager flag. -/

theorem subsC_updSub {cs : List (Contract × Bool)} {l : List SubProc} {id : Nat}
    {f : SubProc → SubProc} (hfc : ∀ x, (f x).c = x.c)
    (hfvm : ∀ x, (f x).viaManager = x.viaManager)
    (h : ∀ p ∈ l, (p.c, p.viaManager) ∈ cs) :
    ∀ p ∈ updP SubProc.id l id f, (p.c, p.viaManager) ∈ cs := by
  intro x hx
  rcases mem_updP_elim hx with ⟨hxl, _⟩ | ⟨y, hy, _, rfl⟩
  · exact h x hxl
  · rw [hfc, hfvm]
    exact h y hy

theorem bodySub_updSub {l : List SubProc} {bodies : List BodyProc} {id : Nat}
    {f : SubProc → SubProc}
    (hfid : ∀ x, (f x).id = x.id) (hfc : ∀ x, (f x).c = x.c)
    (hkeep : ∀ y ∈ l, y.id = id → (y.pc = SubPc.track ∨ y.pc = SubPc.doneOk) →
      ((f y).pc = SubPc.track ∨ (f y).pc = SubPc.doneOk))
    (h : ∀ b ∈ bodies, ∃ p ∈ l, p.id = b.id ∧ p.c = b.c ∧
      (p.pc = SubPc.track ∨ p.pc = SubPc.doneOk)) :
    ∀ b ∈ bodies, ∃ p ∈ updP SubProc.id l id f, p.id = b.id ∧ p.c = b.c ∧
      (p.pc = SubPc.track ∨ p.pc = SubPc.doneOk) := by
  intro b hb
  obtain ⟨q, hq, hqid, hqc, hqpc⟩ := h b hb
  obtain ⟨y2, hy2, hcase⟩ := updP_witness SubProc.id l id f hq
  rcases hcase with rfl | ⟨hkey, rfl⟩
  · exact ⟨y2, hy2, hqid, hqc, hqpc⟩
  · refine ⟨f q, hy2, ?_, ?_, hkeep q hq hkey hqpc⟩
    · rw [hfid]
      exact hqid
    · rw [hfc]
      exact hqc

theorem queueSub_updSub {l : List SubProc} {Q : List (String × List Nat)} {id : Nat}
    {f : SubProc → SubProc}
    (hfid : ∀ x, (f x).id = x.id) (hfc : ∀ x, (f x).c = x.c)
    (h : ∀ kq ∈ Q, ∀ w ∈ kq.2, ∃ p ∈ l, p.id = w ∧ p.c.tname = kq.1) :
    ∀ kq ∈ Q, ∀ w ∈ kq.2, ∃ p ∈ updP SubProc.id l id f, p.id = w ∧ p.c.tname = kq.1 := by
  intro kq hkq w hw
  obtain ⟨y, hy, hyid, hytn⟩ := h kq hkq w hw
  obtain ⟨y2, hy2, hcase⟩ := updP_witness SubProc.id l id f hy
  rcases hcase with rfl | ⟨_, rfl⟩
  · exact ⟨y2, hy2, hyid, hytn⟩
  · refine ⟨f y, hy2, ?_, ?_⟩
    · rw [hfid]
      exact hyid
    · rw [hfc]
      exact hytn

theorem wokenInv_updSub {l : List SubProc} {bodies : List BodyProc} {id : Nat}
    {f : SubProc → SubProc}
    (hfc : ∀ x, (f x).c = x.c) (hfwb : ∀ x, (f x).wokenBy = x.wokenBy)
    (h : ∀ p ∈ l, ∀ t, p.wokenBy = some t → ∃ b ∈ bodies, b.id = t ∧
      b.c.requiresGlobalLock = true ∧ b.c.tname = p.c.tname ∧ pastRM b.pc = true) :
    ∀ p ∈ updP SubProc.id l id f, ∀ t, p.wokenBy = some t → ∃ b ∈ bodies, b.id = t ∧
      b.c.requiresGlobalLock = true ∧ b.c.tname = p.c.tname ∧ pastRM b.pc = true := by
  intro x hx t hwb
  rcases mem_updP_elim hx with ⟨hxl, _⟩ | ⟨y, hy, _, rfl⟩
  · exact h x hxl t hwb
  · rw [hfwb] at hwb
    obtain ⟨b, hb, hbid, hbg, hbtn, hbrm⟩ := h y hy t hwb
    exact ⟨b, hb, hbid, hbg, by rw [hfc]; exact hbtn, hbrm⟩

theorem subsNodup_updSub {l : List SubProc} {id : Nat} {f : SubProc → SubProc}
    (hfid : ∀ x, (f x).id = x.id) (h : (l.map SubProc.id).Nodup) :
    ((updP SubProc.id l id f).map SubProc.id).Nodup := by
  rw [map_key_updP SubProc.id l id f hfid]
  exact h

/-- The inductive invariant of the executor and the manager, relative
to the initial workload cs. -/
structure Inv (cs : List (Contract × Bool)) (s : Sys) : Prop where
  subsNodup : (s.subs.map SubProc.id).Nodup
  bodiesNodup : (s.bodies.map BodyProc.id).Nodup
  cellsNodup : (s.cells.map Prod.fst).Nodup
  subsC : ∀ p ∈ s.subs, (p.c, p.viaManager) ∈ cs
  bodySub : ∀ b ∈ s.bodies, ∃ p ∈ s.subs, p.id = b.id ∧ p.c = b.c ∧
    (p.pc = SubPc.track ∨ p.pc = SubPc.doneOk)
  subCell : ∀ p ∈ s.subs, postAcquire p.pc = true →
    ∃ cl, lookupA s.cells p.id = some cl ∧ cl.c = p.c
  cellState : ∀ kv ∈ s.cells,
    (∀ b ∈ s.bodies, b.id = kv.1 → kv.2.c = b.c ∧ stateMatches kv.2 b) ∧
    ((∀ b ∈ s.bodies, b.id ≠ kv.1) → kv.2.tstate = TaskState.pending)
  queueSub : ∀ kq ∈ s.queues, ∀ w ∈ kq.2, ∃ p ∈ s.subs, p.id = w ∧ p.c.tname = kq.1
  rmAbsent : ∀ b ∈ s.bodies, b.c.requiresGlobalLock = true → pastRM b.pc = true →
    lookupA s.running b.c.tname ≠ some b.id
  wokenInv : ∀ p ∈ s.subs, ∀ t, p.wokenBy = some t →
    ∃ b ∈ s.bodies, b.id = t ∧ b.c.requiresGlobalLock = true ∧
      b.c.tname = p.c.tname ∧ pastRM b.pc = true
  globalBound : ∀ cap, s.globalCap = some cap → globalHeldCount s ≤ cap
  typeSemsNodup : (s.typeSems.map Prod.fst).Nodup
  typeBound : ∀ kv ∈ s.typeSems, typeHeldCount s kv.1 ≤ kv.2
  typeSemOf : ∀ b ∈ s.bodies, b.c.maxConcurrent.isSome = true →
    (lookupA s.typeSems b.c.tname).isSome = true
  subSem : ∀ p ∈ s.subs,
    (p.pc = SubPc.spawnBody ∨ p.pc = SubPc.track ∨ p.pc = SubPc.doneOk) →
    p.c.maxConcurrent.isSome = true → (lookupA s.typeSems p.c.tname).isSome = true
  wakeGlobal : ∀ b ∈ s.bodies, (b.pc = BodyPc.rmRunning ∨ b.pc = BodyPc.wakeNext) →
    b.c.requiresGlobalLock = true
  taskCell : ∀ tid ∈ s.tasks, ∃ cl, lookupA s.cells tid = some cl

/-- Preservation for the submit sections that only move the stepping
call from one pre-admission pc to another. -/
theorem inv_subPcOnly {cs : List (Contract × Bool)} {s : Sys} {id : Nat} {p : SubProc}
    {Y : SubPc} (hInv : Inv cs s) (hf : findSub s id = some p)
    (hold : postAcquire p.pc = false) (hnew : postAcquire Y = false) :
    Inv cs { s with subs := updSub s.subs id (fun q => { q with pc := Y }) } := by
  obtain ⟨hp, hpid⟩ := findSub_mem hf
  have hYset : ¬(Y = SubPc.spawnBody ∨ Y = SubPc.track ∨ Y = SubPc.doneOk) := by
    rintro (rfl | rfl | rfl) <;> simp [postAcquire] at hnew
  refine ⟨?_, hInv.bodiesNodup, hInv.cellsNodup, ?_, ?_, ?_, hInv.cellState, ?_,
    hInv.rmAbsent, ?_, hInv.globalBound, hInv.typeSemsNodup, ?_, hInv.typeSemOf, ?_,
    hInv.wakeGlobal, hInv.taskCell⟩
  · show ((updP SubProc.id s.subs id (fun q => { q with pc := Y })).map SubProc.id).Nodup
    rw [map_key_updP SubProc.id s.subs id (fun q => { q with pc := Y }) (fun x => rfl)]
    exact hInv.subsNodup
  · intro x hx
    rcases mem_updP_elim hx with ⟨hxl, _⟩ | ⟨y, hy, _, rfl⟩
    · exact hInv.subsC x hxl
    · exact hInv.subsC y hy
  · intro b hb
    obtain ⟨q, hq, hqid, hqc, hqpc⟩ := hInv.bodySub b hb
    have hqne : q.id ≠ id := by
      intro heq
      have : q = p := nodup_key_inj hInv.subsNodup hq hp (by rw [heq, hpid])
      subst this
      rcases hqpc with h2 | h2 <;> rw [h2] at hold <;> simp [postAcquire] at hold
    refine ⟨q, ?_, hqid, hqc, hqpc⟩
    have := mem_updP_of_mem SubProc.id id (fun q => { q with pc := Y }) hq
    rw [if_neg hqne] at this
    exact this
  · intro x hx hpost
    rcases mem_updP_elim hx with ⟨hxl, _⟩ | ⟨y, hy, hyid, rfl⟩
    · exact hInv.subCell x hxl hpost
    · exact absurd hpost (by simp [hnew])
  · intro kq hkq w hw
    obtain ⟨y, hy, hyid, hytn⟩ := hInv.queueSub kq hkq w hw
    obtain ⟨y2, hy2, hcase⟩ := updP_witness SubProc.id s.subs id
      (fun q => { q with pc := Y }) hy
    rcases hcase with rfl | ⟨_, rfl⟩
    · exact ⟨y2, hy2, hyid, hytn⟩
    · exact ⟨_, hy2, hyid, hytn⟩
  · intro x hx t hwb
    rcases mem_updP_elim hx with ⟨hxl, _⟩ | ⟨y, hy, hyid, rfl⟩
    · exact hInv.wokenInv x hxl t hwb
    · exact hInv.wokenInv y hy t hwb
  · intro kv hkv
    exact hInv.typeBound kv hkv
  · intro x hx hset hmc
    rcases mem_updP_elim hx with ⟨hxl, _⟩ | ⟨y, hy, hyid, rfl⟩
    · exact hInv.subSem x hxl hset hmc
    · exact absurd hset hYset

/-- No invariant component mentions the held lock keys, so replacing
them preserves the invariant. -/
theorem inv_lockHeld {cs : List (Contract × Bool)} {s : Sys} (L : List String)
    (h : Inv cs s) : Inv cs { s with lockHeld := L } :=
  ⟨h.subsNodup, h.bodiesNodup, h.cellsNodup, h.subsC, h.bodySub, h.subCell, h.cellState,
   h.queueSub, h.rmAbsent, h.wokenInv, h.globalBound, h.typeSemsNodup, h.typeBound,
   h.typeSemOf, h.subSem, h.wakeGlobal, h.taskCell⟩

/-- No invariant component mentions the cleanup observers. -/
theorem inv_setCleans {cs : List (Contract × Bool)} {s : Sys} (C : List CleanProc)
    (h : Inv cs s) : Inv cs { s with cleans := C } :=
  ⟨h.subsNodup, h.bodiesNodup, h.cellsNodup, h.subsC, h.bodySub, h.subCell, h.cellState,
   h.queueSub, h.rmAbsent, h.wokenInv, h.globalBound, h.typeSemsNodup, h.typeBound,
   h.typeSemOf, h.subSem, h.wakeGlobal, h.taskCell⟩

/-- Removing entries from the manager registry preserves the invariant. -/
theorem inv_tasksFilter {cs : List (Contract × Bool)} {s : Sys} (pr : Nat → Bool)
    (h : Inv cs s) : Inv cs { s with tasks := s.tasks.filter pr } := by
  refine ⟨h.subsNodup, h.bodiesNodup, h.cellsNodup, h.subsC, h.bodySub, h.subCell,
    h.cellState, h.queueSub, h.rmAbsent, h.wokenInv, h.globalBound, h.typeSemsNodup,
    h.typeBound, h.typeSemOf, h.subSem, h.wakeGlobal, ?_⟩
  intro tid htid
  exact h.taskCell tid (List.mem_of_mem_filter htid)

/-- Updating one state cell with a function that keeps the contract and
the task state preserves the invariant. -/
theorem inv_cellsMisc {cs : List (Contract × Bool)} {s : Sys} (id : Nat) (f : Cells → Cells)
    (hfc : ∀ cl, (f cl).c = cl.c) (hft : ∀ cl, (f cl).tstate = cl.tstate)
    (h : Inv cs s) : Inv cs { s with cells := updV s.cells id f } := by
  refine ⟨h.subsNodup, h.bodiesNodup, ?_, h.subsC, h.bodySub, ?_, ?_, h.queueSub,
    h.rmAbsent, h.wokenInv, h.globalBound, h.typeSemsNodup, h.typeBound, h.typeSemOf,
    h.subSem, h.wakeGlobal, ?_⟩
  · show ((updV s.cells id f).map Prod.fst).Nodup
    rw [map_fst_updV]
    exact h.cellsNodup
  · intro p hp hpost
    obtain ⟨cl, hcl, hclc⟩ := h.subCell p hp hpost
    by_cases h2 : p.id = id
    · refine ⟨f cl, ?_, by rw [hfc]; exact hclc⟩
      rw [lookupA_updV, if_pos h2, ← h2, hcl]
      rfl
    · exact ⟨cl, by rw [lookupA_updV, if_neg h2]; exact hcl, hclc⟩
  · intro kv hkv
    rcases mem_updV_elim hkv with ⟨hkvl, _⟩ | ⟨v, hv, rfl⟩
    · exact h.cellState kv hkvl
    · obtain ⟨h1, h2⟩ := h.cellState (id, v) hv
      constructor
      · intro b2 hb2 hbid
        obtain ⟨hc, hsm⟩ := h1 b2 hb2 hbid
        refine ⟨by rw [hfc]; exact hc, ?_, ?_, ?_⟩
        · intro hx
          rw [hft]
          exact (hsm.1 hx)
        · intro hx
          rw [hft]
          exact (hsm.2.1 hx)
        · intro hx
          rw [hft]
          exact (hsm.2.2 hx)
      · intro hno
        rw [hft]
        exact h2 hno
  · intro tid htid
    obtain ⟨cl, hcl⟩ := h.taskCell tid htid
    by_cases h2 : tid = id
    · exact ⟨f cl, by rw [lookupA_updV, if_pos h2, ← h2, hcl]; rfl⟩
    · exact ⟨cl, by rw [lookupA_updV, if_neg h2]; exact hcl⟩

/-- Preservation for body sections that only advance the body pc (and
possibly fields no invariant component mentions). -/
theorem inv_bodyPcOnly {cs : List (Contract × Bool)} {s : Sys} {id : Nat} {b : BodyProc}
    {Y : BodyPc} (hInv : Inv cs s) (hf : findBody s id = some b)
    (hpre : prePhase Y = true → prePhase b.pc = true)
    (hrun : runPhase Y = true → runPhase b.pc = true)
    (hdone : donePhase Y = true → donePhase b.pc = true)
    (hrmXY : pastRM Y = true → pastRM b.pc = true ∨ b.c.requiresGlobalLock = false)
    (hwok : pastRM b.pc = true → pastRM Y = true)
    (hwgY : (Y = BodyPc.rmRunning ∨ Y = BodyPc.wakeNext) → b.c.requiresGlobalLock = true)
    (hg : ∀ cap, s.globalCap = some cap →
      globalHeldCount s + (if holdGlobal Y then 1 else 0) ≤
        cap + (if holdGlobal b.pc then 1 else 0))
    (ht : ∀ kv ∈ s.typeSems,
      typeHeldCount s kv.1 +
        (if b.c.tname == kv.1 && b.c.maxConcurrent.isSome && holdType Y then 1 else 0) ≤
      kv.2 + (if b.c.tname == kv.1 && b.c.maxConcurrent.isSome && holdType b.pc
              then 1 else 0)) :
    Inv cs { s with bodies := updBody s.bodies id (fun q => { q with pc := Y }) } := by
  obtain ⟨hb, hbid⟩ := findBody_mem hf
  refine ⟨hInv.subsNodup, ?_, hInv.cellsNodup, hInv.subsC, ?_, hInv.subCell, ?_,
    hInv.queueSub, ?_, ?_, ?_, hInv.typeSemsNodup, ?_, ?_, hInv.subSem, ?_,
    hInv.taskCell⟩
  · exact (by
      show ((updP BodyProc.id s.bodies id (fun q => { q with pc := Y })).map
        BodyProc.id).Nodup
      rw [map_key_updP BodyProc.id s.bodies id (fun q => { q with pc := Y }) (fun x => rfl)]
      exact hInv.bodiesNodup)
  · intro b2 hb2
    rcases mem_updP_elim hb2 with ⟨hb2l, _⟩ | ⟨y, hy, _, rfl⟩
    · exact hInv.bodySub b2 hb2l
    · exact hInv.bodySub y hy
  · intro kv hkv
    obtain ⟨h1, h2⟩ := hInv.cellState kv hkv
    constructor
    · intro b2 hb2 hbid2
      rcases mem_updP_elim hb2 with ⟨hb2l, _⟩ | ⟨y, hy, hyid, rfl⟩
      · exact h1 b2 hb2l hbid2
      · have hyb : y = b := nodup_key_inj hInv.bodiesNodup hy hb (by rw [hyid, hbid])
        subst hyb
        obtain ⟨hc, hsm⟩ := h1 y hy hbid2
        exact ⟨hc, fun hx => hsm.1 (hpre hx), fun hx => hsm.2.1 (hrun hx),
          fun hx => hsm.2.2 (hdone hx)⟩
    · intro hno
      refine h2 ?_
      intro y hy
      have := hno _ (mem_updP_of_mem BodyProc.id id (fun q => { q with pc := Y }) hy)
      by_cases h3 : y.id = id
      · rw [if_pos h3] at this
        exact this
      · rw [if_neg h3] at this
        exact this
  · intro b2 hb2 hrgl hpast
    rcases mem_updP_elim hb2 with ⟨hb2l, _⟩ | ⟨y, hy, hyid, rfl⟩
    · exact hInv.rmAbsent b2 hb2l hrgl hpast
    · have hyb : y = b := nodup_key_inj hInv.bodiesNodup hy hb (by rw [hyid, hbid])
      subst hyb
      rcases hrmXY hpast with h3 | h3
      · exact hInv.rmAbsent y hy hrgl h3
      · rw [hrgl] at h3
        cases h3
  · intro p hp t hwb
    obtain ⟨b0, hb0, hb0id, hb0g, hb0tn, hb0rm⟩ := hInv.wokenInv p hp t hwb
    obtain ⟨y2, hy2, hcase⟩ := updP_witness BodyProc.id s.bodies id
      (fun q => { q with pc := Y }) hb0
    rcases hcase with rfl | ⟨hkey, rfl⟩
    · exact ⟨y2, hy2, hb0id, hb0g, hb0tn, hb0rm⟩
    · have hyb : b0 = b := nodup_key_inj hInv.bodiesNodup hb0 hb (by rw [hkey, hbid])
      refine ⟨_, hy2, hb0id, hb0g, hb0tn, ?_⟩
      show pastRM Y = true
      apply hwok
      rw [← hyb]
      exact hb0rm
  · intro cap hcap
    have hcnt := countP_updP hInv.bodiesNodup hb hbid
      (fun x => holdGlobal x.pc) (f := fun q => { q with pc := Y })
    have hgc := hg cap hcap
    show (updP BodyProc.id s.bodies id (fun q => { q with pc := Y })).countP
      (fun x => holdGlobal x.pc) ≤ cap
    unfold globalHeldCount at hgc
    dsimp only at hcnt
    omega
  · intro kv hkv
    have hcnt := countP_updP hInv.bodiesNodup hb hbid
      (fun x => x.c.tname == kv.1 && x.c.maxConcurrent.isSome && holdType x.pc)
      (f := fun q => { q with pc := Y })
    have htc := ht kv hkv
    show (updP BodyProc.id s.bodies id (fun q => { q with pc := Y })).countP
      (fun x => x.c.tname == kv.1 && x.c.maxConcurrent.isSome && holdType x.pc) ≤ kv.2
    unfold typeHeldCount at htc
    dsimp only at hcnt
    omega
  · intro b2 hb2 hmc
    rcases mem_updP_elim hb2 with ⟨hb2l, _⟩ | ⟨y, hy, _, rfl⟩
    · exact hInv.typeSemOf b2 hb2l hmc
    · exact hInv.typeSemOf y hy hmc
  · intro b2 hb2 hset
    rcases mem_updP_elim hb2 with ⟨hb2l, _⟩ | ⟨y, hy, hyid, rfl⟩
    · exact hInv.wakeGlobal b2 hb2l hset
    · have hyb : y = b := nodup_key_inj hInv.bodiesNodup hy hb (by rw [hyid, hbid])
      subst hyb
      exact hwgY hset

theorem globalHeldCount_updBody_eq {s : Sys} {id : Nat} {b : BodyProc} {Y : BodyPc}
    (hn : (s.bodies.map BodyProc.id).Nodup) (hb : b ∈ s.bodies) (hbid : b.id = id)
    (heq : holdGlobal Y = holdGlobal b.pc) :
    (updP BodyProc.id s.bodies id (fun q => { q with pc := Y })).countP
      (fun x => holdGlobal x.pc) = globalHeldCount s := by
  have hcnt := countP_updP hn hb hbid (fun x => holdGlobal x.pc)
    (f := fun q => { q with pc := Y })
  dsimp only at hcnt
  rw [heq] at hcnt
  unfold globalHeldCount
  omega

theorem typeHeldCount_updBody_eq {s : Sys} {id : Nat} {b : BodyProc} {Y : BodyPc}
    (hn : (s.bodies.map BodyProc.id).Nodup) (hb : b ∈ s.bodies) (hbid : b.id = id)
    (heq : holdType Y = holdType b.pc) (tn : String) :
    (updP BodyProc.id s.bodies id (fun q => { q with pc := Y })).countP
      (fun x => x.c.tname == tn && x.c.maxConcurrent.isSome && holdType x.pc) =
      typeHeldCount s tn := by
  have hcnt := countP_updP hn hb hbid
    (fun x => x.c.tname == tn && x.c.maxConcurrent.isSome && holdType x.pc)
    (f := fun q => { q with pc := Y })
  dsimp only at hcnt
  rw [heq] at hcnt
  unfold typeHeldCount
  omega

theorem bodySub_updBody {l : List BodyProc} {subs : List SubProc} {id : Nat}
    {f : BodyProc → BodyProc}
    (hfid : ∀ x, (f x).id = x.id) (hfc : ∀ x, (f x).c = x.c)
    (h : ∀ b ∈ l, ∃ p ∈ subs, p.id = b.id ∧ p.c = b.c ∧
      (p.pc = SubPc.track ∨ p.pc = SubPc.doneOk)) :
    ∀ b2 ∈ updP BodyProc.id l id f, ∃ p ∈ subs, p.id = b2.id ∧ p.c = b2.c ∧
      (p.pc = SubPc.track ∨ p.pc = SubPc.doneOk) := by
  intro b2 hb2
  rcases mem_updP_elim hb2 with ⟨hb2l, _⟩ | ⟨y, hy, _, rfl⟩
  · exact h b2 hb2l
  · obtain ⟨p, hp, hpid, hpc2, hppc⟩ := h y hy
    exact ⟨p, hp, by rw [hfid]; exact hpid, by rw [hfc]; exact hpc2, hppc⟩

theorem typeSemOf_updBody {l : List BodyProc} {T : List (String × Nat)} {id : Nat}
    {f : BodyProc → BodyProc} (hfc : ∀ x, (f x).c = x.c)
    (h : ∀ b ∈ l, b.c.maxConcurrent.isSome = true → (lookupA T b.c.tname).isSome = true) :
    ∀ b2 ∈ updP BodyProc.id l id f, b2.c.maxConcurrent.isSome = true →
      (lookupA T b2.c.tname).isSome = true := by
  intro b2 hb2 hmc
  rcases mem_updP_elim hb2 with ⟨hb2l, _⟩ | ⟨y, hy, _, rfl⟩
  · exact h b2 hb2l hmc
  · rw [hfc] at hmc ⊢
    exact h y hy hmc

/-- Preservation of the section at executor.rs line 115: the body
writes Running into the state cell. -/
theorem inv_setRunning {cs : List (Contract × Bool)} {s : Sys} {id : Nat} {b : BodyProc}
    (hInv : Inv cs s) (hf : findBody s id = some b) (hpc : b.pc = BodyPc.setRunning) :
    Inv cs { s with
      cells := updV s.cells id (fun cl => { cl with tstate := TaskState.running }),
      bodies := updBody s.bodies id (fun q => { q with pc := BodyPc.runBody }) } := by
  obtain ⟨hb, hbid⟩ := findBody_mem hf
  refine ⟨hInv.subsNodup, ?_, ?_, hInv.subsC, ?_, ?_, ?_, hInv.queueSub, ?_, ?_, ?_,
    hInv.typeSemsNodup, ?_, ?_, hInv.subSem, ?_, ?_⟩
  · show ((updP BodyProc.id s.bodies id (fun q => { q with pc := BodyPc.runBody })).map
      BodyProc.id).Nodup
    rw [map_key_updP BodyProc.id s.bodies id (fun q => { q with pc := BodyPc.runBody })
      (fun x => rfl)]
    exact hInv.bodiesNodup
  · show ((updV s.cells id (fun cl => { cl with tstate := TaskState.running })).map
      Prod.fst).Nodup
    rw [map_fst_updV]
    exact hInv.cellsNodup
  · exact bodySub_updBody (fun x => rfl) (fun x => rfl) hInv.bodySub
  · intro p hp hpost
    obtain ⟨cl, hcl, hclc⟩ := hInv.subCell p hp hpost
    by_cases h2 : p.id = id
    · refine ⟨{ cl with tstate := TaskState.running }, ?_, hclc⟩
      rw [lookupA_updV, if_pos h2, ← h2, hcl]
      rfl
    · exact ⟨cl, by rw [lookupA_updV, if_neg h2]; exact hcl, hclc⟩
  · intro kv hkv
    have hkv2 : kv ∈ updV s.cells id (fun cl => { cl with tstate := TaskState.running }) :=
      hkv
    rcases mem_updV_elim hkv2 with ⟨hkvl, hne⟩ | ⟨v, hv, rfl⟩
    · obtain ⟨h1, h2⟩ := hInv.cellState kv hkvl
      constructor
      · intro b2 hb2 hbid2
        rcases mem_updP_elim hb2 with ⟨hb2l, _⟩ | ⟨y, hy, hyid, rfl⟩
        · exact h1 b2 hb2l hbid2
        · exfalso
          apply hne
          have h3 : y.id = kv.1 := hbid2
          rw [← h3]
          exact hyid
      · intro hno
        apply h2
        intro y hy
        have := hno _ (mem_updP_of_mem BodyProc.id id
          (fun q => { q with pc := BodyPc.runBody }) hy)
        by_cases h3 : y.id = id
        · rw [if_pos h3] at this
          exact this
        · rw [if_neg h3] at this
          exact this
    · obtain ⟨h1, h2⟩ := hInv.cellState (id, v) hv
      constructor
      · intro b2 hb2 hbid2
        rcases mem_updP_elim hb2 with ⟨hb2l, hneq⟩ | ⟨y, hy, hyid, rfl⟩
        · exact absurd hbid2 hneq
        · have hyb : y = b := nodup_key_inj hInv.bodiesNodup hy hb (by rw [hyid, hbid])
          subst hyb
          obtain ⟨hc, _⟩ := h1 y hy hyid
          refine ⟨hc, ?_, ?_, ?_⟩
          · intro hx
            simp [prePhase] at hx
          · intro _
            rfl
          · intro hx
            simp [donePhase] at hx
      · intro hno
        exfalso
        have hmem := mem_updP_of_mem BodyProc.id id
          (fun q => { q with pc := BodyPc.runBody }) hb
        rw [if_pos hbid] at hmem
        exact hno _ hmem hbid
  · intro b2 hb2 hrgl hpast
    rcases mem_updP_elim hb2 with ⟨hb2l, _⟩ | ⟨y, hy, hyid, rfl⟩
    · exact hInv.rmAbsent b2 hb2l hrgl hpast
    · simp [pastRM] at hpast
  · intro p hp t hwb
    obtain ⟨b0, hb0, hb0id, hb0g, hb0tn, hb0rm⟩ := hInv.wokenInv p hp t hwb
    obtain ⟨y2, hy2, hcase⟩ := updP_witness BodyProc.id s.bodies id
      (fun q => { q with pc := BodyPc.runBody }) hb0
    rcases hcase with rfl | ⟨hkey, rfl⟩
    · exact ⟨y2, hy2, hb0id, hb0g, hb0tn, hb0rm⟩
    · exfalso
      have hyb : b0 = b := nodup_key_inj hInv.bodiesNodup hb0 hb (by rw [hkey, hbid])
      rw [hyb, hpc] at hb0rm
      simp [pastRM] at hb0rm
  · intro cap hcap
    show (updP BodyProc.id s.bodies id (fun q => { q with pc := BodyPc.runBody })).countP
      (fun x => holdGlobal x.pc) ≤ cap
    rw [globalHeldCount_updBody_eq hInv.bodiesNodup hb hbid (by rw [hpc]; rfl)]
    exact hInv.globalBound cap hcap
  · intro kv hkv
    show (updP BodyProc.id s.bodies id (fun q => { q with pc := BodyPc.runBody })).countP
      (fun x => x.c.tname == kv.1 && x.c.maxConcurrent.isSome && holdType x.pc) ≤ kv.2
    rw [typeHeldCount_updBody_eq hInv.bodiesNodup hb hbid (by rw [hpc]; rfl) kv.1]
    exact hInv.typeBound kv hkv
  · exact typeSemOf_updBody (fun x => rfl) hInv.typeSemOf
  · intro b2 hb2 hset
    rcases mem_updP_elim hb2 with ⟨hb2l, _⟩ | ⟨y, hy, hyid, rfl⟩
    · exact hInv.wakeGlobal b2 hb2l hset
    · rcases hset with h3 | h3 <;> simp at h3
  · intro tid htid
    obtain ⟨cl, hcl⟩ := hInv.taskCell tid htid
    by_cases h2 : tid = id
    · exact ⟨{ cl with tstate := TaskState.running },
        by rw [lookupA_updV, if_pos h2, ← h2, hcl]; rfl⟩
    · exact ⟨cl, by rw [lookupA_updV, if_neg h2]; exact hcl⟩

/-- Preservation of the section at executor.rs lines 134-138: the body
writes its terminal state into the state cell. -/
theorem inv_setDone {cs : List (Contract × Bool)} {s : Sys} {id : Nat} {b : BodyProc}
    (hInv : Inv cs s) (hf : findBody s id = some b) (hpc : b.pc = BodyPc.setDone) :
    Inv cs { s with
      cells := updV s.cells id (fun cl =>
        { cl with tstate := if b.c.succeeds then TaskState.completed
                            else TaskState.failed }),
      bodies := updBody s.bodies id (fun q => { q with pc := BodyPc.finish }) } := by
  obtain ⟨hb, hbid⟩ := findBody_mem hf
  refine ⟨hInv.subsNodup, ?_, ?_, hInv.subsC, ?_, ?_, ?_, hInv.queueSub, ?_, ?_, ?_,
    hInv.typeSemsNodup, ?_, ?_, hInv.subSem, ?_, ?_⟩
  · show ((updP BodyProc.id s.bodies id (fun q => { q with pc := BodyPc.finish })).map
      BodyProc.id).Nodup
    rw [map_key_updP BodyProc.id s.bodies id (fun q => { q with pc := BodyPc.finish })
      (fun x => rfl)]
    exact hInv.bodiesNodup
  · show ((updV s.cells id (fun cl =>
      { cl with tstate := if b.c.succeeds then TaskState.completed
                          else TaskState.failed })).map Prod.fst).Nodup
    rw [map_fst_updV]
    exact hInv.cellsNodup
  · exact bodySub_updBody (fun x => rfl) (fun x => rfl) hInv.bodySub
  · intro p hp hpost
    obtain ⟨cl, hcl, hclc⟩ := hInv.subCell p hp hpost
    by_cases h2 : p.id = id
    · refine ⟨{ cl with tstate := if b.c.succeeds then TaskState.completed
        else TaskState.failed }, ?_, hclc⟩
      rw [lookupA_updV, if_pos h2, ← h2, hcl]
      rfl
    · exact ⟨cl, by rw [lookupA_updV, if_neg h2]; exact hcl, hclc⟩
  · intro kv hkv
    have hkv2 : kv ∈ updV s.cells id (fun cl =>
        { cl with tstate := if b.c.succeeds then TaskState.completed
                            else TaskState.failed }) := hkv
    rcases mem_updV_elim hkv2 with ⟨hkvl, hne⟩ | ⟨v, hv, rfl⟩
    · obtain ⟨h1, h2⟩ := hInv.cellState kv hkvl
      constructor
      · intro b2 hb2 hbid2
        rcases mem_updP_elim hb2 with ⟨hb2l, _⟩ | ⟨y, hy, hyid, rfl⟩
        · exact h1 b2 hb2l hbid2
        · exfalso
          apply hne
          have h3 : y.id = kv.1 := hbid2
          rw [← h3]
          exact hyid
      · intro hno
        apply h2
        intro y hy
        have := hno _ (mem_updP_of_mem BodyProc.id id
          (fun q => { q with pc := BodyPc.finish }) hy)
        by_cases h3 : y.id = id
        · rw [if_pos h3] at this
          exact this
        · rw [if_neg h3] at this
          exact this
    · obtain ⟨h1, h2⟩ := hInv.cellState (id, v) hv
      constructor
      · intro b2 hb2 hbid2
        rcases mem_updP_elim hb2 with ⟨hb2l, hneq⟩ | ⟨y, hy, hyid, rfl⟩
        · exact absurd hbid2 hneq
        · have hyb : y = b := nodup_key_inj hInv.bodiesNodup hy hb (by rw [hyid, hbid])
          subst hyb
          obtain ⟨hc, _⟩ := h1 y hy hyid
          refine ⟨hc, ?_, ?_, ?_⟩
          · intro hx
            simp [prePhase] at hx
          · intro hx
            simp [runPhase] at hx
          · intro _
            rfl
      · intro hno
        exfalso
        have hmem := mem_updP_of_mem BodyProc.id id
          (fun q => { q with pc := BodyPc.finish }) hb
        rw [if_pos hbid] at hmem
        exact hno _ hmem hbid
  · intro b2 hb2 hrgl hpast
    rcases mem_updP_elim hb2 with ⟨hb2l, _⟩ | ⟨y, hy, hyid, rfl⟩
    · exact hInv.rmAbsent b2 hb2l hrgl hpast
    · have hyb : y = b := nodup_key_inj hInv.bodiesNodup hy hb (by rw [hyid, hbid])
      subst hyb
      exact hInv.rmAbsent y hy hrgl (by rw [hpc]; rfl)
  · intro p hp t hwb
    obtain ⟨b0, hb0, hb0id, hb0g, hb0tn, hb0rm⟩ := hInv.wokenInv p hp t hwb
    obtain ⟨y2, hy2, hcase⟩ := updP_witness BodyProc.id s.bodies id
      (fun q => { q with pc := BodyPc.finish }) hb0
    rcases hcase with rfl | ⟨hkey, rfl⟩
    · exact ⟨y2, hy2, hb0id, hb0g, hb0tn, hb0rm⟩
    · exact ⟨_, hy2, hb0id, hb0g, hb0tn, rfl⟩
  · intro cap hcap
    show (updP BodyProc.id s.bodies id (fun q => { q with pc := BodyPc.finish })).countP
      (fun x => holdGlobal x.pc) ≤ cap
    rw [globalHeldCount_updBody_eq hInv.bodiesNodup hb hbid (by rw [hpc]; rfl)]
    exact hInv.globalBound cap hcap
  · intro kv hkv
    show (updP BodyProc.id s.bodies id (fun q => { q with pc := BodyPc.finish })).countP
      (fun x => x.c.tname == kv.1 && x.c.maxConcurrent.isSome && holdType x.pc) ≤ kv.2
    rw [typeHeldCount_updBody_eq hInv.bodiesNodup hb hbid (by rw [hpc]; rfl) kv.1]
    exact hInv.typeBound kv hkv
  · exact typeSemOf_updBody (fun x => rfl) hInv.typeSemOf
  · intro b2 hb2 hset
    rcases mem_updP_elim hb2 with ⟨hb2l, _⟩ | ⟨y, hy, hyid, rfl⟩
    · exact hInv.wakeGlobal b2 hb2l hset
    · rcases hset with h3 | h3 <;> simp at h3
  · intro tid htid
    obtain ⟨cl, hcl⟩ := hInv.taskCell tid htid
    by_cases h2 : tid = id
    · exact ⟨_, by rw [lookupA_updV, if_pos h2, ← h2, hcl]; rfl⟩
    · exact ⟨cl, by rw [lookupA_updV, if_neg h2]; exact hcl⟩

/-- Preservation of the section at executor.rs lines 122-123: the body
removes the Running Registry entry of its type. -/
theorem inv_rmRunning {cs : List (Contract × Bool)} {s : Sys} {id : Nat} {b : BodyProc}
    (hInv : Inv cs s) (hf : findBody s id = some b) (hpc : b.pc = BodyPc.rmRunning) :
    Inv cs { s with
      running := removeA s.running b.c.tname,
      bodies := updBody s.bodies id (fun q => { q with pc := BodyPc.wakeNext }) } := by
  obtain ⟨hb, hbid⟩ := findBody_mem hf
  refine ⟨hInv.subsNodup, ?_, hInv.cellsNodup, hInv.subsC, ?_, hInv.subCell, ?_,
    hInv.queueSub, ?_, ?_, ?_, hInv.typeSemsNodup, ?_, ?_, hInv.subSem, ?_,
    hInv.taskCell⟩
  · show ((updP BodyProc.id s.bodies id (fun q => { q with pc := BodyPc.wakeNext })).map
      BodyProc.id).Nodup
    rw [map_key_updP BodyProc.id s.bodies id (fun q => { q with pc := BodyPc.wakeNext })
      (fun x => rfl)]
    exact hInv.bodiesNodup
  · exact bodySub_updBody (fun x => rfl) (fun x => rfl) hInv.bodySub
  · intro kv hkv
    obtain ⟨h1, h2⟩ := hInv.cellState kv hkv
    constructor
    · intro b2 hb2 hbid2
      rcases mem_updP_elim hb2 with ⟨hb2l, _⟩ | ⟨y, hy, hyid, rfl⟩
      · exact h1 b2 hb2l hbid2
      · have hyb : y = b := nodup_key_inj hInv.bodiesNodup hy hb (by rw [hyid, hbid])
        subst hyb
        obtain ⟨hc, hsm⟩ := h1 y hy hbid2
        refine ⟨hc, ?_, ?_, ?_⟩
        · intro hx
          simp [prePhase] at hx
        · intro _
          exact hsm.2.1 (by rw [hpc]; rfl)
        · intro hx
          simp [donePhase] at hx
    · intro hno
      apply h2
      intro y hy
      have := hno _ (mem_updP_of_mem BodyProc.id id
        (fun q => { q with pc := BodyPc.wakeNext }) hy)
      by_cases h3 : y.id = id
      · rw [if_pos h3] at this
        exact this
      · rw [if_neg h3] at this
        exact this
  · intro b2 hb2 hrgl hpast
    rcases mem_updP_elim hb2 with ⟨hb2l, _⟩ | ⟨y, hy, hyid, rfl⟩
    · by_cases h3 : b2.c.tname = b.c.tname
      · rw [h3, lookupA_removeA, if_pos rfl]
        intro hcontra
        cases hcontra
      · rw [lookupA_removeA, if_neg h3]
        exact hInv.rmAbsent b2 hb2l hrgl hpast
    · show lookupA (removeA s.running b.c.tname) y.c.tname ≠ some y.id
      have hyb : y = b := nodup_key_inj hInv.bodiesNodup hy hb (by rw [hyid, hbid])
      subst hyb
      rw [lookupA_removeA, if_pos rfl]
      intro hcontra
      cases hcontra
  · intro p hp t hwb
    obtain ⟨b0, hb0, hb0id, hb0g, hb0tn, hb0rm⟩ := hInv.wokenInv p hp t hwb
    obtain ⟨y2, hy2, hcase⟩ := updP_witness BodyProc.id s.bodies id
      (fun q => { q with pc := BodyPc.wakeNext }) hb0
    rcases hcase with rfl | ⟨hkey, rfl⟩
    · exact ⟨y2, hy2, hb0id, hb0g, hb0tn, hb0rm⟩
    · exfalso
      have hyb : b0 = b := nodup_key_inj hInv.bodiesNodup hb0 hb (by rw [hkey, hbid])
      rw [hyb, hpc] at hb0rm
      simp [pastRM] at hb0rm
  · intro cap hcap
    show (updP BodyProc.id s.bodies id (fun q => { q with pc := BodyPc.wakeNext })).countP
      (fun x => holdGlobal x.pc) ≤ cap
    rw [globalHeldCount_updBody_eq hInv.bodiesNodup hb hbid (by rw [hpc]; rfl)]
    exact hInv.globalBound cap hcap
  · intro kv hkv
    show (updP BodyProc.id s.bodies id (fun q => { q with pc := BodyPc.wakeNext })).countP
      (fun x => x.c.tname == kv.1 && x.c.maxConcurrent.isSome && holdType x.pc) ≤ kv.2
    rw [typeHeldCount_updBody_eq hInv.bodiesNodup hb hbid (by rw [hpc]; rfl) kv.1]
    exact hInv.typeBound kv hkv
  · exact typeSemOf_updBody (fun x => rfl) hInv.typeSemOf
  · intro b2 hb2 hset
    rcases mem_updP_elim hb2 with ⟨hb2l, _⟩ | ⟨y, hy, hyid, rfl⟩
    · exact hInv.wakeGlobal b2 hb2l hset
    · have hyb : y = b := nodup_key_inj hInv.bodiesNodup hy hb (by rw [hyid, hbid])
      subst hyb
      exact hInv.wakeGlobal y hy (Or.inl hpc)

theorem mem_of_getLast?_eq {α : Type} {l : List α} {a : α} (h : l.getLast? = some a) :
    a ∈ l := by
  have h2 : a ∈ l.getLast? := by
    rw [Option.mem_def]
    exact h
  obtain ⟨hne, heq⟩ := List.mem_getLast?_eq_getLast h2
  rw [heq]
  exact List.getLast_mem hne

theorem mem_of_mem_dropLast {α : Type} {l : List α} {x : α} (h : x ∈ l.dropLast) :
    x ∈ l := by
  induction l with
  | nil => simp at h
  | cons a rest ih =>
    cases rest with
    | nil => simp [List.dropLast] at h
    | cons b rest2 =>
      rw [List.dropLast_cons₂] at h
      rcases List.mem_cons.mp h with h2 | h2
      · rw [h2]
        exact List.mem_cons_self _ _
      · exact List.mem_cons_of_mem _ (ih h2)

/-- Preservation of the section at executor.rs lines 124-131 when the
wait queue of the type exists but is empty: the queue entry is dropped. -/
theorem inv_wakeEmpty {cs : List (Contract × Bool)} {s : Sys} {id : Nat} {b : BodyProc}
    (hInv : Inv cs s) (hf : findBody s id = some b) (hpc : b.pc = BodyPc.wakeNext) :
    Inv cs { s with
      queues := removeA s.queues b.c.tname,
      bodies := updBody s.bodies id (fun q2 => { q2 with pc := BodyPc.setDone }) } := by
  obtain ⟨hb, hbid⟩ := findBody_mem hf
  refine ⟨hInv.subsNodup, ?_, hInv.cellsNodup, hInv.subsC, ?_, hInv.subCell, ?_, ?_,
    ?_, ?_, ?_, hInv.typeSemsNodup, ?_, ?_, hInv.subSem, ?_, hInv.taskCell⟩
  · show ((updP BodyProc.id s.bodies id (fun q => { q with pc := BodyPc.setDone })).map
      BodyProc.id).Nodup
    rw [map_key_updP BodyProc.id s.bodies id (fun q => { q with pc := BodyPc.setDone })
      (fun x => rfl)]
    exact hInv.bodiesNodup
  · exact bodySub_updBody (fun x => rfl) (fun x => rfl) hInv.bodySub
  · intro kv hkv
    obtain ⟨h1, h2⟩ := hInv.cellState kv hkv
    constructor
    · intro b2 hb2 hbid2
      rcases mem_updP_elim hb2 with ⟨hb2l, _⟩ | ⟨y, hy, hyid, rfl⟩
      · exact h1 b2 hb2l hbid2
      · have hyb : y = b := nodup_key_inj hInv.bodiesNodup hy hb (by rw [hyid, hbid])
        subst hyb
        obtain ⟨hc, hsm⟩ := h1 y hy hbid2
        refine ⟨hc, ?_, ?_, ?_⟩
        · intro hx
          simp [prePhase] at hx
        · intro _
          exact hsm.2.1 (by rw [hpc]; rfl)
        · intro hx
          simp [donePhase] at hx
    · intro hno
      apply h2
      intro y hy
      have := hno _ (mem_updP_of_mem BodyProc.id id
        (fun q => { q with pc := BodyPc.setDone }) hy)
      by_cases h3 : y.id = id
      · rw [if_pos h3] at this
        exact this
      · rw [if_neg h3] at this
        exact this
  · intro kq hkq w2 hw2
    exact hInv.queueSub kq (mem_removeA hkq).1 w2 hw2
  · intro b2 hb2 hrgl hpast
    rcases mem_updP_elim hb2 with ⟨hb2l, _⟩ | ⟨y, hy, hyid, rfl⟩
    · exact hInv.rmAbsent b2 hb2l hrgl hpast
    · have hyb : y = b := nodup_key_inj hInv.bodiesNodup hy hb (by rw [hyid, hbid])
      subst hyb
      exact hInv.rmAbsent y hy hrgl (by rw [hpc]; rfl)
  · intro p hp t hwb
    obtain ⟨b0, hb0, hb0id, hb0g, hb0tn, hb0rm⟩ := hInv.wokenInv p hp t hwb
    obtain ⟨y2, hy2, hcase⟩ := updP_witness BodyProc.id s.bodies id
      (fun q => { q with pc := BodyPc.setDone }) hb0
    rcases hcase with rfl | ⟨hkey, rfl⟩
    · exact ⟨y2, hy2, hb0id, hb0g, hb0tn, hb0rm⟩
    · exact ⟨_, hy2, hb0id, hb0g, hb0tn, rfl⟩
  · intro cap hcap
    show (updP BodyProc.id s.bodies id (fun q => { q with pc := BodyPc.setDone })).countP
      (fun x => holdGlobal x.pc) ≤ cap
    rw [globalHeldCount_updBody_eq hInv.bodiesNodup hb hbid (by rw [hpc]; rfl)]
    exact hInv.globalBound cap hcap
  · intro kv hkv
    show (updP BodyProc.id s.bodies id (fun q => { q with pc := BodyPc.setDone })).countP
      (fun x => x.c.tname == kv.1 && x.c.maxConcurrent.isSome && holdType x.pc) ≤ kv.2
    rw [typeHeldCount_updBody_eq hInv.bodiesNodup hb hbid (by rw [hpc]; rfl) kv.1]
    exact hInv.typeBound kv hkv
  · exact typeSemOf_updBody (fun x => rfl) hInv.typeSemOf
  · intro b2 hb2 hset
    rcases mem_updP_elim hb2 with ⟨hb2l, _⟩ | ⟨y, hy, hyid, rfl⟩
    · exact hInv.wakeGlobal b2 hb2l hset
    · rcases hset with h3 | h3 <;> simp at h3

/-- Preservation of the section at executor.rs lines 124-131 when a
waiter is queued: the most recently queued waiter is popped and woken. -/
theorem inv_wakePop {cs : List (Contract × Bool)} {s : Sys} {id : Nat} {b : BodyProc}
    {q : List Nat} {w : Nat}
    (hInv : Inv cs s) (hf : findBody s id = some b) (hpc : b.pc = BodyPc.wakeNext)
    (hq : lookupA s.queues b.c.tname = some q) (hw : q.getLast? = some w) :
    Inv cs { s with
      queues := updA s.queues b.c.tname q.dropLast,
      subs := updSub s.subs w (fun sp =>
        { sp with wakePermit := true, wokenBy := some id }),
      bodies := updBody s.bodies id (fun q2 => { q2 with pc := BodyPc.setDone }) } := by
  obtain ⟨hb, hbid⟩ := findBody_mem hf
  have hwq : w ∈ q := mem_of_getLast?_eq hw
  have hqmem : (b.c.tname, q) ∈ s.queues := lookupA_mem hq
  refine ⟨?_, ?_, hInv.cellsNodup, ?_, ?_, ?_, ?_, ?_, ?_, ?_, ?_,
    hInv.typeSemsNodup, ?_, ?_, ?_, ?_, hInv.taskCell⟩
  · exact subsNodup_updSub (fun x => rfl) hInv.subsNodup
  · show ((updP BodyProc.id s.bodies id (fun q => { q with pc := BodyPc.setDone })).map
      BodyProc.id).Nodup
    rw [map_key_updP BodyProc.id s.bodies id (fun q => { q with pc := BodyPc.setDone })
      (fun x => rfl)]
    exact hInv.bodiesNodup
  · exact subsC_updSub (fun x => rfl) (fun x => rfl) hInv.subsC
  · exact bodySub_updSub (fun x => rfl) (fun x => rfl)
      (fun y _ _ hset => hset)
      (bodySub_updBody (fun x => rfl) (fun x => rfl) hInv.bodySub)
  · intro p2 hp2 hpost
    rcases mem_updP_elim hp2 with ⟨hp2l, _⟩ | ⟨y, hy, _, rfl⟩
    · exact hInv.subCell p2 hp2l hpost
    · exact hInv.subCell y hy hpost
  · intro kv hkv
    obtain ⟨h1, h2⟩ := hInv.cellState kv hkv
    constructor
    · intro b2 hb2 hbid2
      rcases mem_updP_elim hb2 with ⟨hb2l, _⟩ | ⟨y, hy, hyid, rfl⟩
      · exact h1 b2 hb2l hbid2
      · have hyb : y = b := nodup_key_inj hInv.bodiesNodup hy hb (by rw [hyid, hbid])
        subst hyb
        obtain ⟨hc, hsm⟩ := h1 y hy hbid2
        refine ⟨hc, ?_, ?_, ?_⟩
        · intro hx
          simp [prePhase] at hx
        · intro _
          exact hsm.2.1 (by rw [hpc]; rfl)
        · intro hx
          simp [donePhase] at hx
    · intro hno
      apply h2
      intro y hy
      have := hno _ (mem_updP_of_mem BodyProc.id id
        (fun q => { q with pc := BodyPc.setDone }) hy)
      by_cases h3 : y.id = id
      · rw [if_pos h3] at this
        exact this
      · rw [if_neg h3] at this
        exact this
  · -- queueSub
    have hQ : ∀ kq ∈ updA s.queues b.c.tname q.dropLast, ∀ w2 ∈ kq.2,
        ∃ p ∈ s.subs, p.id = w2 ∧ p.c.tname = kq.1 := by
      intro kq hkq w2 hw2
      rcases mem_updA_elim hkq with ⟨hkql, _⟩ | ⟨v0, _, rfl⟩
      · exact hInv.queueSub kq hkql w2 hw2
      · exact hInv.queueSub (b.c.tname, q) hqmem w2 (mem_of_mem_dropLast hw2)
    exact queueSub_updSub (fun x => rfl) (fun x => rfl) hQ
  · intro b2 hb2 hrgl hpast
    rcases mem_updP_elim hb2 with ⟨hb2l, _⟩ | ⟨y, hy, hyid, rfl⟩
    · exact hInv.rmAbsent b2 hb2l hrgl hpast
    · have hyb : y = b := nodup_key_inj hInv.bodiesNodup hy hb (by rw [hyid, hbid])
      subst hyb
      exact hInv.rmAbsent y hy hrgl (by rw [hpc]; rfl)
  · -- wokenInv
    intro p2 hp2 t hwb
    rcases mem_updP_elim hp2 with ⟨hp2l, _⟩ | ⟨y, hy, hyid, rfl⟩
    · obtain ⟨b0, hb0, hb0id, hb0g, hb0tn, hb0rm⟩ := hInv.wokenInv p2 hp2l t hwb
      obtain ⟨y2, hy2, hcase⟩ := updP_witness BodyProc.id s.bodies id
        (fun q => { q with pc := BodyPc.setDone }) hb0
      rcases hcase with rfl | ⟨hkey, rfl⟩
      · exact ⟨y2, hy2, hb0id, hb0g, hb0tn, hb0rm⟩
      · exact ⟨_, hy2, hb0id, hb0g, hb0tn, rfl⟩
    · -- the woken waiter: wokenBy is the stepping body
      have ht : id = t := Option.some.inj hwb
      obtain ⟨p3, hp3, hp3id, hp3tn⟩ := hInv.queueSub (b.c.tname, q) hqmem w hwq
      have hp3y : p3 = y := nodup_key_inj hInv.subsNodup hp3 hy (by rw [hp3id, hyid])
      have hmem := mem_updP_of_mem BodyProc.id id
        (fun q2 => { q2 with pc := BodyPc.setDone }) hb
      rw [if_pos hbid] at hmem
      refine ⟨_, hmem, hbid.trans ht, hInv.wakeGlobal b hb (Or.inr hpc), ?_, rfl⟩
      show b.c.tname = y.c.tname
      rw [← hp3y]
      exact hp3tn.symm
  · intro cap hcap
    show (updP BodyProc.id s.bodies id (fun q => { q with pc := BodyPc.setDone })).countP
      (fun x => holdGlobal x.pc) ≤ cap
    rw [globalHeldCount_updBody_eq hInv.bodiesNodup hb hbid (by rw [hpc]; rfl)]
    exact hInv.globalBound cap hcap
  · intro kv hkv
    show (updP BodyProc.id s.bodies id (fun q => { q with pc := BodyPc.setDone })).countP
      (fun x => x.c.tname == kv.1 && x.c.maxConcurrent.isSome && holdType x.pc) ≤ kv.2
    rw [typeHeldCount_updBody_eq hInv.bodiesNodup hb hbid (by rw [hpc]; rfl) kv.1]
    exact hInv.typeBound kv hkv
  · exact typeSemOf_updBody (fun x => rfl) hInv.typeSemOf
  · intro p2 hp2 hset hmc
    rcases mem_updP_elim hp2 with ⟨hp2l, _⟩ | ⟨y, hy, _, rfl⟩
    · exact hInv.subSem p2 hp2l hset hmc
    · exact hInv.subSem y hy hset hmc
  · intro b2 hb2 hset
    rcases mem_updP_elim hb2 with ⟨hb2l, _⟩ | ⟨y, hy, hyid, rfl⟩
    · exact hInv.wakeGlobal b2 hb2l hset
    · rcases hset with h3 | h3 <;> simp at h3

/-- Preservation of a queue push (executor.rs lines 52-59), provided
the pushed identity belongs to a submit call of the pushed type. -/
theorem inv_pushQ {cs : List (Contract × Bool)} {s : Sys} (key : String) (id : Nat)
    (hInv : Inv cs s) (hwit : ∃ p ∈ s.subs, p.id = id ∧ p.c.tname = key) :
    Inv cs { s with queues := pushQ s.queues key id } := by
  refine ⟨hInv.subsNodup, hInv.bodiesNodup, hInv.cellsNodup, hInv.subsC, hInv.bodySub,
    hInv.subCell, hInv.cellState, ?_, hInv.rmAbsent, hInv.wokenInv, hInv.globalBound,
    hInv.typeSemsNodup, hInv.typeBound, hInv.typeSemOf, hInv.subSem, hInv.wakeGlobal,
    hInv.taskCell⟩
  intro kq hkq w hw
  have hkq2 : kq ∈ pushQ s.queues key id := hkq
  unfold pushQ at hkq2
  split at hkq2
  · rename_i q hq
    rcases mem_updA_elim hkq2 with ⟨hkql, _⟩ | ⟨v0, _, rfl⟩
    · exact hInv.queueSub kq hkql w hw
    · rcases List.mem_append.mp hw with hw2 | hw2
      · exact hInv.queueSub (key, q) (lookupA_mem hq) w hw2
      · have hwid : w = id := by simpa using hw2
        subst hwid
        exact hwit
  · rcases List.mem_append.mp hkq2 with hkql | hnew
    · exact hInv.queueSub kq hkql w hw
    · have hkqe : kq = (key, [id]) := by simpa using hnew
      subst hkqe
      have hwid : w = id := by simpa using hw
      subst hwid
      exact hwit

/-- Preservation of the admission section at executor.rs lines 64-81:
resource locks granted, channels, state cell and handle created. -/
theorem inv_acquireLocks {cs : List (Contract × Bool)} {s : Sys} {id : Nat} {p : SubProc}
    (hInv : Inv cs s) (hf : findSub s id = some p) (hpc : p.pc = SubPc.acquireLocks) :
    Inv cs { s with
      lockHeld := s.lockHeld ++ p.c.locks,
      cells := insertA s.cells id ⟨p.c, TaskState.pending, false, true, false, false⟩,
      subs := updSub s.subs id (fun q => { q with pc := subNextAfterLocks p.c }) } := by
  obtain ⟨hp, hpid⟩ := findSub_mem hf
  have hnoBody : ∀ b ∈ s.bodies, b.id ≠ id := by
    intro b hb heq
    obtain ⟨q, hq, hqid, _, hqpc⟩ := hInv.bodySub b hb
    have hqp : q = p := nodup_key_inj hInv.subsNodup hq hp (by rw [hqid, heq, hpid])
    subst hqp
    rcases hqpc with h2 | h2 <;> rw [hpc] at h2 <;> simp at h2
  refine ⟨?_, hInv.bodiesNodup, ?_, ?_, ?_, ?_, ?_, ?_, hInv.rmAbsent, ?_,
    hInv.globalBound, hInv.typeSemsNodup, hInv.typeBound, hInv.typeSemOf, ?_,
    hInv.wakeGlobal, ?_⟩
  · exact subsNodup_updSub (fun x => rfl) hInv.subsNodup
  · show ((insertA s.cells id
      ⟨p.c, TaskState.pending, false, true, false, false⟩).map Prod.fst).Nodup
    exact nodup_fst_insertA id _ hInv.cellsNodup
  · exact subsC_updSub (fun x => rfl) (fun x => rfl) hInv.subsC
  · refine bodySub_updSub (fun x => rfl) (fun x => rfl) ?_ hInv.bodySub
    intro y hy hkey hset
    have hyp : y = p := nodup_key_inj hInv.subsNodup hy hp (by rw [hkey, hpid])
    subst hyp
    rcases hset with h2 | h2 <;> rw [hpc] at h2 <;> simp at h2
  · intro x hx hpost
    rcases mem_updP_elim hx with ⟨hxl, hne⟩ | ⟨y, hy, hyid, rfl⟩
    · obtain ⟨cl, hcl, hclc⟩ := hInv.subCell x hxl hpost
      refine ⟨cl, ?_, hclc⟩
      rw [lookupA_insertA, if_neg hne]
      exact hcl
    · refine ⟨⟨p.c, TaskState.pending, false, true, false, false⟩, ?_, ?_⟩
      · have hyp : y = p := nodup_key_inj hInv.subsNodup hy hp (by rw [hyid, hpid])
        subst hyp
        rw [lookupA_insertA, if_pos]
        exact hyid
      · show p.c = y.c
        have hyp : y = p := nodup_key_inj hInv.subsNodup hy hp (by rw [hyid, hpid])
        rw [hyp]
  · intro kv hkv
    have hkv2 : kv ∈ insertA s.cells id
      ⟨p.c, TaskState.pending, false, true, false, false⟩ := hkv
    rw [insertA] at hkv2
    rcases List.mem_cons.mp hkv2 with hkve | hkvr
    · subst hkve
      constructor
      · intro b2 hb2 hbid2
        exact absurd hbid2 (hnoBody b2 hb2)
      · intro _
        rfl
    · exact hInv.cellState kv (mem_removeA hkvr).1
  · exact queueSub_updSub (fun x => rfl) (fun x => rfl) hInv.queueSub
  · exact wokenInv_updSub (fun x => rfl) (fun x => rfl) hInv.wokenInv
  · intro x hx hset hmc
    rcases mem_updP_elim hx with ⟨hxl, _⟩ | ⟨y, hy, hyid, rfl⟩
    · exact hInv.subSem x hxl hset hmc
    · have hyp : y = p := nodup_key_inj hInv.subsNodup hy hp (by rw [hyid, hpid])
      subst hyp
      exfalso
      have hmc2 : y.c.maxConcurrent.isSome = true := hmc
      rcases hset with h2 | h2 | h2 <;>
        · by_cases hr : y.c.requiresGlobalLock = true <;>
            simp [subNextAfterLocks, hr, hmc2] at h2
  · intro tid htid
    obtain ⟨cl, hcl⟩ := hInv.taskCell tid htid
    by_cases h2 : tid = id
    · exact ⟨⟨p.c, TaskState.pending, false, true, false, false⟩,
        by rw [lookupA_insertA, if_pos h2]⟩
    · exact ⟨cl, by rw [lookupA_insertA, if_neg h2]; exact hcl⟩

/-- Preservation of the section at executor.rs lines 83-85: the new
task records itself in the Running Registry. -/
theorem inv_insertRunning {cs : List (Contract × Bool)} {s : Sys} {id : Nat} {p : SubProc}
    (hInv : Inv cs s) (hf : findSub s id = some p) (hpc : p.pc = SubPc.insertRunning) :
    Inv cs { s with
      running := insertA s.running p.c.tname id,
      subs := updSub s.subs id (fun q => { q with pc := subNextAfterInsert p.c }) } := by
  obtain ⟨hp, hpid⟩ := findSub_mem hf
  have hnoBody : ∀ b ∈ s.bodies, b.id ≠ id := by
    intro b hb heq
    obtain ⟨q, hq, hqid, _, hqpc⟩ := hInv.bodySub b hb
    have hqp : q = p := nodup_key_inj hInv.subsNodup hq hp (by rw [hqid, heq, hpid])
    subst hqp
    rcases hqpc with h2 | h2 <;> rw [hpc] at h2 <;> simp at h2
  refine ⟨?_, hInv.bodiesNodup, hInv.cellsNodup, ?_, ?_, ?_, hInv.cellState, ?_, ?_,
    ?_, hInv.globalBound, hInv.typeSemsNodup, hInv.typeBound, hInv.typeSemOf, ?_,
    hInv.wakeGlobal, hInv.taskCell⟩
  · exact subsNodup_updSub (fun x => rfl) hInv.subsNodup
  · exact subsC_updSub (fun x => rfl) (fun x => rfl) hInv.subsC
  · refine bodySub_updSub (fun x => rfl) (fun x => rfl) ?_ hInv.bodySub
    intro y hy hkey hset
    have hyp : y = p := nodup_key_inj hInv.subsNodup hy hp (by rw [hkey, hpid])
    subst hyp
    rcases hset with h2 | h2 <;> rw [hpc] at h2 <;> simp at h2
  · intro x hx hpost
    rcases mem_updP_elim hx with ⟨hxl, _⟩ | ⟨y, hy, hyid, rfl⟩
    · exact hInv.subCell x hxl hpost
    · have hyp : y = p := nodup_key_inj hInv.subsNodup hy hp (by rw [hyid, hpid])
      obtain ⟨cl, hcl, hclc⟩ := hInv.subCell y hy (by rw [hyp, hpc]; rfl)
      exact ⟨cl, hcl, hclc⟩
  · exact queueSub_updSub (fun x => rfl) (fun x => rfl) hInv.queueSub
  · intro b2 hb2 hrgl hpast
    by_cases h3 : b2.c.tname = p.c.tname
    · rw [h3, lookupA_insertA, if_pos rfl]
      intro hcontra
      have : id = b2.id := Option.some.inj hcontra
      exact hnoBody b2 hb2 this.symm
    · rw [lookupA_insertA, if_neg h3]
      exact hInv.rmAbsent b2 hb2 hrgl hpast
  · exact wokenInv_updSub (fun x => rfl) (fun x => rfl) hInv.wokenInv
  · intro x hx hset hmc
    rcases mem_updP_elim hx with ⟨hxl, _⟩ | ⟨y, hy, hyid, rfl⟩
    · exact hInv.subSem x hxl hset hmc
    · have hyp : y = p := nodup_key_inj hInv.subsNodup hy hp (by rw [hyid, hpid])
      exfalso
      have hmc2 : p.c.maxConcurrent.isSome = true := by
        rw [← hyp]
        exact hmc
      rcases hset with h2 | h2 | h2 <;> simp [subNextAfterInsert, hmc2] at h2

/-- Preservation of the section at executor.rs lines 91-99: the type
permit pool is created on first use and reused afterwards. -/
theorem inv_typeSem {cs : List (Contract × Bool)} {s : Sys} {id : Nat} {p : SubProc}
    {limit : Nat} (hInv : Inv cs s) (hf : findSub s id = some p)
    (hpc : p.pc = SubPc.typeSem) (hmc : p.c.maxConcurrent = some limit) :
    Inv cs { s with
      typeSems := if (lookupA s.typeSems p.c.tname).isSome then s.typeSems
                  else insertA s.typeSems p.c.tname limit,
      subs := updSub s.subs id (fun q => { q with pc := SubPc.spawnBody }) } := by
  obtain ⟨hp, hpid⟩ := findSub_mem hf
  have hmono : ∀ tn, (lookupA s.typeSems tn).isSome = true →
      (lookupA (if (lookupA s.typeSems p.c.tname).isSome then s.typeSems
                else insertA s.typeSems p.c.tname limit) tn).isSome = true := by
    intro tn htn
    by_cases h2 : (lookupA s.typeSems p.c.tname).isSome = true
    · rw [if_pos h2]
      exact htn
    · rw [if_neg h2, lookupA_insertA]
      by_cases h3 : tn = p.c.tname
      · rw [if_pos h3]
        rfl
      · rw [if_neg h3]
        exact htn
  have hself : (lookupA (if (lookupA s.typeSems p.c.tname).isSome then s.typeSems
      else insertA s.typeSems p.c.tname limit) p.c.tname).isSome = true := by
    by_cases h2 : (lookupA s.typeSems p.c.tname).isSome = true
    · rw [if_pos h2]
      exact h2
    · rw [if_neg h2, lookupA_insertA, if_pos rfl]
      rfl
  refine ⟨?_, hInv.bodiesNodup, hInv.cellsNodup, ?_, ?_, ?_, hInv.cellState, ?_,
    hInv.rmAbsent, ?_, hInv.globalBound, ?_, ?_, ?_, ?_, hInv.wakeGlobal,
    hInv.taskCell⟩
  · exact subsNodup_updSub (fun x => rfl) hInv.subsNodup
  · exact subsC_updSub (fun x => rfl) (fun x => rfl) hInv.subsC
  · refine bodySub_updSub (fun x => rfl) (fun x => rfl) ?_ hInv.bodySub
    intro y hy hkey hset
    have hyp : y = p := nodup_key_inj hInv.subsNodup hy hp (by rw [hkey, hpid])
    subst hyp
    rcases hset with h2 | h2 <;> rw [hpc] at h2 <;> simp at h2
  · intro x hx hpost
    rcases mem_updP_elim hx with ⟨hxl, _⟩ | ⟨y, hy, hyid, rfl⟩
    · exact hInv.subCell x hxl hpost
    · have hyp : y = p := nodup_key_inj hInv.subsNodup hy hp (by rw [hyid, hpid])
      exact hInv.subCell y hy (by rw [hyp, hpc]; rfl)
  · exact queueSub_updSub (fun x => rfl) (fun x => rfl) hInv.queueSub
  · exact wokenInv_updSub (fun x => rfl) (fun x => rfl) hInv.wokenInv
  · -- typeSemsNodup
    by_cases h2 : (lookupA s.typeSems p.c.tname).isSome = true
    · show ((if (lookupA s.typeSems p.c.tname).isSome then s.typeSems
        else insertA s.typeSems p.c.tname limit).map Prod.fst).Nodup
      rw [if_pos h2]
      exact hInv.typeSemsNodup
    · show ((if (lookupA s.typeSems p.c.tname).isSome then s.typeSems
        else insertA s.typeSems p.c.tname limit).map Prod.fst).Nodup
      rw [if_neg h2]
      exact nodup_fst_insertA _ _ hInv.typeSemsNodup
  · -- typeBound
    intro kv hkv
    have hkv2 : kv ∈ (if (lookupA s.typeSems p.c.tname).isSome then s.typeSems
        else insertA s.typeSems p.c.tname limit) := hkv
    by_cases h2 : (lookupA s.typeSems p.c.tname).isSome = true
    · rw [if_pos h2] at hkv2
      exact hInv.typeBound kv hkv2
    · rw [if_neg h2, insertA] at hkv2
      rcases List.mem_cons.mp hkv2 with hkve | hkvr
      · subst hkve
        show typeHeldCount s p.c.tname ≤ limit
        have hzero : typeHeldCount s p.c.tname = 0 := by
          unfold typeHeldCount
          rw [List.countP_eq_zero]
          intro b2 hb2
          intro hcontra
          simp only [Bool.and_eq_true, beq_iff_eq] at hcontra
          have := hInv.typeSemOf b2 hb2 hcontra.1.2
          rw [hcontra.1.1] at this
          rw [this] at h2
          exact h2 rfl
        rw [hzero]
        exact Nat.zero_le _
      · exact hInv.typeBound kv (mem_removeA hkvr).1
  · intro b2 hb2 hmcb
    exact hmono b2.c.tname (hInv.typeSemOf b2 hb2 hmcb)
  · intro x hx hset hmcx
    rcases mem_updP_elim hx with ⟨hxl, _⟩ | ⟨y, hy, hyid, rfl⟩
    · exact hmono x.c.tname (hInv.subSem x hxl hset hmcx)
    · have hyp : y = p := nodup_key_inj hInv.subsNodup hy hp (by rw [hyid, hpid])
      subst hyp
      exact hself

/-- Preservation of the section at executor.rs lines 101-103 and 143:
the body is spawned and the handle returned. -/
theorem inv_spawnBody {cs : List (Contract × Bool)} {s : Sys} {id : Nat} {p : SubProc}
    (hInv : Inv cs s) (hf : findSub s id = some p) (hpc : p.pc = SubPc.spawnBody) :
    Inv cs { s with
      bodies := s.bodies ++ [⟨id, p.c, BodyPc.acqGlobal⟩],
      subs := updSub s.subs id (fun q =>
        { q with pc := if q.viaManager then SubPc.track else SubPc.doneOk }) } := by
  obtain ⟨hp, hpid⟩ := findSub_mem hf
  have hnoBody : ∀ b ∈ s.bodies, b.id ≠ id := by
    intro b hb heq
    obtain ⟨q, hq, hqid, _, hqpc⟩ := hInv.bodySub b hb
    have hqp : q = p := nodup_key_inj hInv.subsNodup hq hp (by rw [hqid, heq, hpid])
    subst hqp
    rcases hqpc with h2 | h2 <;> rw [hpc] at h2 <;> simp at h2
  obtain ⟨clp, hclp, hclpc⟩ := hInv.subCell p hp (by rw [hpc]; rfl)
  refine ⟨?_, ?_, hInv.cellsNodup, ?_, ?_, ?_, ?_, ?_, ?_, ?_, ?_,
    hInv.typeSemsNodup, ?_, ?_, ?_, ?_, hInv.taskCell⟩
  · exact subsNodup_updSub (fun x => rfl) hInv.subsNodup
  · show ((s.bodies ++ [(⟨id, p.c, BodyPc.acqGlobal⟩ : BodyProc)]).map BodyProc.id).Nodup
    rw [List.map_append]
    refine List.Nodup.append hInv.bodiesNodup (by simp) ?_
    intro a ha hb2
    have ha2 : a = id := by simpa using hb2
    subst ha2
    rcases List.mem_map.mp ha with ⟨b0, hb0, hbx⟩
    exact hnoBody b0 hb0 hbx
  · exact subsC_updSub (fun x => rfl) (fun x => rfl) hInv.subsC
  · intro b2 hb2
    rcases List.mem_append.mp hb2 with hb2l | hb2n
    · refine bodySub_updSub
        (f := fun q => { q with pc := if q.viaManager then SubPc.track else SubPc.doneOk })
        (fun x => rfl) (fun x => rfl) ?_ hInv.bodySub b2 hb2l
      intro y hy hkey hset
      have hyp : y = p := nodup_key_inj hInv.subsNodup hy hp (by rw [hkey, hpid])
      subst hyp
      rcases hset with h2 | h2 <;> rw [hpc] at h2 <;> simp at h2
    · have hb2e : b2 = ⟨id, p.c, BodyPc.acqGlobal⟩ := by simpa using hb2n
      subst hb2e
      have hmem := mem_updP_of_mem SubProc.id id (fun q =>
        { q with pc := if q.viaManager then SubPc.track else SubPc.doneOk }) hp
      rw [if_pos hpid] at hmem
      refine ⟨{ p with pc := if p.viaManager then SubPc.track else SubPc.doneOk },
        hmem, hpid, rfl, ?_⟩
      by_cases hvm : p.viaManager = true
      · exact Or.inl (by
          show (if p.viaManager = true then SubPc.track else SubPc.doneOk) = SubPc.track
          rw [if_pos hvm])
      · exact Or.inr (by
          show (if p.viaManager = true then SubPc.track else SubPc.doneOk) = SubPc.doneOk
          rw [if_neg hvm])
  · intro x hx hpost
    rcases mem_updP_elim hx with ⟨hxl, _⟩ | ⟨y, hy, hyid, rfl⟩
    · exact hInv.subCell x hxl hpost
    · have hyp : y = p := nodup_key_inj hInv.subsNodup hy hp (by rw [hyid, hpid])
      exact hInv.subCell y hy (by rw [hyp, hpc]; rfl)
  · intro kv hkv
    obtain ⟨h1, h2⟩ := hInv.cellState kv hkv
    constructor
    · intro b2 hb2 hbid2
      rcases List.mem_append.mp hb2 with hb2l | hb2n
      · exact h1 b2 hb2l hbid2
      · have hb2e : b2 = ⟨id, p.c, BodyPc.acqGlobal⟩ := by simpa using hb2n
        subst hb2e
        have hkvid : kv.1 = id := hbid2.symm
        have hlk : lookupA s.cells kv.1 = some kv.2 :=
          lookupA_of_mem_nodup hInv.cellsNodup (by
            rcases kv with ⟨k1, v1⟩
            exact hkv)
        rw [hkvid] at hlk
        have hclp2 : lookupA s.cells id = some clp := by
          rw [← hpid]
          exact hclp
        rw [hclp2] at hlk
        have hkvcl : kv.2 = clp := (Option.some.inj hlk).symm
        have hpend : kv.2.tstate = TaskState.pending := by
          apply h2
          intro b3 hb3
          rw [hkvid]
          exact hnoBody b3 hb3
        refine ⟨by rw [hkvcl, hclpc], ?_, ?_, ?_⟩
        · intro _
          exact hpend
        · intro hx
          simp [runPhase] at hx
        · intro hx
          simp [donePhase] at hx
    · intro hno
      apply h2
      intro b3 hb3
      exact hno b3 (List.mem_append_left _ hb3)
  · exact queueSub_updSub (fun x => rfl) (fun x => rfl) hInv.queueSub
  · intro b2 hb2 hrgl hpast
    rcases List.mem_append.mp hb2 with hb2l | hb2n
    · exact hInv.rmAbsent b2 hb2l hrgl hpast
    · have hb2e : b2 = ⟨id, p.c, BodyPc.acqGlobal⟩ := by simpa using hb2n
      subst hb2e
      simp [pastRM] at hpast
  · intro x hx t hwb
    have hbase := wokenInv_updSub
      (f := fun q => { q with pc := if q.viaManager then SubPc.track else SubPc.doneOk })
      (fun y => rfl) (fun y => rfl) hInv.wokenInv x hx t hwb
    obtain ⟨b0, hb0, hrest⟩ := hbase
    exact ⟨b0, List.mem_append_left _ hb0, hrest⟩
  · intro cap hcap
    show (s.bodies ++ [(⟨id, p.c, BodyPc.acqGlobal⟩ : BodyProc)]).countP
      (fun x => holdGlobal x.pc) ≤ cap
    rw [List.countP_append]
    have : List.countP (fun x => holdGlobal x.pc)
        [(⟨id, p.c, BodyPc.acqGlobal⟩ : BodyProc)] = 0 := by
      simp [List.countP_cons, holdGlobal]
    rw [this]
    simpa using hInv.globalBound cap hcap
  · intro kv hkv
    show (s.bodies ++ [(⟨id, p.c, BodyPc.acqGlobal⟩ : BodyProc)]).countP
      (fun x => x.c.tname == kv.1 && x.c.maxConcurrent.isSome && holdType x.pc) ≤ kv.2
    rw [List.countP_append]
    have : List.countP
        (fun x => x.c.tname == kv.1 && x.c.maxConcurrent.isSome && holdType x.pc)
        [(⟨id, p.c, BodyPc.acqGlobal⟩ : BodyProc)] = 0 := by
      simp [List.countP_cons, holdType]
    rw [this]
    simpa using hInv.typeBound kv hkv
  · intro b2 hb2 hmcb
    rcases List.mem_append.mp hb2 with hb2l | hb2n
    · exact hInv.typeSemOf b2 hb2l hmcb
    · have hb2e : b2 = ⟨id, p.c, BodyPc.acqGlobal⟩ := by simpa using hb2n
      subst hb2e
      exact hInv.subSem p hp (Or.inl hpc) hmcb
  · intro x hx hset hmcx
    rcases mem_updP_elim hx with ⟨hxl, _⟩ | ⟨y, hy, hyid, rfl⟩
    · exact hInv.subSem x hxl hset hmcx
    · have hyp : y = p := nodup_key_inj hInv.subsNodup hy hp (by rw [hyid, hpid])
      subst hyp
      exact hInv.subSem y hp (Or.inl hpc) hmcx
  · intro b2 hb2 hset
    rcases List.mem_append.mp hb2 with hb2l | hb2n
    · exact hInv.wakeGlobal b2 hb2l hset
    · have hb2e : b2 = ⟨id, p.c, BodyPc.acqGlobal⟩ := by simpa using hb2n
      subst hb2e
      rcases hset with h3 | h3 <;> simp at h3

/-- Preservation of the manager section at manager.rs lines 45-60: the
handle is registered and the cleanup observer spawned. -/
theorem inv_track {cs : List (Contract × Bool)} {s : Sys} {id : Nat} {p : SubProc}
    (hInv : Inv cs s) (hf : findSub s id = some p) (hpc : p.pc = SubPc.track) :
    Inv cs { s with
      tasks := s.tasks ++ [id],
      cleans := s.cleans ++ [⟨id, CleanPc.reg⟩],
      subs := updSub s.subs id (fun q => { q with pc := SubPc.doneOk }) } := by
  obtain ⟨hp, hpid⟩ := findSub_mem hf
  refine ⟨?_, hInv.bodiesNodup, hInv.cellsNodup, ?_, ?_, ?_, hInv.cellState, ?_,
    hInv.rmAbsent, ?_, hInv.globalBound, hInv.typeSemsNodup, hInv.typeBound,
    hInv.typeSemOf, ?_, hInv.wakeGlobal, ?_⟩
  · exact subsNodup_updSub (fun x => rfl) hInv.subsNodup
  · exact subsC_updSub (fun x => rfl) (fun x => rfl) hInv.subsC
  · refine bodySub_updSub (fun x => rfl) (fun x => rfl) ?_ hInv.bodySub
    intro y hy hkey hset
    exact Or.inr rfl
  · intro x hx hpost
    rcases mem_updP_elim hx with ⟨hxl, _⟩ | ⟨y, hy, hyid, rfl⟩
    · exact hInv.subCell x hxl hpost
    · have hyp : y = p := nodup_key_inj hInv.subsNodup hy hp (by rw [hyid, hpid])
      exact hInv.subCell y hy (by rw [hyp, hpc]; rfl)
  · exact queueSub_updSub (fun x => rfl) (fun x => rfl) hInv.queueSub
  · exact wokenInv_updSub (fun x => rfl) (fun x => rfl) hInv.wokenInv
  · intro x hx hset hmcx
    rcases mem_updP_elim hx with ⟨hxl, _⟩ | ⟨y, hy, hyid, rfl⟩
    · exact hInv.subSem x hxl hset hmcx
    · have hyp : y = p := nodup_key_inj hInv.subsNodup hy hp (by rw [hyid, hpid])
      subst hyp
      exact hInv.subSem y hp (Or.inr (Or.inl hpc)) hmcx
  · intro tid htid
    have htid2 : tid ∈ s.tasks ++ [id] := htid
    rcases List.mem_append.mp htid2 with htl | htn
    · exact hInv.taskCell tid htl
    · have : tid = id := by simpa using htn
      subst this
      obtain ⟨cl, hcl, _⟩ := hInv.subCell p hp (by rw [hpc]; rfl)
      rw [← hpid]
      exact ⟨cl, hcl⟩

/-- The invariant is preserved by every atomic step. -/
theorem inv_step {cs : List (Contract × Bool)} {s : Sys} {a : Action} {s2 : Sys}
    (hInv : Inv cs s) (h : stepA s a = some s2) : Inv cs s2 := by
  cases a with
  | sub id =>
    obtain ⟨p, hf, hcase⟩ := stepSub_elim h
    rcases hcase with ⟨hpc, hgate, hq, rfl⟩ | ⟨hpc, hgate, hq, rfl⟩ | ⟨hpc, hgate, rfl⟩ |
      ⟨hpc, rfl⟩ | ⟨hpc, hwp, rfl⟩ | ⟨hpc, hconf, rfl⟩ | ⟨hpc, hconf, rfl⟩ | ⟨hpc, rfl⟩ |
      ⟨limit, hpc, hmc, rfl⟩ | ⟨hpc, rfl⟩ | ⟨hpc, rfl⟩
    · exact inv_subPcOnly hInv hf (by simp [hpc, postAcquire]) rfl
    · exact inv_subPcOnly hInv hf (by simp [hpc, postAcquire]) rfl
    · exact inv_subPcOnly hInv hf (by simp [hpc, postAcquire]) rfl
    · have h1 : Inv cs
          { s with subs := updSub s.subs id (fun q => { q with pc := SubPc.waiting }) } :=
        inv_subPcOnly hInv hf (by simp [hpc, postAcquire]) rfl
      have hpmem := mem_updP_of_mem SubProc.id id
        (fun q => { q with pc := SubPc.waiting }) (findSub_mem hf).1
      rw [if_pos (findSub_mem hf).2] at hpmem
      exact inv_pushQ p.c.tname id h1 ⟨_, hpmem, (findSub_mem hf).2, rfl⟩
    · exact inv_subPcOnly hInv hf (by simp [hpc, postAcquire]) rfl
    · exact inv_subPcOnly hInv hf (by simp [hpc, postAcquire]) rfl
    · exact inv_acquireLocks hInv hf hpc
    · exact inv_insertRunning hInv hf hpc
    · exact inv_typeSem hInv hf hpc hmc
    · exact inv_spawnBody hInv hf hpc
    · exact inv_track hInv hf hpc
  | body id =>
    obtain ⟨b, hf, hcase⟩ := stepBody_elim h
    rcases hcase with ⟨cap, hpc, hcap, hlt, rfl⟩ | ⟨hpc, hcap, rfl⟩ |
      ⟨mc, cap, hpc, hmc, hsem, hlt, rfl⟩ | ⟨hpc, hmc, rfl⟩ | ⟨hpc, rfl⟩ | ⟨hpc, rfl⟩ |
      ⟨hpc, rfl⟩ | ⟨hpc, rfl⟩ | ⟨q, w, hpc, hq, hw, rfl⟩ | ⟨q, hpc, hq, hw, rfl⟩ |
      ⟨hpc, hq, rfl⟩ | ⟨hpc, rfl⟩ | ⟨hpc, rfl⟩ | ⟨hpc, rfl⟩
    · -- acqGlobal with a configured global semaphore
      refine inv_bodyPcOnly hInv hf (fun _ => by rw [hpc]; rfl)
        (fun h2 => by simp [runPhase] at h2) (fun h2 => by simp [donePhase] at h2)
        (fun h2 => by simp [pastRM] at h2)
        (fun h2 => by rw [hpc] at h2; simp [pastRM] at h2)
        (fun h2 => by rcases h2 with h3 | h3 <;> simp at h3) ?_ ?_
      · intro cap2 hcap2
        rw [hcap] at hcap2
        have hce : cap = cap2 := Option.some.inj hcap2
        subst hce
        rw [hpc]
        simp only [holdGlobal, if_pos, if_neg]
        simp
        omega
      · intro kv hkv
        rw [hpc]
        simp [holdType]
        exact hInv.typeBound kv hkv
    · -- acqGlobal without a global semaphore
      refine inv_bodyPcOnly hInv hf (fun _ => by rw [hpc]; rfl)
        (fun h2 => by simp [runPhase] at h2) (fun h2 => by simp [donePhase] at h2)
        (fun h2 => by simp [pastRM] at h2)
        (fun h2 => by rw [hpc] at h2; simp [pastRM] at h2)
        (fun h2 => by rcases h2 with h3 | h3 <;> simp at h3) ?_ ?_
      · intro cap2 hcap2
        rw [hcap] at hcap2
        cases hcap2
      · intro kv hkv
        rw [hpc]
        simp [holdType]
        exact hInv.typeBound kv hkv
    · -- acqType with a declared ceiling
      refine inv_bodyPcOnly hInv hf (fun _ => by rw [hpc]; rfl)
        (fun h2 => by simp [runPhase] at h2) (fun h2 => by simp [donePhase] at h2)
        (fun h2 => by simp [pastRM] at h2)
        (fun h2 => by rw [hpc] at h2; simp [pastRM] at h2)
        (fun h2 => by rcases h2 with h3 | h3 <;> simp at h3) ?_ ?_
      · intro cap2 hcap2
        have := hInv.globalBound cap2 hcap2
        rw [hpc]
        simp [holdGlobal]
        omega
      · intro kv hkv
        by_cases h3 : kv.1 = b.c.tname
        · have hlkkv : lookupA s.typeSems kv.1 = some kv.2 := by
            apply lookupA_of_mem_nodup hInv.typeSemsNodup
            rcases kv with ⟨k1, v1⟩
            exact hkv
          rw [h3, hsem] at hlkkv
          have hkv2 : kv.2 = cap := (Option.some.inj hlkkv).symm
          rw [hpc, h3]
          simp [holdType, hmc]
          omega
        · have hbeq : (b.c.tname == kv.1) = false := by
            rw [beq_eq_false_iff_ne]
            exact fun hh => h3 hh.symm
          rw [hpc]
          simp [hbeq]
          exact hInv.typeBound kv hkv
    · -- acqType without a declared ceiling
      refine inv_bodyPcOnly hInv hf (fun _ => by rw [hpc]; rfl)
        (fun h2 => by simp [runPhase] at h2) (fun h2 => by simp [donePhase] at h2)
        (fun h2 => by simp [pastRM] at h2)
        (fun h2 => by rw [hpc] at h2; simp [pastRM] at h2)
        (fun h2 => by rcases h2 with h3 | h3 <;> simp at h3) ?_ ?_
      · intro cap2 hcap2
        have := hInv.globalBound cap2 hcap2
        rw [hpc]
        simp [holdGlobal]
        omega
      · intro kv hkv
        rw [hpc]
        simp [hmc]
        exact hInv.typeBound kv hkv
    · exact inv_setRunning hInv hf hpc
    · -- runBody
      refine inv_bodyPcOnly hInv hf (fun h2 => by simp [prePhase] at h2)
        (fun _ => by rw [hpc]; rfl) (fun h2 => by simp [donePhase] at h2)
        (fun h2 => by simp [pastRM] at h2)
        (fun h2 => by rw [hpc] at h2; simp [pastRM] at h2)
        (fun h2 => by rcases h2 with h3 | h3 <;> simp at h3) ?_ ?_
      · intro cap2 hcap2
        have := hInv.globalBound cap2 hcap2
        rw [hpc]
        simp [holdGlobal]
        omega
      · intro kv hkv
        rw [hpc]
        simp [holdType]
        exact hInv.typeBound kv hkv
    · -- relLocks
      have h1 : Inv cs { s with bodies := updBody s.bodies id (fun q2 =>
          { q2 with pc := if b.c.requiresGlobalLock then BodyPc.rmRunning
                          else BodyPc.setDone }) } := by
        refine inv_bodyPcOnly hInv hf ?_ (fun _ => by rw [hpc]; rfl) ?_ ?_ ?_ ?_ ?_ ?_
        · intro h2
          by_cases hr : b.c.requiresGlobalLock = true
          · rw [if_pos hr] at h2
            simp [prePhase] at h2
          · rw [if_neg hr] at h2
            simp [prePhase] at h2
        · intro h2
          by_cases hr : b.c.requiresGlobalLock = true
          · rw [if_pos hr] at h2
            simp [donePhase] at h2
          · rw [if_neg hr] at h2
            simp [donePhase] at h2
        · intro h2
          by_cases hr : b.c.requiresGlobalLock = true
          · rw [if_pos hr] at h2
            simp [pastRM] at h2
          · right
            simp only [Bool.not_eq_true] at hr
            exact hr
        · intro h2
          rw [hpc] at h2
          simp [pastRM] at h2
        · intro h2
          by_cases hr : b.c.requiresGlobalLock = true
          · exact hr
          · rw [if_neg hr] at h2
            rcases h2 with h3 | h3 <;> simp at h3
        · intro cap2 hcap2
          have := hInv.globalBound cap2 hcap2
          rw [hpc]
          by_cases hr : b.c.requiresGlobalLock = true
          · rw [if_pos hr]
            simp [holdGlobal]
            omega
          · rw [if_neg hr]
            simp [holdGlobal]
            omega
        · intro kv hkv
          have := hInv.typeBound kv hkv
          rw [hpc]
          by_cases hr : b.c.requiresGlobalLock = true
          · rw [if_pos hr]
            simp [holdType]
            omega
          · rw [if_neg hr]
            simp [holdType]
            omega
      exact inv_lockHeld _ h1
    · exact inv_rmRunning hInv hf hpc
    · exact inv_wakePop hInv hf hpc hq hw
    · exact inv_wakeEmpty hInv hf hpc
    · -- wakeNext with no queue entry
      refine inv_bodyPcOnly hInv hf (fun h2 => by simp [prePhase] at h2)
        (fun _ => by rw [hpc]; rfl) (fun h2 => by simp [donePhase] at h2)
        (fun h2 => Or.inl (by rw [hpc]; rfl)) (fun _ => rfl)
        (fun h2 => by rcases h2 with h3 | h3 <;> simp at h3) ?_ ?_
      · intro cap2 hcap2
        have := hInv.globalBound cap2 hcap2
        rw [hpc]
        simp [holdGlobal]
        omega
      · intro kv hkv
        rw [hpc]
        simp [holdType]
        exact hInv.typeBound kv hkv
    · exact inv_setDone hInv hf hpc
    · -- finish
      have h1 : Inv cs { s with bodies := updBody s.bodies id (fun q2 =>
          { q2 with pc := BodyPc.dropAll }) } := by
        refine inv_bodyPcOnly hInv hf (fun h2 => by simp [prePhase] at h2)
          (fun h2 => by simp [runPhase] at h2) (fun _ => by rw [hpc]; rfl)
          (fun h2 => Or.inl (by rw [hpc]; rfl)) (fun _ => rfl)
          (fun h2 => by rcases h2 with h3 | h3 <;> simp at h3) ?_ ?_
        · intro cap2 hcap2
          have := hInv.globalBound cap2 hcap2
          rw [hpc]
          simp [holdGlobal]
          omega
        · intro kv hkv
          rw [hpc]
          simp [holdType]
          exact hInv.typeBound kv hkv
      exact inv_cellsMisc id _ (fun cl => by
          by_cases h2 : cl.compRegistered = true
          · rw [if_pos h2]
          · rw [if_neg h2])
        (fun cl => by
          by_cases h2 : cl.compRegistered = true
          · rw [if_pos h2]
          · rw [if_neg h2]) h1
    · -- dropAll
      have h1 : Inv cs { s with bodies := updBody s.bodies id (fun q2 =>
          { q2 with pc := BodyPc.done }) } := by
        refine inv_bodyPcOnly hInv hf (fun h2 => by simp [prePhase] at h2)
          (fun h2 => by simp [runPhase] at h2) (fun _ => by rw [hpc]; rfl)
          (fun h2 => Or.inl (by rw [hpc]; rfl)) (fun _ => rfl)
          (fun h2 => by rcases h2 with h3 | h3 <;> simp at h3) ?_ ?_
        · intro cap2 hcap2
          have := hInv.globalBound cap2 hcap2
          rw [hpc]
          simp [holdGlobal]
          omega
        · intro kv hkv
          have := hInv.typeBound kv hkv
          rw [hpc]
          simp [holdType]
          omega
      exact inv_cellsMisc id (fun cl => { cl with rxAlive := false })
        (fun cl => rfl) (fun cl => rfl) h1
  | clean id =>
    obtain ⟨cp, hf, hcase⟩ := stepClean_elim h
    rcases hcase with ⟨hpc, rfl⟩ | ⟨cl, hpc, hcl, hnot, rfl⟩
    · exact inv_setCleans _ (inv_cellsMisc id
        (fun cl => { cl with compRegistered := true }) (fun cl => rfl) (fun cl => rfl) hInv)
    · exact inv_setCleans _ (inv_tasksFilter _ hInv)
  | cancel tid =>
    rcases cancel_elim h with rfl | rfl
    · exact hInv
    · exact inv_cellsMisc tid (fun cl => { cl with cancelFlag := true })
        (fun cl => rfl) (fun cl => rfl) hInv

/-- The invariant holds in every freshly constructed executor state. -/
theorem inv_init (gcap : Option Nat) (cs : List (Contract × Bool)) :
    Inv cs (initSys gcap cs) := by
  refine ⟨?_, ?_, ?_, ?_, ?_, ?_, ?_, ?_, ?_, ?_, ?_, ?_, ?_, ?_, ?_, ?_, ?_⟩
  · exact mkSubs_id_nodup cs 0
  · simp [initSys]
  · simp [initSys]
  · intro p hp
    exact (mem_mkSubs hp).1
  · intro b hb
    simp [initSys] at hb
  · intro p hp hpost
    rw [(mem_mkSubs hp).2.1] at hpost
    simp [postAcquire] at hpost
  · intro kv hkv
    simp [initSys] at hkv
  · intro kq hkq
    simp [initSys] at hkq
  · intro b hb
    simp [initSys] at hb
  · intro p hp t hwb
    rw [(mem_mkSubs hp).2.2.2.1] at hwb
    cases hwb
  · intro cap hcap
    simp [globalHeldCount, initSys]
  · simp [initSys]
  · intro kv hkv
    simp [initSys] at hkv
  · intro b hb
    simp [initSys] at hb
  · intro p hp hset
    rcases hset with h2 | h2 | h2 <;> rw [(mem_mkSubs hp).2.1] at h2 <;> simp at h2
  · intro b hb
    simp [initSys] at hb
  · intro tid htid
    simp [initSys] at htid

theorem inv_run {cs : List (Contract × Bool)} {s : Sys} {as : List Action} {s2 : Sys}
    (hInv : Inv cs s) (h : runOpt s as = some s2) : Inv cs s2 := by
  induction as generalizing s with
  | nil =>
    simp [runOpt] at h
    rw [← h]
    exact hInv
  | cons a rest ih =>
    simp only [runOpt] at h
    split at h
    · rename_i s3 hstep
      exact ih (inv_step hInv hstep) h
    · cases h

/-- Every state reachable from a fresh executor satisfies the
invariant. -/
theorem inv_reachable {gcap : Option Nat} {cs : List (Contract × Bool)} {s : Sys}
    (h : Reachable (initSys gcap cs) s) : Inv cs s := by
  obtain ⟨as, hrun⟩ := h
  exact inv_run (inv_init gcap cs) hrun

/-! Trace-level auxiliary invariants used by the stated properties. -/

/-- Submit pcs from which the call can no longer reach its
cell-creating resource-lock section (executor.rs lines 64-81). -/
def settledPc : SubPc → Bool
  | .start => false
  | .pushWait => false
  | .waiting => false
  | .acquireLocks => false
  | _ => true

theorem settled_subNextAfterLocks (c : Contract) :
    settledPc (subNextAfterLocks c) = true := by
  unfold subNextAfterLocks
  by_cases h1 : c.requiresGlobalLock = true
  · rw [if_pos h1]
    rfl
  · rw [if_neg h1]
    by_cases h2 : c.maxConcurrent.isSome = true
    · rw [if_pos h2]
      rfl
    · rw [if_neg h2]
      rfl

theorem settled_subNextAfterInsert (c : Contract) :
    settledPc (subNextAfterInsert c) = true := by
  unfold subNextAfterInsert
  by_cases h2 : c.maxConcurrent.isSome = true
  · rw [if_pos h2]
    rfl
  · rw [if_neg h2]
    rfl

/-- Cell-ownership: every existing state cell belongs to a submit call
that has already executed its cell-creating section, so no cell is
ever created twice for the same identity. -/
def CellSub (s : Sys) : Prop :=
  ∀ kv ∈ s.cells, ∀ p ∈ s.subs, p.id = kv.1 → settledPc p.pc = true

theorem cellSub_updP_settled {s : Sys} {cells : List (Nat × Cells)} {id : Nat}
    {f : SubProc → SubProc} (h : ∀ kv ∈ cells, ∀ p ∈ s.subs, p.id = kv.1 →
      settledPc p.pc = true)
    (hY : ∀ x, settledPc (f x).pc = true) :
    ∀ kv ∈ cells, ∀ p ∈ updSub s.subs id f, p.id = kv.1 → settledPc p.pc = true := by
  intro kv hkv p' hp' hpid
  rcases mem_updP_elim hp' with ⟨hm, _⟩ | ⟨y, hy, hyid, rfl⟩
  · exact h kv hkv p' hm hpid
  · exact hY y

theorem cellSub_updP_noCell {s : Sys} {cells : List (Nat × Cells)} {id : Nat}
    {f : SubProc → SubProc} (h : ∀ kv ∈ cells, ∀ p ∈ s.subs, p.id = kv.1 →
      settledPc p.pc = true)
    (hid : ∀ x, (f x).id = x.id)
    (hno : ∀ kv ∈ cells, kv.1 ≠ id) :
    ∀ kv ∈ cells, ∀ p ∈ updSub s.subs id f, p.id = kv.1 → settledPc p.pc = true := by
  intro kv hkv p' hp' hpid
  rcases mem_updP_elim hp' with ⟨hm, _⟩ | ⟨y, hy, hyid, rfl⟩
  · exact h kv hkv p' hm hpid
  · exact absurd (((hid y).trans hyid).symm.trans hpid) (Ne.symm (hno kv hkv))

theorem cellSub_updP_pcKeep {s : Sys} {cells : List (Nat × Cells)} {id : Nat}
    {f : SubProc → SubProc} (h : ∀ kv ∈ cells, ∀ p ∈ s.subs, p.id = kv.1 →
      settledPc p.pc = true)
    (hid : ∀ x, (f x).id = x.id) (hpc : ∀ x, (f x).pc = x.pc) :
    ∀ kv ∈ cells, ∀ p ∈ updSub s.subs id f, p.id = kv.1 → settledPc p.pc = true := by
  intro kv hkv p' hp' hpid
  rcases mem_updP_elim hp' with ⟨hm, _⟩ | ⟨y, hy, hyid, rfl⟩
  · exact h kv hkv p' hm hpid
  · rw [hpc y]
    exact h kv hkv y hy ((hid y).symm.trans hpid)

theorem cellSub_updV {cells : List (Nat × Cells)} {subs : List SubProc} {k : Nat}
    {f : Cells → Cells} (h : ∀ kv ∈ cells, ∀ p ∈ subs, p.id = kv.1 →
      settledPc p.pc = true) :
    ∀ kv ∈ updV cells k f, ∀ p ∈ subs, p.id = kv.1 → settledPc p.pc = true := by
  intro kv hkv p hp hpid
  rcases mem_updV_elim hkv with ⟨hm, _⟩ | ⟨v, hv, rfl⟩
  · exact h kv hm p hp hpid
  · exact h (k, v) hv p hp hpid

/-- The cell-ownership invariant is preserved by every atomic step. -/
theorem cellSub_step {s : Sys} {a : Action} {s2 : Sys}
    (hcs : CellSub s) (h : stepA s a = some s2) : CellSub s2 := by
  cases a with
  | sub id =>
    obtain ⟨p, hf, hcase⟩ := stepSub_elim h
    obtain ⟨hpm, hpid⟩ := findSub_mem hf
    rcases hcase with ⟨hpc, hgate, hq, rfl⟩ | ⟨hpc, hgate, hq, rfl⟩ | ⟨hpc, hgate, rfl⟩ |
      ⟨hpc, rfl⟩ | ⟨hpc, hwp, rfl⟩ | ⟨hpc, hconf, rfl⟩ | ⟨hpc, hconf, rfl⟩ | ⟨hpc, rfl⟩ |
      ⟨limit, hpc, hmc, rfl⟩ | ⟨hpc, rfl⟩ | ⟨hpc, rfl⟩
    · exact cellSub_updP_noCell hcs (fun x => rfl) (fun kv hkv hkid => by
        have := hcs kv hkv p hpm (hpid.trans hkid.symm)
        rw [hpc] at this
        simp [settledPc] at this)
    · exact cellSub_updP_settled hcs (fun x => rfl)
    · exact cellSub_updP_noCell hcs (fun x => rfl) (fun kv hkv hkid => by
        have := hcs kv hkv p hpm (hpid.trans hkid.symm)
        rw [hpc] at this
        simp [settledPc] at this)
    · exact cellSub_updP_noCell hcs (fun x => rfl) (fun kv hkv hkid => by
        have := hcs kv hkv p hpm (hpid.trans hkid.symm)
        rw [hpc] at this
        simp [settledPc] at this)
    · exact cellSub_updP_noCell hcs (fun x => rfl) (fun kv hkv hkid => by
        have := hcs kv hkv p hpm (hpid.trans hkid.symm)
        rw [hpc] at this
        simp [settledPc] at this)
    · exact cellSub_updP_settled hcs (fun x => rfl)
    · -- the cell-creating section itself
      intro kv hkv p' hp' hpid2
      rcases List.mem_cons.mp hkv with rfl | hkv2
      · rcases mem_updP_elim hp' with ⟨hm, hne⟩ | ⟨y, hy, hyid, rfl⟩
        · exact absurd hpid2 hne
        · rw [show (SubProc.pc { y with pc := subNextAfterLocks p.c }) =
              subNextAfterLocks p.c from rfl]
          exact settled_subNextAfterLocks p.c
      · obtain ⟨hm, hne⟩ := mem_removeA hkv2
        rcases mem_updP_elim hp' with ⟨hm2, _⟩ | ⟨y, hy, hyid, rfl⟩
        · exact hcs kv hm p' hm2 hpid2
        · exact absurd (hyid.symm.trans hpid2).symm hne
    · exact cellSub_updP_settled hcs (fun x => settled_subNextAfterInsert p.c)
    · exact cellSub_updP_settled hcs (fun x => rfl)
    · exact cellSub_updP_settled hcs (fun x => by
        by_cases hv : x.viaManager = true
        · rw [show (SubProc.pc { x with pc := if x.viaManager then SubPc.track
              else SubPc.doneOk }) = (if x.viaManager then SubPc.track
              else SubPc.doneOk) from rfl, if_pos hv]
          rfl
        · rw [show (SubProc.pc { x with pc := if x.viaManager then SubPc.track
              else SubPc.doneOk }) = (if x.viaManager then SubPc.track
              else SubPc.doneOk) from rfl, if_neg hv]
          rfl)
    · exact cellSub_updP_settled hcs (fun x => rfl)
  | body id =>
    obtain ⟨b, hf, hcase⟩ := stepBody_elim h
    rcases hcase with ⟨cap, hpc, hcap, hlt, rfl⟩ | ⟨hpc, hcap, rfl⟩ |
      ⟨mc, cap, hpc, hmc, hsem, hlt, rfl⟩ | ⟨hpc, hmc, rfl⟩ | ⟨hpc, rfl⟩ | ⟨hpc, rfl⟩ |
      ⟨hpc, rfl⟩ | ⟨hpc, rfl⟩ | ⟨q, w, hpc, hq, hw, rfl⟩ | ⟨q, hpc, hq, hw, rfl⟩ |
      ⟨hpc, hq, rfl⟩ | ⟨hpc, rfl⟩ | ⟨hpc, rfl⟩ | ⟨hpc, rfl⟩
    · exact hcs
    · exact hcs
    · exact hcs
    · exact hcs
    · intro kv hkv p2 hp2 hpid2
      have hkv2 : kv ∈ updV s.cells id
          (fun cl => { cl with tstate := TaskState.running }) := hkv
      exact cellSub_updV hcs kv hkv2 p2 hp2 hpid2
    · exact hcs
    · exact hcs
    · exact hcs
    · exact cellSub_updP_pcKeep hcs (fun x => rfl) (fun x => rfl)
    · exact hcs
    · exact hcs
    · intro kv hkv p2 hp2 hpid2
      have hkv2 : kv ∈ updV s.cells id (fun cl =>
          { cl with tstate := if b.c.succeeds then TaskState.completed
                              else TaskState.failed }) := hkv
      exact cellSub_updV hcs kv hkv2 p2 hp2 hpid2
    · intro kv hkv p2 hp2 hpid2
      have hkv2 : kv ∈ updV s.cells id (fun cl =>
          if cl.compRegistered then { cl with compNotified := true } else cl) := hkv
      exact cellSub_updV hcs kv hkv2 p2 hp2 hpid2
    · intro kv hkv p2 hp2 hpid2
      have hkv2 : kv ∈ updV s.cells id (fun cl => { cl with rxAlive := false }) := hkv
      exact cellSub_updV hcs kv hkv2 p2 hp2 hpid2
  | clean id =>
    obtain ⟨cp, hf, hcase⟩ := stepClean_elim h
    rcases hcase with ⟨hpc, rfl⟩ | ⟨cl, hpc, hcl, hnot, rfl⟩
    · intro kv hkv p2 hp2 hpid2
      have hkv2 : kv ∈ updV s.cells id
          (fun cl => { cl with compRegistered := true }) := hkv
      exact cellSub_updV hcs kv hkv2 p2 hp2 hpid2
    · exact hcs
  | cancel tid =>
    rcases cancel_elim h with rfl | rfl
    · exact hcs
    · intro kv hkv p2 hp2 hpid2
      have hkv2 : kv ∈ updV s.cells tid
          (fun c2 => { c2 with cancelFlag := true }) := hkv
      exact cellSub_updV hcs kv hkv2 p2 hp2 hpid2

theorem cellSub_run {s : Sys} {as : List Action} {s2 : Sys}
    (hcs : CellSub s) (h : runOpt s as = some s2) : CellSub s2 := by
  induction as generalizing s with
  | nil =>
    simp [runOpt] at h
    rw [← h]
    exact hcs
  | cons a rest ih =>
    simp only [runOpt] at h
    split at h
    · rename_i s3 hstep
      exact ih (cellSub_step hcs hstep) h
    · cases h

theorem cellSub_reachable {gcap : Option Nat} {cs : List (Contract × Bool)} {s : Sys}
    (h : Reachable (initSys gcap cs) s) : CellSub s := by
  obtain ⟨as, hrun⟩ := h
  refine cellSub_run ?_ hrun
  intro kv hkv
  simp [initSys] at hkv

/-! The cancellation trigger is a level signal: once raised it stays
raised, because the watch channel value is only ever written to true
and the state cell of a cancelled (hence admitted) identity is never
re-created. -/

/-- Once the watch value is true and the identity's submit call is past
its cell-creating section, both facts persist forever. -/
def cancelSticky (s : Sys) (tid : Nat) : Prop :=
  isCancelledCtx s tid = true ∧ ∀ p ∈ s.subs, p.id = tid → settledPc p.pc = true

theorem sticky_updP {subs : List SubProc} {tid id : Nat} {f : SubProc → SubProc}
    (hsubs : ∀ p ∈ subs, p.id = tid → settledPc p.pc = true)
    (hY : ∀ x, settledPc (f x).pc = true) :
    ∀ p ∈ updP SubProc.id subs id f, p.id = tid → settledPc p.pc = true := by
  intro p' hp' hpid
  rcases mem_updP_elim hp' with ⟨hm, _⟩ | ⟨y, hy, hyid, rfl⟩
  · exact hsubs p' hm hpid
  · exact hY y

theorem sticky_updP_pcKeep {subs : List SubProc} {tid id : Nat} {f : SubProc → SubProc}
    (hsubs : ∀ p ∈ subs, p.id = tid → settledPc p.pc = true)
    (hid : ∀ x, (f x).id = x.id) (hpc : ∀ x, (f x).pc = x.pc) :
    ∀ p ∈ updP SubProc.id subs id f, p.id = tid → settledPc p.pc = true := by
  intro p' hp' hpid
  rcases mem_updP_elim hp' with ⟨hm, _⟩ | ⟨y, hy, hyid, rfl⟩
  · exact hsubs p' hm hpid
  · rw [hpc y]
    exact hsubs y hy ((hid y).symm.trans hpid)

theorem sticky_updP_other {subs : List SubProc} {tid id : Nat} {f : SubProc → SubProc}
    (hsubs : ∀ p ∈ subs, p.id = tid → settledPc p.pc = true)
    (hid : ∀ x, (f x).id = x.id) (hne : id ≠ tid) :
    ∀ p ∈ updP SubProc.id subs id f, p.id = tid → settledPc p.pc = true := by
  intro p' hp' hpid
  rcases mem_updP_elim hp' with ⟨hm, _⟩ | ⟨y, hy, hyid, rfl⟩
  · exact hsubs p' hm hpid
  · exact absurd (((hid y).trans hyid).symm.trans hpid).symm (Ne.symm hne)

theorem isCancelled_updV {s : Sys} {s2 : Sys} {tid : Nat} (k : Nat) (f : Cells → Cells)
    (hcells : s2.cells = updV s.cells k f)
    (hflag : isCancelledCtx s tid = true)
    (hf : ∀ cl, (f cl).cancelFlag = cl.cancelFlag ∨ (f cl).cancelFlag = true) :
    isCancelledCtx s2 tid = true := by
  unfold isCancelledCtx at hflag ⊢
  rw [hcells, lookupA_updV]
  by_cases hk : tid = k
  · rw [if_pos hk, ← hk]
    cases hlk : lookupA s.cells tid with
    | none =>
      rw [hlk] at hflag
      exact absurd hflag (by simp)
    | some cl =>
      rw [hlk] at hflag
      show (f cl).cancelFlag = true
      rcases hf cl with h2 | h2
      · rw [h2]
        exact hflag
      · exact h2
  · rw [if_neg hk]
    exact hflag

/-- One-step persistence of the raised cancellation trigger. -/
theorem cancelSticky_step {s : Sys} {tid : Nat} {a : Action} {s2 : Sys}
    (hst : cancelSticky s tid) (h : stepA s a = some s2) : cancelSticky s2 tid := by
  obtain ⟨hflag, hsubs⟩ := hst
  cases a with
  | sub id =>
    obtain ⟨p, hf, hcase⟩ := stepSub_elim h
    obtain ⟨hpm, hpid⟩ := findSub_mem hf
    by_cases hid : id = tid
    · subst hid
      have hset := hsubs p hpm hpid
      rcases hcase with ⟨hpc, hgate, hq, rfl⟩ | ⟨hpc, hgate, hq, rfl⟩ | ⟨hpc, hgate, rfl⟩ |
        ⟨hpc, rfl⟩ | ⟨hpc, hwp, rfl⟩ | ⟨hpc, hconf, rfl⟩ | ⟨hpc, hconf, rfl⟩ | ⟨hpc, rfl⟩ |
        ⟨limit, hpc, hmc, rfl⟩ | ⟨hpc, rfl⟩ | ⟨hpc, rfl⟩
      · rw [hpc] at hset
        simp [settledPc] at hset
      · rw [hpc] at hset
        simp [settledPc] at hset
      · rw [hpc] at hset
        simp [settledPc] at hset
      · rw [hpc] at hset
        simp [settledPc] at hset
      · rw [hpc] at hset
        simp [settledPc] at hset
      · rw [hpc] at hset
        simp [settledPc] at hset
      · rw [hpc] at hset
        simp [settledPc] at hset
      · exact ⟨hflag, sticky_updP hsubs (fun x => settled_subNextAfterInsert p.c)⟩
      · exact ⟨hflag, sticky_updP hsubs (fun x => rfl)⟩
      · refine ⟨hflag, sticky_updP hsubs (fun x => ?_)⟩
        by_cases hv : x.viaManager = true
        · rw [show (SubProc.pc { x with pc := if x.viaManager then SubPc.track
              else SubPc.doneOk }) = (if x.viaManager then SubPc.track
              else SubPc.doneOk) from rfl, if_pos hv]
          rfl
        · rw [show (SubProc.pc { x with pc := if x.viaManager then SubPc.track
              else SubPc.doneOk }) = (if x.viaManager then SubPc.track
              else SubPc.doneOk) from rfl, if_neg hv]
          rfl
      · exact ⟨hflag, sticky_updP hsubs (fun x => rfl)⟩
    · rcases hcase with ⟨hpc, hgate, hq, rfl⟩ | ⟨hpc, hgate, hq, rfl⟩ | ⟨hpc, hgate, rfl⟩ |
        ⟨hpc, rfl⟩ | ⟨hpc, hwp, rfl⟩ | ⟨hpc, hconf, rfl⟩ | ⟨hpc, hconf, rfl⟩ | ⟨hpc, rfl⟩ |
        ⟨limit, hpc, hmc, rfl⟩ | ⟨hpc, rfl⟩ | ⟨hpc, rfl⟩ <;>
        refine ⟨?_, sticky_updP_other hsubs (fun x => rfl) hid⟩
      · exact hflag
      · exact hflag
      · exact hflag
      · exact hflag
      · exact hflag
      · exact hflag
      · -- the cell-creating section of a different identity
        unfold isCancelledCtx at hflag ⊢
        rw [show lookupA (insertA s.cells id
            ⟨p.c, TaskState.pending, false, true, false, false⟩) tid =
            lookupA s.cells tid from by
          rw [lookupA_insertA, if_neg (fun hh => hid hh.symm)]]
        exact hflag
      · exact hflag
      · exact hflag
      · exact hflag
      · exact hflag
  | body id =>
    obtain ⟨b, hf, hcase⟩ := stepBody_elim h
    rcases hcase with ⟨cap, hpc, hcap, hlt, rfl⟩ | ⟨hpc, hcap, rfl⟩ |
      ⟨mc, cap, hpc, hmc, hsem, hlt, rfl⟩ | ⟨hpc, hmc, rfl⟩ | ⟨hpc, rfl⟩ | ⟨hpc, rfl⟩ |
      ⟨hpc, rfl⟩ | ⟨hpc, rfl⟩ | ⟨q, w, hpc, hq, hw, rfl⟩ | ⟨q, hpc, hq, hw, rfl⟩ |
      ⟨hpc, hq, rfl⟩ | ⟨hpc, rfl⟩ | ⟨hpc, rfl⟩ | ⟨hpc, rfl⟩
    · exact ⟨hflag, hsubs⟩
    · exact ⟨hflag, hsubs⟩
    · exact ⟨hflag, hsubs⟩
    · exact ⟨hflag, hsubs⟩
    · exact ⟨isCancelled_updV id (fun cl => { cl with tstate := TaskState.running })
        rfl hflag (fun cl => Or.inl rfl), hsubs⟩
    · exact ⟨hflag, hsubs⟩
    · exact ⟨hflag, hsubs⟩
    · exact ⟨hflag, hsubs⟩
    · exact ⟨hflag, sticky_updP_pcKeep hsubs (fun x => rfl) (fun x => rfl)⟩
    · exact ⟨hflag, hsubs⟩
    · exact ⟨hflag, hsubs⟩
    · exact ⟨isCancelled_updV id (fun cl =>
        { cl with tstate := if b.c.succeeds then TaskState.completed
                            else TaskState.failed }) rfl hflag (fun cl => Or.inl rfl), hsubs⟩
    · refine ⟨isCancelled_updV id (fun cl =>
        if cl.compRegistered then { cl with compNotified := true } else cl)
        rfl hflag (fun cl => Or.inl ?_), hsubs⟩
      by_cases h2 : cl.compRegistered = true
      · simp [h2]
      · simp [h2]
    · exact ⟨isCancelled_updV id (fun cl => { cl with rxAlive := false })
        rfl hflag (fun cl => Or.inl rfl), hsubs⟩
  | clean id =>
    obtain ⟨cp, hf, hcase⟩ := stepClean_elim h
    rcases hcase with ⟨hpc, rfl⟩ | ⟨cl, hpc, hcl, hnot, rfl⟩
    · exact ⟨isCancelled_updV id (fun cl => { cl with compRegistered := true })
        rfl hflag (fun cl => Or.inl rfl), hsubs⟩
    · exact ⟨hflag, hsubs⟩
  | cancel tid2 =>
    rcases cancel_elim h with rfl | rfl
    · exact ⟨hflag, hsubs⟩
    · exact ⟨isCancelled_updV tid2 (fun c2 => { c2 with cancelFlag := true })
        rfl hflag (fun cl => Or.inr rfl), hsubs⟩

theorem cancelSticky_run {s : Sys} {tid : Nat} {as : List Action} {s2 : Sys}
    (hst : cancelSticky s tid) (h : runOpt s as = some s2) : cancelSticky s2 tid := by
  induction as generalizing s with
  | nil =>
    simp [runOpt] at h
    rw [← h]
    exact hst
  | cons a rest ih =>
    simp only [runOpt] at h
    split at h
    · rename_i s3 hstep
      exact ih (cancelSticky_step hst hstep) h
    · cases h

/-! Phase coverage and permit-window facts. -/

theorem phase_cover (pc : BodyPc) :
    prePhase pc = true ∨ runPhase pc = true ∨ donePhase pc = true := by
  cases pc <;> simp [prePhase, runPhase, donePhase]

theorem runPhase_holdGlobal {pc : BodyPc} (h : runPhase pc = true) :
    holdGlobal pc = true := by
  cases pc <;> first | rfl | simp [runPhase] at h

theorem runPhase_holdType {pc : BodyPc} (h : runPhase pc = true) :
    holdType pc = true := by
  cases pc <;> first | rfl | simp [runPhase] at h

/-! Terminal states are final: once a state cell holds Completed or
Failed it never changes again. -/

theorem tstateOf_updV {s : Sys} {s2 : Sys} {tid : Nat} (k : Nat) (f : Cells → Cells)
    (hcells : s2.cells = updV s.cells k f)
    (hf : ∀ cl, (f cl).tstate = cl.tstate) :
    tstateOf s2 tid = tstateOf s tid := by
  unfold tstateOf
  rw [hcells, lookupA_updV]
  by_cases hk : tid = k
  · rw [if_pos hk, ← hk]
    cases lookupA s.cells tid with
    | none => rfl
    | some cl => simp [hf cl]
  · rw [if_neg hk]

theorem terminal_step {cs : List (Contract × Bool)} {s : Sys} {a : Action} {s2 : Sys}
    {t : TaskState} {tid : Nat}
    (hInv : Inv cs s) (hcs : CellSub s)
    (ht : t = TaskState.completed ∨ t = TaskState.failed)
    (hstate : tstateOf s tid = some t) (h : stepA s a = some s2) :
    tstateOf s2 tid = some t := by
  obtain ⟨cl, hlk, hcl⟩ : ∃ cl, lookupA s.cells tid = some cl ∧ cl.tstate = t := by
    unfold tstateOf at hstate
    cases hlk : lookupA s.cells tid with
    | none => rw [hlk] at hstate; cases hstate
    | some cl =>
      rw [hlk] at hstate
      exact ⟨cl, rfl, Option.some.inj hstate⟩
  cases a with
  | sub id =>
    obtain ⟨p, hf, hcase⟩ := stepSub_elim h
    obtain ⟨hpm, hpid⟩ := findSub_mem hf
    rcases hcase with ⟨hpc, hgate, hq, rfl⟩ | ⟨hpc, hgate, hq, rfl⟩ | ⟨hpc, hgate, rfl⟩ |
      ⟨hpc, rfl⟩ | ⟨hpc, hwp, rfl⟩ | ⟨hpc, hconf, rfl⟩ | ⟨hpc, hconf, rfl⟩ | ⟨hpc, rfl⟩ |
      ⟨limit, hpc, hmc, rfl⟩ | ⟨hpc, rfl⟩ | ⟨hpc, rfl⟩
    · exact hstate
    · exact hstate
    · exact hstate
    · exact hstate
    · exact hstate
    · exact hstate
    · -- the cell-creating section
      by_cases hid : id = tid
      · subst hid
        have := hcs (id, cl) (lookupA_mem hlk) p hpm hpid
        rw [hpc] at this
        simp [settledPc] at this
      · unfold tstateOf
        rw [show lookupA (insertA s.cells id
            ⟨p.c, TaskState.pending, false, true, false, false⟩) tid =
            lookupA s.cells tid from by
          rw [lookupA_insertA, if_neg (fun hh => hid hh.symm)], hlk]
        simp [hcl]
    · exact hstate
    · exact hstate
    · exact hstate
    · exact hstate
  | body id =>
    obtain ⟨b, hf, hcase⟩ := stepBody_elim h
    obtain ⟨hbm, hbid⟩ := findBody_mem hf
    rcases hcase with ⟨cap, hpc, hcap, hlt, rfl⟩ | ⟨hpc, hcap, rfl⟩ |
      ⟨mc, cap, hpc, hmc, hsem, hlt, rfl⟩ | ⟨hpc, hmc, rfl⟩ | ⟨hpc, rfl⟩ | ⟨hpc, rfl⟩ |
      ⟨hpc, rfl⟩ | ⟨hpc, rfl⟩ | ⟨q, w, hpc, hq, hw, rfl⟩ | ⟨q, hpc, hq, hw, rfl⟩ |
      ⟨hpc, hq, rfl⟩ | ⟨hpc, rfl⟩ | ⟨hpc, rfl⟩ | ⟨hpc, rfl⟩
    · exact hstate
    · exact hstate
    · exact hstate
    · exact hstate
    · -- the Running write
      by_cases hid : id = tid
      · subst hid
        obtain ⟨h1, _⟩ := hInv.cellState (id, cl) (lookupA_mem hlk)
        have hsm := (h1 b hbm hbid).2
        have hpre : cl.tstate = TaskState.pending := hsm.1 (by rw [hpc]; rfl)
        rcases ht with rfl | rfl <;> rw [hpre] at hcl <;> cases hcl
      · unfold tstateOf
        rw [lookupA_updV, if_neg (fun hh => hid hh.symm), hlk]
        simp [hcl]
    · exact hstate
    · exact hstate
    · exact hstate
    · exact hstate
    · exact hstate
    · exact hstate
    · -- the terminal write
      by_cases hid : id = tid
      · subst hid
        obtain ⟨h1, _⟩ := hInv.cellState (id, cl) (lookupA_mem hlk)
        have hsm := (h1 b hbm hbid).2
        have hrun : cl.tstate = TaskState.running := hsm.2.1 (by rw [hpc]; rfl)
        rcases ht with rfl | rfl <;> rw [hrun] at hcl <;> cases hcl
      · unfold tstateOf
        rw [lookupA_updV, if_neg (fun hh => hid hh.symm), hlk]
        simp [hcl]
    · rw [tstateOf_updV id (fun cl2 =>
        if cl2.compRegistered then { cl2 with compNotified := true } else cl2)
        rfl (fun cl2 => by
          by_cases h2 : cl2.compRegistered = true
          · simp [h2]
          · simp [h2])]
      exact hstate
    · rw [tstateOf_updV id (fun cl2 => { cl2 with rxAlive := false }) rfl
        (fun cl2 => rfl)]
      exact hstate
  | clean id =>
    obtain ⟨cp, hf, hcase⟩ := stepClean_elim h
    rcases hcase with ⟨hpc, rfl⟩ | ⟨cl2, hpc, hcl2, hnot, rfl⟩
    · rw [tstateOf_updV id (fun cl2 => { cl2 with compRegistered := true }) rfl
        (fun cl2 => rfl)]
      exact hstate
    · exact hstate
  | cancel tid2 =>
    rcases cancel_elim h with rfl | rfl
    · exact hstate
    · rw [tstateOf_updV tid2 (fun c2 => { c2 with cancelFlag := true }) rfl
        (fun c2 => rfl)]
      exact hstate

theorem terminal_run {cs : List (Contract × Bool)} {s : Sys} {as : List Action} {s3 : Sys}
    {t : TaskState} {tid : Nat}
    (hInv : Inv cs s) (hcs : CellSub s)
    (ht : t = TaskState.completed ∨ t = TaskState.failed)
    (hstate : tstateOf s tid = some t) (h : runOpt s as = some s3) :
    tstateOf s3 tid = some t := by
  induction as generalizing s with
  | nil =>
    simp [runOpt] at h
    rw [← h]
    exact hstate
  | cons a rest ih =>
    simp only [runOpt] at h
    split at h
    · rename_i s4 hstep
      exact ih (inv_step hInv hstep) (cellSub_step hcs hstep)
        (terminal_step hInv hcs ht hstate hstep) h
    · cases h

/-! The type-scoped permit pools are created once and never resized
(executor.rs lines 91-99: or_insert_with only). -/

theorem typeSems_step {s : Sys} {a : Action} {s2 : Sys} {tn : String} {n : Nat}
    (hsem : lookupA s.typeSems tn = some n) (h : stepA s a = some s2) :
    lookupA s2.typeSems tn = some n := by
  cases a with
  | sub id =>
    obtain ⟨p, hf, hcase⟩ := stepSub_elim h
    rcases hcase with ⟨hpc, hgate, hq, rfl⟩ | ⟨hpc, hgate, hq, rfl⟩ | ⟨hpc, hgate, rfl⟩ |
      ⟨hpc, rfl⟩ | ⟨hpc, hwp, rfl⟩ | ⟨hpc, hconf, rfl⟩ | ⟨hpc, hconf, rfl⟩ | ⟨hpc, rfl⟩ |
      ⟨limit, hpc, hmc, rfl⟩ | ⟨hpc, rfl⟩ | ⟨hpc, rfl⟩
    · exact hsem
    · exact hsem
    · exact hsem
    · exact hsem
    · exact hsem
    · exact hsem
    · exact hsem
    · exact hsem
    · show lookupA (if (lookupA s.typeSems p.c.tname).isSome then s.typeSems
          else insertA s.typeSems p.c.tname limit) tn = some n
      by_cases hex : (lookupA s.typeSems p.c.tname).isSome = true
      · rw [if_pos hex]
        exact hsem
      · rw [if_neg hex, lookupA_insertA]
        by_cases htn : tn = p.c.tname
        · rw [← htn, hsem] at hex
          simp at hex
        · rw [if_neg htn]
          exact hsem
    · exact hsem
    · exact hsem
  | body id =>
    obtain ⟨b, hf, hcase⟩ := stepBody_elim h
    rcases hcase with ⟨cap, hpc, hcap, hlt, rfl⟩ | ⟨hpc, hcap, rfl⟩ |
      ⟨mc, cap, hpc, hmc, hsem2, hlt, rfl⟩ | ⟨hpc, hmc, rfl⟩ | ⟨hpc, rfl⟩ | ⟨hpc, rfl⟩ |
      ⟨hpc, rfl⟩ | ⟨hpc, rfl⟩ | ⟨q, w, hpc, hq, hw, rfl⟩ | ⟨q, hpc, hq, hw, rfl⟩ |
      ⟨hpc, hq, rfl⟩ | ⟨hpc, rfl⟩ | ⟨hpc, rfl⟩ | ⟨hpc, rfl⟩ <;> exact hsem
  | clean id =>
    obtain ⟨cp, hf, hcase⟩ := stepClean_elim h
    rcases hcase with ⟨hpc, rfl⟩ | ⟨cl, hpc, hcl, hnot, rfl⟩ <;> exact hsem
  | cancel tid =>
    rcases cancel_elim h with rfl | rfl <;> exact hsem

theorem typeSems_run {s : Sys} {as : List Action} {s2 : Sys} {tn : String} {n : Nat}
    (hsem : lookupA s.typeSems tn = some n) (h : runOpt s as = some s2) :
    lookupA s2.typeSems tn = some n := by
  induction as generalizing s with
  | nil =>
    simp [runOpt] at h
    rw [← h]
    exact hsem
  | cons a rest ih =>
    simp only [runOpt] at h
    split at h
    · rename_i s3 hstep
      exact ih (typeSems_step hsem hstep) h
    · cases h

/-! The global permit pool configuration never changes after
construction. -/

theorem globalCap_step {s : Sys} {a : Action} {s2 : Sys} (h : stepA s a = some s2) :
    s2.globalCap = s.globalCap := by
  cases a with
  | sub id =>
    obtain ⟨p, hf, hcase⟩ := stepSub_elim h
    rcases hcase with ⟨hpc, hgate, hq, rfl⟩ | ⟨hpc, hgate, hq, rfl⟩ | ⟨hpc, hgate, rfl⟩ |
      ⟨hpc, rfl⟩ | ⟨hpc, hwp, rfl⟩ | ⟨hpc, hconf, rfl⟩ | ⟨hpc, hconf, rfl⟩ | ⟨hpc, rfl⟩ |
      ⟨limit, hpc, hmc, rfl⟩ | ⟨hpc, rfl⟩ | ⟨hpc, rfl⟩ <;> rfl
  | body id =>
    obtain ⟨b, hf, hcase⟩ := stepBody_elim h
    rcases hcase with ⟨cap, hpc, hcap, hlt, rfl⟩ | ⟨hpc, hcap, rfl⟩ |
      ⟨mc, cap, hpc, hmc, hsem2, hlt, rfl⟩ | ⟨hpc, hmc, rfl⟩ | ⟨hpc, rfl⟩ | ⟨hpc, rfl⟩ |
      ⟨hpc, rfl⟩ | ⟨hpc, rfl⟩ | ⟨q, w, hpc, hq, hw, rfl⟩ | ⟨q, hpc, hq, hw, rfl⟩ |
      ⟨hpc, hq, rfl⟩ | ⟨hpc, rfl⟩ | ⟨hpc, rfl⟩ | ⟨hpc, rfl⟩ <;> rfl
  | clean id =>
    obtain ⟨cp, hf, hcase⟩ := stepClean_elim h
    rcases hcase with ⟨hpc, rfl⟩ | ⟨cl, hpc, hcl, hnot, rfl⟩ <;> rfl
  | cancel tid =>
    rcases cancel_elim h with rfl | rfl <;> rfl

theorem globalCap_run {s : Sys} {as : List Action} {s2 : Sys}
    (h : runOpt s as = some s2) : s2.globalCap = s.globalCap := by
  induction as generalizing s with
  | nil =>
    simp [runOpt] at h
    rw [← h]
  | cons a rest ih =>
    simp only [runOpt] at h
    split at h
    · rename_i s3 hstep
      exact (ih h).trans (globalCap_step hstep)
    · cases h

/-! A manager-registry entry whose completion signal fired before its
cleanup observer registered can never be removed: notify_waiters stores
no permit, so the observer waits forever and the filter that removes
the entry never runs. -/

/-- A permanently stuck registry entry: the identity is tracked, its
completion cell was never marked notified, and both its body and its
submit call have terminated, so no future step can mark it. -/
def leakStuck (s : Sys) (tid : Nat) : Prop :=
  s.tasks.contains tid = true ∧
  (∀ cl, lookupA s.cells tid = some cl → cl.compNotified = false) ∧
  (∀ b ∈ s.bodies, b.id = tid → b.pc = BodyPc.done) ∧
  (∀ p ∈ s.subs, p.id = tid → p.pc = SubPc.doneOk)

theorem leakStuck_of_decide (s : Sys) (tid : Nat)
    (h1 : s.tasks.contains tid = true)
    (h2 : (lookupA s.cells tid).all (fun cl => !cl.compNotified) = true)
    (h3 : s.bodies.all (fun b => !(b.id == tid) || (b.pc == BodyPc.done)) = true)
    (h4 : s.subs.all (fun p => !(p.id == tid) || (p.pc == SubPc.doneOk)) = true) :
    leakStuck s tid := by
  refine ⟨h1, ?_, ?_, ?_⟩
  · intro cl hcl
    rw [hcl] at h2
    simpa using h2
  · intro b hb hbid
    have := List.all_eq_true.mp h3 b hb
    simpa [hbid] using this
  · intro p hp hpid
    have := List.all_eq_true.mp h4 p hp
    simpa [hpid] using this

theorem leakStuck_step {s : Sys} {tid : Nat} {a : Action} {s2 : Sys}
    (hQ : leakStuck s tid) (h : stepA s a = some s2) : leakStuck s2 tid := by
  obtain ⟨hT, hC, hB, hS⟩ := hQ
  cases a with
  | sub id =>
    obtain ⟨p, hf, hcase⟩ := stepSub_elim h
    obtain ⟨hpm, hpid⟩ := findSub_mem hf
    by_cases hid : id = tid
    · subst hid
      have hdone := hS p hpm hpid
      rcases hcase with ⟨hpc, hgate, hq, rfl⟩ | ⟨hpc, hgate, hq, rfl⟩ | ⟨hpc, hgate, rfl⟩ |
        ⟨hpc, rfl⟩ | ⟨hpc, hwp, rfl⟩ | ⟨hpc, hconf, rfl⟩ | ⟨hpc, hconf, rfl⟩ | ⟨hpc, rfl⟩ |
        ⟨limit, hpc, hmc, rfl⟩ | ⟨hpc, rfl⟩ | ⟨hpc, rfl⟩ <;>
        rw [hdone] at hpc <;> cases hpc
    · have hsubs : ∀ p2 ∈ updSub s.subs id (fun q => q), True := fun _ _ => trivial
      clear hsubs
      rcases hcase with ⟨hpc, hgate, hq, rfl⟩ | ⟨hpc, hgate, hq, rfl⟩ | ⟨hpc, hgate, rfl⟩ |
        ⟨hpc, rfl⟩ | ⟨hpc, hwp, rfl⟩ | ⟨hpc, hconf, rfl⟩ | ⟨hpc, hconf, rfl⟩ | ⟨hpc, rfl⟩ |
        ⟨limit, hpc, hmc, rfl⟩ | ⟨hpc, rfl⟩ | ⟨hpc, rfl⟩
      · exact ⟨hT, hC, hB, fun p2 hp2 hpid2 => by
          rcases mem_updP_elim hp2 with ⟨hm, _⟩ | ⟨y, hy, hyid, rfl⟩
          · exact hS p2 hm hpid2
          · exact absurd ((hyid.symm.trans hpid2).symm) (Ne.symm hid)⟩
      · exact ⟨hT, hC, hB, fun p2 hp2 hpid2 => by
          rcases mem_updP_elim hp2 with ⟨hm, _⟩ | ⟨y, hy, hyid, rfl⟩
          · exact hS p2 hm hpid2
          · exact absurd ((hyid.symm.trans hpid2).symm) (Ne.symm hid)⟩
      · exact ⟨hT, hC, hB, fun p2 hp2 hpid2 => by
          rcases mem_updP_elim hp2 with ⟨hm, _⟩ | ⟨y, hy, hyid, rfl⟩
          · exact hS p2 hm hpid2
          · exact absurd ((hyid.symm.trans hpid2).symm) (Ne.symm hid)⟩
      · exact ⟨hT, hC, hB, fun p2 hp2 hpid2 => by
          rcases mem_updP_elim hp2 with ⟨hm, _⟩ | ⟨y, hy, hyid, rfl⟩
          · exact hS p2 hm hpid2
          · exact absurd ((hyid.symm.trans hpid2).symm) (Ne.symm hid)⟩
      · exact ⟨hT, hC, hB, fun p2 hp2 hpid2 => by
          rcases mem_updP_elim hp2 with ⟨hm, _⟩ | ⟨y, hy, hyid, rfl⟩
          · exact hS p2 hm hpid2
          · exact absurd ((hyid.symm.trans hpid2).symm) (Ne.symm hid)⟩
      · exact ⟨hT, hC, hB, fun p2 hp2 hpid2 => by
          rcases mem_updP_elim hp2 with ⟨hm, _⟩ | ⟨y, hy, hyid, rfl⟩
          · exact hS p2 hm hpid2
          · exact absurd ((hyid.symm.trans hpid2).symm) (Ne.symm hid)⟩
      · refine ⟨hT, ?_, hB, fun p2 hp2 hpid2 => by
          rcases mem_updP_elim hp2 with ⟨hm, _⟩ | ⟨y, hy, hyid, rfl⟩
          · exact hS p2 hm hpid2
          · exact absurd ((hyid.symm.trans hpid2).symm) (Ne.symm hid)⟩
        intro cl hcl
        rw [show lookupA (insertA s.cells id
            ⟨p.c, TaskState.pending, false, true, false, false⟩) tid =
            lookupA s.cells tid from by
          rw [lookupA_insertA, if_neg (fun hh => hid hh.symm)]] at hcl
        exact hC cl hcl
      · exact ⟨hT, hC, hB, fun p2 hp2 hpid2 => by
          rcases mem_updP_elim hp2 with ⟨hm, _⟩ | ⟨y, hy, hyid, rfl⟩
          · exact hS p2 hm hpid2
          · exact absurd ((hyid.symm.trans hpid2).symm) (Ne.symm hid)⟩
      · exact ⟨hT, hC, hB, fun p2 hp2 hpid2 => by
          rcases mem_updP_elim hp2 with ⟨hm, _⟩ | ⟨y, hy, hyid, rfl⟩
          · exact hS p2 hm hpid2
          · exact absurd ((hyid.symm.trans hpid2).symm) (Ne.symm hid)⟩
      · refine ⟨hT, hC, ?_, fun p2 hp2 hpid2 => by
          rcases mem_updP_elim hp2 with ⟨hm, _⟩ | ⟨y, hy, hyid, rfl⟩
          · exact hS p2 hm hpid2
          · exact absurd ((hyid.symm.trans hpid2).symm) (Ne.symm hid)⟩
        intro b hb hbid
        rcases List.mem_append.mp hb with hb2 | hb2
        · exact hB b hb2 hbid
        · simp at hb2
          rw [hb2] at hbid
          exact absurd hbid hid
      · refine ⟨?_, hC, hB, fun p2 hp2 hpid2 => by
          rcases mem_updP_elim hp2 with ⟨hm, _⟩ | ⟨y, hy, hyid, rfl⟩
          · exact hS p2 hm hpid2
          · exact absurd ((hyid.symm.trans hpid2).symm) (Ne.symm hid)⟩
        have hmem : tid ∈ s.tasks := by simpa using hT
        have hmem2 : tid ∈ s.tasks ++ [id] := List.mem_append.mpr (Or.inl hmem)
        simpa using hmem2
  | body id =>
    obtain ⟨b, hf, hcase⟩ := stepBody_elim h
    obtain ⟨hbm, hbid⟩ := findBody_mem hf
    by_cases hid : id = tid
    · subst hid
      have hdone := hB b hbm hbid
      rcases hcase with ⟨cap, hpc, hcap, hlt, rfl⟩ | ⟨hpc, hcap, rfl⟩ |
        ⟨mc, cap, hpc, hmc, hsem2, hlt, rfl⟩ | ⟨hpc, hmc, rfl⟩ | ⟨hpc, rfl⟩ | ⟨hpc, rfl⟩ |
        ⟨hpc, rfl⟩ | ⟨hpc, rfl⟩ | ⟨q, w, hpc, hq, hw, rfl⟩ | ⟨q, hpc, hq, hw, rfl⟩ |
        ⟨hpc, hq, rfl⟩ | ⟨hpc, rfl⟩ | ⟨hpc, rfl⟩ | ⟨hpc, rfl⟩ <;>
        rw [hdone] at hpc <;> cases hpc
    · have hBkeep : ∀ b2 ∈ updBody s.bodies id (fun q => { q with pc := BodyPc.done }),
          b2.id = tid → b2.pc = BodyPc.done := fun b2 hb2 hbid2 => by
        rcases mem_updP_elim hb2 with ⟨hm, _⟩ | ⟨y, hy, hyid, rfl⟩
        · exact hB b2 hm hbid2
        · rfl
      clear hBkeep
      have hClk : ∀ (f : Cells → Cells),
          ∀ cl, lookupA (updV s.cells id f) tid = some cl → cl.compNotified = false := by
        intro f cl hcl
        rw [lookupA_updV, if_neg (fun hh => hid hh.symm)] at hcl
        exact hC cl hcl
      rcases hcase with ⟨cap, hpc, hcap, hlt, rfl⟩ | ⟨hpc, hcap, rfl⟩ |
        ⟨mc, cap, hpc, hmc, hsem2, hlt, rfl⟩ | ⟨hpc, hmc, rfl⟩ | ⟨hpc, rfl⟩ | ⟨hpc, rfl⟩ |
        ⟨hpc, rfl⟩ | ⟨hpc, rfl⟩ | ⟨q, w, hpc, hq, hw, rfl⟩ | ⟨q, hpc, hq, hw, rfl⟩ |
        ⟨hpc, hq, rfl⟩ | ⟨hpc, rfl⟩ | ⟨hpc, rfl⟩ | ⟨hpc, rfl⟩
      · exact ⟨hT, hC, fun b2 hb2 hbid2 => by
          rcases mem_updP_elim hb2 with ⟨hm, _⟩ | ⟨y, hy, hyid, rfl⟩
          · exact hB b2 hm hbid2
          · exact absurd ((hyid.symm.trans hbid2).symm) (Ne.symm hid), hS⟩
      · exact ⟨hT, hC, fun b2 hb2 hbid2 => by
          rcases mem_updP_elim hb2 with ⟨hm, _⟩ | ⟨y, hy, hyid, rfl⟩
          · exact hB b2 hm hbid2
          · exact absurd ((hyid.symm.trans hbid2).symm) (Ne.symm hid), hS⟩
      · exact ⟨hT, hC, fun b2 hb2 hbid2 => by
          rcases mem_updP_elim hb2 with ⟨hm, _⟩ | ⟨y, hy, hyid, rfl⟩
          · exact hB b2 hm hbid2
          · exact absurd ((hyid.symm.trans hbid2).symm) (Ne.symm hid), hS⟩
      · exact ⟨hT, hC, fun b2 hb2 hbid2 => by
          rcases mem_updP_elim hb2 with ⟨hm, _⟩ | ⟨y, hy, hyid, rfl⟩
          · exact hB b2 hm hbid2
          · exact absurd ((hyid.symm.trans hbid2).symm) (Ne.symm hid), hS⟩
      · exact ⟨hT, hClk (fun cl => { cl with tstate := TaskState.running }),
          fun b2 hb2 hbid2 => by
          rcases mem_updP_elim hb2 with ⟨hm, _⟩ | ⟨y, hy, hyid, rfl⟩
          · exact hB b2 hm hbid2
          · exact absurd ((hyid.symm.trans hbid2).symm) (Ne.symm hid), hS⟩
      · exact ⟨hT, hC, fun b2 hb2 hbid2 => by
          rcases mem_updP_elim hb2 with ⟨hm, _⟩ | ⟨y, hy, hyid, rfl⟩
          · exact hB b2 hm hbid2
          · exact absurd ((hyid.symm.trans hbid2).symm) (Ne.symm hid), hS⟩
      · exact ⟨hT, hC, fun b2 hb2 hbid2 => by
          rcases mem_updP_elim hb2 with ⟨hm, _⟩ | ⟨y, hy, hyid, rfl⟩
          · exact hB b2 hm hbid2
          · exact absurd ((hyid.symm.trans hbid2).symm) (Ne.symm hid), hS⟩
      · exact ⟨hT, hC, fun b2 hb2 hbid2 => by
          rcases mem_updP_elim hb2 with ⟨hm, _⟩ | ⟨y, hy, hyid, rfl⟩
          · exact hB b2 hm hbid2
          · exact absurd ((hyid.symm.trans hbid2).symm) (Ne.symm hid), hS⟩
      · exact ⟨hT, hC, fun b2 hb2 hbid2 => by
          rcases mem_updP_elim hb2 with ⟨hm, _⟩ | ⟨y, hy, hyid, rfl⟩
          · exact hB b2 hm hbid2
          · exact absurd ((hyid.symm.trans hbid2).symm) (Ne.symm hid),
          fun p2 hp2 hpid2 => by
          rcases mem_updP_elim hp2 with ⟨hm, _⟩ | ⟨y, hy, hyid, rfl⟩
          · exact hS p2 hm hpid2
          · exact hS y hy hpid2⟩
      · exact ⟨hT, hC, fun b2 hb2 hbid2 => by
          rcases mem_updP_elim hb2 with ⟨hm, _⟩ | ⟨y, hy, hyid, rfl⟩
          · exact hB b2 hm hbid2
          · exact absurd ((hyid.symm.trans hbid2).symm) (Ne.symm hid), hS⟩
      · exact ⟨hT, hC, fun b2 hb2 hbid2 => by
          rcases mem_updP_elim hb2 with ⟨hm, _⟩ | ⟨y, hy, hyid, rfl⟩
          · exact hB b2 hm hbid2
          · exact absurd ((hyid.symm.trans hbid2).symm) (Ne.symm hid), hS⟩
      · exact ⟨hT, hClk (fun cl =>
          { cl with tstate := if b.c.succeeds then TaskState.completed
                              else TaskState.failed }), fun b2 hb2 hbid2 => by
          rcases mem_updP_elim hb2 with ⟨hm, _⟩ | ⟨y, hy, hyid, rfl⟩
          · exact hB b2 hm hbid2
          · exact absurd ((hyid.symm.trans hbid2).symm) (Ne.symm hid), hS⟩
      · exact ⟨hT, hClk (fun cl =>
          if cl.compRegistered then { cl with compNotified := true } else cl),
          fun b2 hb2 hbid2 => by
          rcases mem_updP_elim hb2 with ⟨hm, _⟩ | ⟨y, hy, hyid, rfl⟩
          · exact hB b2 hm hbid2
          · exact absurd ((hyid.symm.trans hbid2).symm) (Ne.symm hid), hS⟩
      · exact ⟨hT, hClk (fun cl => { cl with rxAlive := false }),
          fun b2 hb2 hbid2 => by
          rcases mem_updP_elim hb2 with ⟨hm, _⟩ | ⟨y, hy, hyid, rfl⟩
          · exact hB b2 hm hbid2
          · exact absurd ((hyid.symm.trans hbid2).symm) (Ne.symm hid), hS⟩
  | clean id =>
    obtain ⟨cp, hf, hcase⟩ := stepClean_elim h
    rcases hcase with ⟨hpc, rfl⟩ | ⟨cl, hpc, hcl, hnot, rfl⟩
    · refine ⟨hT, ?_, hB, hS⟩
      intro cl hcl
      rw [lookupA_updV] at hcl
      by_cases hk : tid = id
      · rw [if_pos hk, ← hk] at hcl
        cases hlk : lookupA s.cells tid with
        | none => rw [hlk] at hcl; cases hcl
        | some cl0 =>
          rw [hlk] at hcl
          have : cl = { cl0 with compRegistered := true } := (Option.some.inj hcl).symm
          rw [this]
          exact hC cl0 hlk
      · rw [if_neg hk] at hcl
        exact hC cl hcl
    · by_cases hk : id = tid
      · subst hk
        rw [hC cl hcl] at hnot
        cases hnot
      · refine ⟨?_, hC, hB, hS⟩
        show (s.tasks.filter (fun t => t ≠ id)).contains tid = true
        have hmem : tid ∈ s.tasks := by simpa using hT
        have : tid ∈ s.tasks.filter (fun t => t ≠ id) :=
          List.mem_filter.mpr ⟨hmem, by simpa using fun hh => hk hh.symm⟩
        simpa using this
  | cancel tid2 =>
    rcases cancel_elim h with rfl | rfl
    · exact ⟨hT, hC, hB, hS⟩
    · refine ⟨hT, ?_, hB, hS⟩
      intro cl hcl
      rw [lookupA_updV] at hcl
      by_cases hk : tid = tid2
      · rw [if_pos hk, ← hk] at hcl
        cases hlk : lookupA s.cells tid with
        | none => rw [hlk] at hcl; cases hcl
        | some cl0 =>
          rw [hlk] at hcl
          have : cl = { cl0 with cancelFlag := true } := (Option.some.inj hcl).symm
          rw [this]
          exact hC cl0 hlk
      · rw [if_neg hk] at hcl
        exact hC cl hcl

theorem leakStuck_run {s : Sys} {tid : Nat} {as : List Action} {s2 : Sys}
    (hQ : leakStuck s tid) (h : runOpt s as = some s2) : leakStuck s2 tid := by
  induction as generalizing s with
  | nil =>
    simp [runOpt] at h
    rw [← h]
    exact hQ
  | cons a rest ih =>
    simp only [runOpt] at h
    split at h
    · rename_i s3 hstep
      exact ih (leakStuck_step hQ hstep) h
    · cases h

/-! Helpers for the synchronous-failure properties: a pc-update of the
found submit call is found again, and a finished call never steps. -/

theorem find_id_updP {l : List SubProc} {id : Nat} {p : SubProc} {f : SubProc → SubProc}
    (hf : l.find? (fun q => q.id = id) = some p) (hid : ∀ x, (f x).id = x.id) :
    (updP SubProc.id l id f).find? (fun q => q.id = id) = some (f p) := by
  induction l with
  | nil => simp at hf
  | cons x rest ih =>
    show (((if x.id = id then f x else x)) ::
        updP SubProc.id rest id f).find? (fun q => q.id = id) = some (f p)
    by_cases hx : x.id = id
    · rw [List.find?_cons_of_pos _ (by simp [if_pos hx, hid x, hx])]
      rw [List.find?_cons_of_pos _ (by simp [hx])] at hf
      cases hf
      rw [if_pos hx]
    · rw [List.find?_cons_of_neg _ (by simp [if_neg hx, hx])]
      rw [List.find?_cons_of_neg _ (by simp [hx])] at hf
      exact ih hf

theorem findSub_updSub {s : Sys} {s2 : Sys} {id : Nat} {p : SubProc}
    {f : SubProc → SubProc}
    (hf : findSub s id = some p) (hsubs : s2.subs = updSub s.subs id f)
    (hid : ∀ x, (f x).id = x.id) :
    findSub s2 id = some (f p) := by
  unfold findSub at hf ⊢
  rw [hsubs]
  exact find_id_updP hf hid

theorem stepSub_none_of_finished {s : Sys} {id : Nat} {p : SubProc}
    (hf : findSub s id = some p)
    (hpc : p.pc = SubPc.doneOk ∨ ∃ e, p.pc = SubPc.doneErr e) :
    stepSub s id = none := by
  unfold stepSub
  split
  · rfl
  · rename_i p2 hf2
    rw [hf2] at hf
    have hp2 : p2 = p := Option.some.inj hf
    subst hp2
    rcases hpc with h1 | ⟨e, h1⟩ <;> rw [h1]

/-! Concrete workloads exercising the stated properties. -/

/-- Run a trace from a state, staying put if the trace is not
enabled. -/
def runTo (s0 : Sys) (as : List Action) : Sys := (runOpt s0 as).getD s0

/-- A queueable global-lock contract (the TOCTOU and wake scenarios). -/
def cGlobal : Contract := ⟨"g", true, none, true, [], true⟩

/-- A non-queueable global-lock contract (the fail-fast scenario). -/
def cNoQueue : Contract := ⟨"g", false, none, true, [], true⟩

/-- A plain contract with no gates (the manager scenarios). -/
def cPlain : Contract := ⟨"d", true, none, false, [], true⟩

/-- A contract declaring max_concurrent = 3. -/
def cMax3 : Contract := ⟨"e", true, some 3, false, [], true⟩

/-- A later contract of the same type declaring max_concurrent = 7. -/
def cMax7 : Contract := ⟨"e", true, some 7, false, [], true⟩

/-- A contract holding resource lock k1. -/
def cLockK : Contract := ⟨"l", true, none, false, ["k1"], true⟩

/-- Interleaving in which both global-lock submissions pass the
running-registry read check before either one inserts its entry. -/
def trTwoStart : List Action :=
  [Action.sub 0, Action.sub 1, Action.sub 0, Action.sub 0, Action.sub 0,
   Action.sub 1, Action.sub 1, Action.sub 1, Action.body 0, Action.body 0,
   Action.body 0, Action.body 1, Action.body 1, Action.body 1]

/-- Interleaving leaving body 0 at its wake section with submission 1
suspended in the wait queue of type g. -/
def trWakeSetup : List Action :=
  [Action.sub 0, Action.sub 0, Action.sub 0, Action.sub 0, Action.sub 1,
   Action.sub 1, Action.body 0, Action.body 0, Action.body 0, Action.body 0,
   Action.body 0, Action.body 0]

/-- Interleaving in which the body finishes and fires its completion
signal before the cleanup observer registers. -/
def trLostWake : List Action :=
  [Action.sub 0, Action.sub 0, Action.sub 0, Action.sub 0,
   Action.body 0, Action.body 0, Action.body 0, Action.body 0, Action.body 0,
   Action.body 0, Action.body 0, Action.body 0, Action.clean 0]

/-- Interleaving in which the task runs to completion (dropping its
cancellation receiver) while its registry entry is still present. -/
def trRxDropped : List Action :=
  [Action.sub 0, Action.sub 0, Action.sub 0, Action.sub 0, Action.clean 0,
   Action.body 0, Action.body 0, Action.body 0, Action.body 0, Action.body 0,
   Action.body 0, Action.body 0, Action.body 0]

/-- First declarer of type e creates its pool. -/
def trPoolMake : List Action := [Action.sub 0, Action.sub 0, Action.sub 0]

/-- A later declarer of type e with a different ceiling runs to
completion of its admission. -/
def trPoolReuse : List Action := [Action.sub 1, Action.sub 1, Action.sub 1, Action.sub 1]

/-- A single manager submission runs its admission to completion. -/
def trAdmit : List Action := [Action.sub 0, Action.sub 0, Action.sub 0, Action.sub 0]

/-! The ten stated properties. -/

/-- Claim C1: for every task type whose contracts declare
requires_global_lock = true, at no instant are two tasks of that type
simultaneously in Running state.  REFUTED: the running-registry read
check (executor.rs lines 41-62) and the insertion (line 84) are
separate critical sections with suspension points between them, so two
submissions of the same type can both pass the check before either
inserts, and both spawned bodies then hold Running simultaneously. -/
theorem C1_global_exclusion_violated :
    ∃ s : Sys,
      Reachable (initSys (some 5) [(cGlobal, false), (cGlobal, false)]) s ∧
      cGlobal.requiresGlobalLock = true ∧
      countRunningOfType s cGlobal.tname = 2 :=
  ⟨runTo (initSys (some 5) [(cGlobal, false), (cGlobal, false)]) trTwoStart,
    ⟨trTwoStart, by decide⟩, rfl, by decide⟩

/-- Claim C8: after every task's completion signal fires, the manager
removes its registry entry, so no entry remains permanently.  REFUTED:
notify_waiters (executor.rs line 140) wakes only waiters registered at
that moment and stores no permit, so when the body finishes before the
cleanup observer (manager.rs lines 57-60) registers, the observer waits
forever and the entry for the completed task stays in the registry in
every possible continuation. -/
theorem C8_registry_entry_leaks :
    ∃ s : Sys,
      Reachable (managerInit [cPlain]) s ∧
      tstateOf s 0 = some TaskState.completed ∧
      ∀ as s3, runOpt s as = some s3 → s3.tasks.contains 0 = true := by
  refine ⟨runTo (managerInit [cPlain]) trLostWake, ⟨trLostWake, by decide⟩,
    by decide, ?_⟩
  intro as s3 h3
  exact (leakStuck_run (leakStuck_of_decide _ 0 (by decide) (by decide) (by decide)
    (by decide)) h3).1

/-- Claim C9: the type-scoped permit pool is created lazily by the
first submitted contract of the type that declares max_concurrent, is
sized to that first ceiling, and is reused unchanged by every later
task of the type — a later different declaration does not resize it.
CONFIRMED: the type-semaphore section inserts only when no pool exists
(executor.rs lines 91-99), and no step ever modifies an existing
entry. -/
theorem C9_pool_lazy_fixed (s : Sys) :
    (∀ id p limit s2, findSub s id = some p → p.pc = SubPc.typeSem →
       p.c.maxConcurrent = some limit → stepSub s id = some s2 →
       s2.typeSems =
         (if (lookupA s.typeSems p.c.tname).isSome then s.typeSems
          else insertA s.typeSems p.c.tname limit)) ∧
    (∀ tn n as s3, lookupA s.typeSems tn = some n → runOpt s as = some s3 →
       lookupA s3.typeSems tn = some n) := by
  constructor
  · intro id p limit s2 hf hpc hmc hstep
    obtain ⟨p', hf', hcase⟩ := stepSub_elim hstep
    rw [hf] at hf'
    have hpp : p = p' := Option.some.inj hf'
    subst hpp
    rcases hcase with ⟨hpc2, hgate, hq, rfl⟩ | ⟨hpc2, hgate, hq, rfl⟩ | ⟨hpc2, hgate, rfl⟩ |
      ⟨hpc2, rfl⟩ | ⟨hpc2, hwp, rfl⟩ | ⟨hpc2, hconf, rfl⟩ | ⟨hpc2, hconf, rfl⟩ | ⟨hpc2, rfl⟩ |
      ⟨limit2, hpc2, hmc2, rfl⟩ | ⟨hpc2, rfl⟩ | ⟨hpc2, rfl⟩
    · rw [hpc] at hpc2; cases hpc2
    · rw [hpc] at hpc2; cases hpc2
    · rw [hpc] at hpc2; cases hpc2
    · rw [hpc] at hpc2; cases hpc2
    · rw [hpc] at hpc2; cases hpc2
    · rw [hpc] at hpc2; cases hpc2
    · rw [hpc] at hpc2; cases hpc2
    · rw [hpc] at hpc2; cases hpc2
    · have hl : limit = limit2 := Option.some.inj (hmc.symm.trans hmc2)
      subst hl
      rfl
    · rw [hpc] at hpc2; cases hpc2
    · rw [hpc] at hpc2; cases hpc2
  · intro tn n as s3 hsem h3
    exact typeSems_run hsem h3

/-- Witness for C9: the first declarer of type e fixes the pool at 3,
and a later declarer of the same type with ceiling 7 leaves it at 3. -/
theorem C9_witness :
    lookupA (runTo (runTo (initSys none [(cMax3, false), (cMax7, false)]) trPoolMake)
      trPoolReuse).typeSems "e" = some 3 :=
  (C9_pool_lazy_fixed (runTo (initSys none [(cMax3, false), (cMax7, false)])
      trPoolMake)).2
    "e" 3 trPoolReuse _ (by decide) (by decide)

/-- Claim C10: every TaskManager::new configures its executor with a
global pool of exactly 5 permits (manager.rs line 26), so at no instant
are more than 5 task bodies inside the globally-permitted execution
window.  CONFIRMED: the capacity is never changed and the permit count
never exceeds it. -/
theorem C10_manager_global_cap {cs : List Contract} {s : Sys}
    (h : Reachable (managerInit cs) s) :
    s.globalCap = some 5 ∧ countInGlobalPhase s ≤ 5 := by
  obtain ⟨as, hrun⟩ := h
  have hcap : s.globalCap = some 5 := by
    rw [globalCap_run hrun]
    rfl
  exact ⟨hcap, (@inv_reachable (some 5) (cs.map (fun c => (c, true))) s
    ⟨as, hrun⟩).globalBound 5 hcap⟩

/-- Witness for C10 at a concrete manager workload. -/
theorem C10_witness :
    (runTo (managerInit [cPlain]) trAdmit).globalCap = some 5 ∧
    countInGlobalPhase (runTo (managerInit [cPlain]) trAdmit) ≤ 5 :=
  @C10_manager_global_cap [cPlain] (runTo (managerInit [cPlain]) trAdmit)
    ⟨trAdmit, by decide⟩

/-- Claim C3: submitting a non-queueable global-lock contract while a
task of the same type tag is recorded running fails immediately and
synchronously with a LockConflict error naming the type: no state cell
or handle is created, no body is spawned, no executor registry is
modified, and the call never steps again.  CONFIRMED from the read
section at executor.rs lines 41-49 (task identities are modelled as
pre-assigned: Uuid::new_v4 at line 38 draws a fresh identity before the
check, which the model externalises as the parameter id). -/
theorem C3_nonqueueable_fails_fast {s : Sys} {id : Nat} {p : SubProc}
    (hf : findSub s id = some p) (hpc : p.pc = SubPc.start)
    (hrgl : p.c.requiresGlobalLock = true)
    (hrun : (lookupA s.running p.c.tname).isSome = true)
    (hq : p.c.queueable = false) :
    ∃ s2, stepSub s id = some s2 ∧
      (findSub s2 id).map SubProc.pc =
        some (SubPc.doneErr (TaskError.lockConflict (p.c.tname ++ " already running"))) ∧
      s2.bodies = s.bodies ∧ s2.cells = s.cells ∧ s2.running = s.running ∧
      s2.queues = s.queues ∧ s2.typeSems = s.typeSems ∧ s2.lockHeld = s.lockHeld ∧
      s2.tasks = s.tasks ∧ stepSub s2 id = none := by
  have hstep : stepSub s id = some { s with subs := updSub s.subs id (fun q =>
      { q with pc := SubPc.doneErr (TaskError.lockConflict
        (p.c.tname ++ " already running")) }) } := by
    unfold stepSub
    split
    · rename_i hf2
      rw [hf2] at hf
      cases hf
    · rename_i p2 hf2
      rw [hf2] at hf
      have hpp : p2 = p := Option.some.inj hf
      subst hpp
      rw [hpc]
      simp [hrgl, hrun, hq]
  have hfind : findSub { s with subs := updSub s.subs id (fun q =>
      { q with pc := SubPc.doneErr (TaskError.lockConflict
        (p.c.tname ++ " already running")) }) } id =
      some { p with pc := SubPc.doneErr (TaskError.lockConflict
        (p.c.tname ++ " already running")) } :=
    findSub_updSub (f := fun q => { q with pc := SubPc.doneErr (TaskError.lockConflict
      (p.c.tname ++ " already running")) }) hf rfl (fun x => rfl)
  refine ⟨_, hstep, ?_, rfl, rfl, rfl, rfl, rfl, rfl, rfl, ?_⟩
  · rw [hfind]
    rfl
  · exact stepSub_none_of_finished hfind (Or.inr ⟨_, rfl⟩)

/-- Witness for C3: a start-state submission of a non-queueable
global-lock contract while the registry records its type as running. -/
def sXNoQueue : Sys :=
  { subs := [⟨0, cNoQueue, false, SubPc.start, false, none⟩],
    bodies := [], cleans := [], cells := [], running := [("g", 7)], queues := [],
    typeSems := [], globalCap := none, lockHeld := [], tasks := [] }

theorem C3_witness :
    ∃ s2, stepSub sXNoQueue 0 = some s2 ∧
      (findSub s2 0).map SubProc.pc =
        some (SubPc.doneErr (TaskError.lockConflict (cNoQueue.tname ++ " already running"))) ∧
      s2.bodies = sXNoQueue.bodies ∧ s2.cells = sXNoQueue.cells ∧
      s2.running = sXNoQueue.running ∧ s2.queues = sXNoQueue.queues ∧
      s2.typeSems = sXNoQueue.typeSems ∧ s2.lockHeld = sXNoQueue.lockHeld ∧
      s2.tasks = sXNoQueue.tasks ∧ stepSub s2 0 = none :=
  C3_nonqueueable_fails_fast (p := ⟨0, cNoQueue, false, SubPc.start, false, none⟩)
    (by decide) rfl rfl (by decide) rfl

/-- Claim C5: a submission whose resource-lock batch acquisition fails
surfaces a lock-conflict error naming the contended keys and leaves no
state behind: no resource lock held, no cell or handle created, no
body spawned, never queued or retried.  CONFIRMED; modelled from the
spec: lock.rs is not in the sources, so try_acquire is embedded as the
all-or-nothing check of the spec (failure iff some declared key is held,
holding nothing on failure). -/
theorem C5_resource_conflict_surfaced {s : Sys} {id : Nat} {p : SubProc}
    (hf : findSub s id = some p) (hpc : p.pc = SubPc.acquireLocks)
    (hconf : p.c.locks.any (fun k => s.lockHeld.contains k) = true) :
    ∃ s2, stepSub s id = some s2 ∧
      (findSub s2 id).map SubProc.pc =
        some (SubPc.doneErr (TaskError.lockConflict (String.intercalate ", "
          (p.c.locks.filter (fun k => s.lockHeld.contains k))))) ∧
      s2.lockHeld = s.lockHeld ∧ s2.cells = s.cells ∧ s2.bodies = s.bodies ∧
      s2.running = s.running ∧ s2.queues = s.queues ∧ s2.typeSems = s.typeSems ∧
      s2.tasks = s.tasks ∧ stepSub s2 id = none := by
  have hstep : stepSub s id = some { s with subs := updSub s.subs id (fun q =>
      { q with pc := SubPc.doneErr (TaskError.lockConflict (String.intercalate ", "
        (p.c.locks.filter (fun k => s.lockHeld.contains k)))) }) } := by
    unfold stepSub
    split
    · rename_i hf2
      rw [hf2] at hf
      cases hf
    · rename_i p2 hf2
      rw [hf2] at hf
      have hpp : p2 = p := Option.some.inj hf
      subst hpp
      rw [hpc]
      rw [if_pos hconf]
  have hfind : findSub { s with subs := updSub s.subs id (fun q =>
      { q with pc := SubPc.doneErr (TaskError.lockConflict (String.intercalate ", "
        (p.c.locks.filter (fun k => s.lockHeld.contains k)))) }) } id =
      some { p with pc := SubPc.doneErr (TaskError.lockConflict (String.intercalate ", "
        (p.c.locks.filter (fun k => s.lockHeld.contains k)))) } :=
    findSub_updSub (f := fun q => { q with pc := SubPc.doneErr (TaskError.lockConflict
      (String.intercalate ", " (p.c.locks.filter (fun k => s.lockHeld.contains k)))) })
      hf rfl (fun x => rfl)
  refine ⟨_, hstep, ?_, rfl, rfl, rfl, rfl, rfl, rfl, rfl, ?_⟩
  · rw [hfind]
    rfl
  · exact stepSub_none_of_finished hfind (Or.inr ⟨_, rfl⟩)

/-- Witness for C5: a submission declaring resource lock k1 while k1 is
already held. -/
def sXLock : Sys :=
  { subs := [⟨0, cLockK, false, SubPc.acquireLocks, false, none⟩],
    bodies := [], cleans := [], cells := [], running := [], queues := [],
    typeSems := [], globalCap := none, lockHeld := ["k1"], tasks := [] }

theorem C5_witness :
    ∃ s2, stepSub sXLock 0 = some s2 ∧
      (findSub s2 0).map SubProc.pc =
        some (SubPc.doneErr (TaskError.lockConflict (String.intercalate ", "
          (cLockK.locks.filter (fun k => sXLock.lockHeld.contains k))))) ∧
      s2.lockHeld = sXLock.lockHeld ∧ s2.cells = sXLock.cells ∧
      s2.bodies = sXLock.bodies ∧ s2.running = sXLock.running ∧
      s2.queues = sXLock.queues ∧ s2.typeSems = sXLock.typeSems ∧
      s2.tasks = sXLock.tasks ∧ stepSub s2 0 = none :=
  C5_resource_conflict_surfaced (p := ⟨0, cLockK, false, SubPc.acquireLocks, false, none⟩)
    (by decide) rfl (by decide)

/-- Claim C2: a completing global-lock task removes its Running
Registry entry before its wake section runs, and the wake section wakes
exactly one waiter, the most-recently-queued one (Vec::pop, LIFO);
consequently a suspended queueable submission resumes only once the
previously-running task's registry entry is absent.  CONFIRMED from
executor.rs lines 122-132 and the reachability invariant. -/
theorem C2_wake_lifo_after_removal {gcap : Option Nat} {cs : List (Contract × Bool)}
    {s : Sys} (h : Reachable (initSys gcap cs) s) :
    (∀ b ∈ s.bodies, b.pc = BodyPc.wakeNext →
      lookupA s.running b.c.tname ≠ some b.id ∧
      ∀ q w s2, lookupA s.queues b.c.tname = some q → q.getLast? = some w →
        stepBody s b.id = some s2 →
        s2.subs = updSub s.subs w
          (fun sp => { sp with wakePermit := true, wokenBy := some b.id }) ∧
        s2.queues = updA s.queues b.c.tname q.dropLast) ∧
    (∀ p ∈ s.subs, ∀ t, p.wokenBy = some t →
      ∃ b2 ∈ s.bodies, b2.id = t ∧ b2.c.tname = p.c.tname ∧ pastRM b2.pc = true ∧
        lookupA s.running p.c.tname ≠ some t) := by
  have hInv := inv_reachable h
  constructor
  · intro b hb hpc
    refine ⟨hInv.rmAbsent b hb (hInv.wakeGlobal b hb (Or.inr hpc))
      (by rw [hpc]; rfl), ?_⟩
    intro q w s2 hq hw hstep
    obtain ⟨b2, hf, hcase⟩ := stepBody_elim hstep
    obtain ⟨hbm2, hbid2⟩ := findBody_mem hf
    have hbb : b2 = b := nodup_key_inj hInv.bodiesNodup hbm2 hb hbid2
    subst hbb
    rcases hcase with ⟨cap, hpc2, hcap, hlt, rfl⟩ | ⟨hpc2, hcap, rfl⟩ |
      ⟨mc, cap, hpc2, hmc, hsem2, hlt, rfl⟩ | ⟨hpc2, hmc, rfl⟩ | ⟨hpc2, rfl⟩ |
      ⟨hpc2, rfl⟩ | ⟨hpc2, rfl⟩ | ⟨hpc2, rfl⟩ | ⟨q0, w0, hpc2, hq0, hw0, rfl⟩ |
      ⟨q0, hpc2, hq0, hw0, rfl⟩ | ⟨hpc2, hq0, rfl⟩ | ⟨hpc2, rfl⟩ | ⟨hpc2, rfl⟩ |
      ⟨hpc2, rfl⟩
    · rw [hpc] at hpc2; cases hpc2
    · rw [hpc] at hpc2; cases hpc2
    · rw [hpc] at hpc2; cases hpc2
    · rw [hpc] at hpc2; cases hpc2
    · rw [hpc] at hpc2; cases hpc2
    · rw [hpc] at hpc2; cases hpc2
    · rw [hpc] at hpc2; cases hpc2
    · rw [hpc] at hpc2; cases hpc2
    · have hqq : q0 = q := Option.some.inj (hq0.symm.trans hq)
      subst hqq
      have hww : w0 = w := Option.some.inj (hw0.symm.trans hw)
      subst hww
      exact ⟨rfl, rfl⟩
    · have hqq : q0 = q := Option.some.inj (hq0.symm.trans hq)
      subst hqq
      rw [hw] at hw0
      cases hw0
    · rw [hq] at hq0
      cases hq0
    · rw [hpc] at hpc2; cases hpc2
    · rw [hpc] at hpc2; cases hpc2
    · rw [hpc] at hpc2; cases hpc2
  · intro p hp t hwb
    obtain ⟨b2, hb2, hbid, hrgl, htn, hpast⟩ := hInv.wokenInv p hp t hwb
    refine ⟨b2, hb2, hbid, htn, hpast, ?_⟩
    have hra := hInv.rmAbsent b2 hb2 hrgl hpast
    rw [htn, hbid] at hra
    exact hra

/-- Witness for C2: with body 0 of type g at its wake section and
submission 1 queued, the registry no longer maps g to 0, and the wake
step grants the permit exactly to submission 1. -/
theorem C2_witness :
    (lookupA (runTo (initSys (some 5) [(cGlobal, false), (cGlobal, false)])
        trWakeSetup).running "g" ≠ some 0) ∧
    ((runTo (runTo (initSys (some 5) [(cGlobal, false), (cGlobal, false)]) trWakeSetup)
        [Action.body 0]).subs =
      updSub (runTo (initSys (some 5) [(cGlobal, false), (cGlobal, false)])
        trWakeSetup).subs 1
        (fun sp => { sp with wakePermit := true, wokenBy := some 0 }) ∧
     (runTo (runTo (initSys (some 5) [(cGlobal, false), (cGlobal, false)]) trWakeSetup)
        [Action.body 0]).queues =
      updA (runTo (initSys (some 5) [(cGlobal, false), (cGlobal, false)])
        trWakeSetup).queues "g" (([1] : List Nat).dropLast)) := by
  have h2 := (@C2_wake_lifo_after_removal (some 5)
      [(cGlobal, false), (cGlobal, false)]
      (runTo (initSys (some 5) [(cGlobal, false), (cGlobal, false)]) trWakeSetup)
      ⟨trWakeSetup, by decide⟩).1 ⟨0, cGlobal, BodyPc.wakeNext⟩ (by decide) rfl
  exact ⟨h2.1, h2.2 [1] 1 _ (by decide) (by decide) (by decide)⟩

/-- Claim C6: every submitted task is created Pending, becomes Running
only once inside both permit windows, reaches exactly the terminal
state determined by its body outcome, and no step ever leaves a
terminal state.  CONFIRMED from executor.rs lines 71, 103-141 and the
reachability invariant. -/
theorem C6_state_machine {gcap : Option Nat} {cs : List (Contract × Bool)} {s : Sys}
    (h : Reachable (initSys gcap cs) s) :
    (∀ kv ∈ s.cells,
      ((∀ b ∈ s.bodies, b.id ≠ kv.1) → kv.2.tstate = TaskState.pending) ∧
      (∀ b ∈ s.bodies, b.id = kv.1 →
        (kv.2.tstate = TaskState.running →
          runPhase b.pc = true ∧ holdGlobal b.pc = true ∧ holdType b.pc = true) ∧
        (donePhase b.pc = true →
          kv.2.tstate = (if b.c.succeeds then TaskState.completed
                         else TaskState.failed)))) ∧
    (∀ t, t = TaskState.completed ∨ t = TaskState.failed →
      ∀ tid, tstateOf s tid = some t →
      ∀ as s3, runOpt s as = some s3 → tstateOf s3 tid = some t) := by
  have hInv := inv_reachable h
  constructor
  · intro kv hkv
    obtain ⟨h1, h2⟩ := hInv.cellState kv hkv
    refine ⟨h2, ?_⟩
    intro b hb hbid
    obtain ⟨hceq, hsm⟩ := h1 b hb hbid
    constructor
    · intro hrun
      have hrp : runPhase b.pc = true := by
        rcases phase_cover b.pc with h3 | h3 | h3
        · rw [hsm.1 h3] at hrun
          cases hrun
        · exact h3
        · rw [hsm.2.2 h3] at hrun
          by_cases hsucc : b.c.succeeds = true
          · rw [if_pos hsucc] at hrun
            cases hrun
          · rw [if_neg hsucc] at hrun
            cases hrun
      exact ⟨hrp, runPhase_holdGlobal hrp, runPhase_holdType hrp⟩
    · exact hsm.2.2
  · intro t ht tid hst as s3 h3
    exact terminal_run hInv (cellSub_reachable h) ht hst h3

/-- Witness for C6: the lost-wakeup workload reaches Completed, and the
state stays Completed under a further cancel step. -/
theorem C6_witness :
    tstateOf (runTo (runTo (managerInit [cPlain]) trLostWake) [Action.cancel 0]) 0 =
      some TaskState.completed :=
  (@C6_state_machine (some 5) [(cPlain, true)]
      (runTo (managerInit [cPlain]) trLostWake) ⟨trLostWake, by decide⟩).2
    TaskState.completed (Or.inl rfl) 0 (by decide) [Action.cancel 0] _ (by decide)

/-- Claim C7: for a type T whose submitted contracts homogeneously
declare max_concurrent = n, and whose permit pool holds ceiling n, at
no instant are more than n tasks of type T in Running state.
CONFIRMED from executor.rs lines 91-99 and 109-115 and the reachability
invariant (the homogeneity hypothesis reflects that n is the ceiling
fixed for T's pool: a mixed workload can fix a different first
ceiling, see C9). -/
theorem C7_max_concurrent_ceiling {gcap : Option Nat} {cs : List (Contract × Bool)}
    {s : Sys} {tn : String} {n : Nat}
    (h : Reachable (initSys gcap cs) s)
    (hhom : ∀ cv ∈ cs, cv.1.tname = tn → cv.1.maxConcurrent = some n)
    (hsem : lookupA s.typeSems tn = some n) :
    countRunningOfType s tn ≤ n := by
  have hInv := inv_reachable h
  have hle : countRunningOfType s tn ≤ typeHeldCount s tn := by
    unfold countRunningOfType typeHeldCount
    refine countP_le_of_ids Prod.fst BodyProc.id _ _ s.cells s.bodies
      hInv.cellsNodup ?_
    intro kv hkv hp
    simp only [Bool.and_eq_true, beq_iff_eq] at hp
    obtain ⟨htn, hts⟩ := hp
    obtain ⟨h1, h2⟩ := hInv.cellState kv hkv
    by_cases hex : ∀ b ∈ s.bodies, b.id ≠ kv.1
    · rw [h2 hex] at hts
      cases hts
    · push_neg at hex
      obtain ⟨b, hb, hbid⟩ := hex
      obtain ⟨hceq, hsm⟩ := h1 b hb hbid
      have hrp : runPhase b.pc = true := by
        rcases phase_cover b.pc with h3 | h3 | h3
        · rw [hsm.1 h3] at hts
          cases hts
        · exact h3
        · rw [hsm.2.2 h3] at hts
          by_cases hsucc : b.c.succeeds = true
          · rw [if_pos hsucc] at hts
            cases hts
          · rw [if_neg hsucc] at hts
            cases hts
      obtain ⟨pb, hpb, hpbid, hpceq, _⟩ := hInv.bodySub b hb
      have hbtn : b.c.tname = tn := by
        rw [hceq] at htn
        exact htn
      have hmcb : b.c.maxConcurrent = some n := by
        have hmp := hhom (pb.c, pb.viaManager) (hInv.subsC pb hpb)
          (by rw [hpceq]; exact hbtn)
        rw [hpceq] at hmp
        exact hmp
      refine ⟨b, hb, ?_, hbid⟩
      simp only [Bool.and_eq_true, beq_iff_eq]
      exact ⟨⟨hbtn, by rw [hmcb]; rfl⟩, runPhase_holdType hrp⟩
  exact le_trans hle (hInv.typeBound (tn, n) (lookupA_mem hsem))

/-- Witness for C7 at a homogeneous max_concurrent = 3 workload. -/
theorem C7_witness :
    countRunningOfType (runTo (initSys none [(cMax3, false)]) trPoolMake) "e" ≤ 3 :=
  @C7_max_concurrent_ceiling none [(cMax3, false)]
    (runTo (initSys none [(cMax3, false)]) trPoolMake) "e" 3
    ⟨trPoolMake, by decide⟩ (by decide) (by decide)

/-- Claim C4 (amended): cancel(task_id) fails with InvalidState iff the
identity is not currently tracked in the manager's registry OR every
receiver of its cancellation watch channel has been dropped
(watch::Sender::send fails in that case too, manager.rs lines 37-43);
on success the trigger is a level signal — it is raised, stays raised
forever, and the Cancellation Context reports is_cancelled = true. -/
theorem C4_cancel_amended {cs : List Contract} {s : Sys}
    (h : Reachable (managerInit cs) s) (tid : Nat) :
    (cancelTask s tid = Except.error TaskError.invalidState ↔
      (s.tasks.contains tid = false ∨
       ∃ cl, lookupA s.cells tid = some cl ∧ cl.rxAlive = false)) ∧
    (∀ s2, cancelTask s tid = Except.ok s2 →
      isCancelledCtx s2 tid = true ∧
      ∀ as s3, runOpt s2 as = some s3 → isCancelledCtx s3 tid = true) := by
  have hInv := @inv_reachable (some 5) (cs.map (fun c => (c, true))) s h
  have hcsb := @cellSub_reachable (some 5) (cs.map (fun c => (c, true))) s h
  constructor
  · constructor
    · intro hfail
      unfold cancelTask at hfail
      split at hfail
      · rename_i ht
        split at hfail
        · rename_i cl hcl
          split at hfail
          · exact Except.noConfusion hfail
          · rename_i hrx
            right
            exact ⟨cl, hcl, by simpa using hrx⟩
        · rename_i hcl
          have hmem : tid ∈ s.tasks := by simpa using ht
          obtain ⟨cl, hcl2⟩ := hInv.taskCell tid hmem
          rw [hcl] at hcl2
          cases hcl2
      · rename_i ht
        left
        simpa using ht
    · intro hcase
      unfold cancelTask
      split
      · rename_i ht
        split
        · rename_i cl hcl
          split
          · rename_i hrx
            rcases hcase with ht2 | ⟨cl2, hcl2, hrx2⟩
            · rw [ht] at ht2
              cases ht2
            · rw [hcl] at hcl2
              have hceq : cl = cl2 := Option.some.inj hcl2
              rw [← hceq] at hrx2
              rw [hrx] at hrx2
              cases hrx2
          · rfl
        · rfl
      · rfl
  · intro s2 hok
    unfold cancelTask at hok
    split at hok
    · rename_i ht
      split at hok
      · rename_i cl hcl
        split at hok
        · rename_i hrx
          have hs2 : s2 = { s with
              cells := updV s.cells tid (fun c2 => { c2 with cancelFlag := true }) } :=
            (Except.ok.inj hok).symm
          subst hs2
          have hflag2 : isCancelledCtx { s with
              cells := updV s.cells tid (fun c2 => { c2 with cancelFlag := true }) }
              tid = true := by
            unfold isCancelledCtx
            rw [show lookupA (updV s.cells tid
                (fun c2 => { c2 with cancelFlag := true })) tid =
                (lookupA s.cells tid).map (fun c2 => { c2 with cancelFlag := true })
              from by rw [lookupA_updV, if_pos rfl], hcl]
            rfl
          refine ⟨hflag2, ?_⟩
          intro as s3 h3
          have hseed : cancelSticky { s with
              cells := updV s.cells tid (fun c2 => { c2 with cancelFlag := true }) }
              tid := by
            refine ⟨hflag2, ?_⟩
            intro p hp hpid
            exact hcsb (tid, cl) (lookupA_mem hcl) p hp hpid
          exact (cancelSticky_run hseed h3).1
        · exact Except.noConfusion hok
      · exact Except.noConfusion hok
    · exact Except.noConfusion hok

/-- Witness for C4: a tracked, still-alive identity is cancelled; the
watch value reads true immediately and still reads true after the body
observes it and runs on. -/
theorem C4_witness :
    isCancelledCtx (runTo (runTo (managerInit [cPlain]) trAdmit)
      [Action.cancel 0]) 0 = true ∧
    isCancelledCtx (runTo (runTo (runTo (managerInit [cPlain]) trAdmit)
      [Action.cancel 0]) [Action.body 0, Action.body 0]) 0 = true := by
  have h := (@C4_cancel_amended [cPlain]
      (runTo (managerInit [cPlain]) trAdmit) ⟨trAdmit, by decide⟩ 0).2
    (runTo (runTo (managerInit [cPlain]) trAdmit) [Action.cancel 0]) rfl
  exact ⟨h.1, h.2 [Action.body 0, Action.body 0] _ (by decide)⟩

/-- Counterexample to C4 as stated: the identity is still tracked in
the manager's registry, yet cancel fails with InvalidState, because the
task ran to completion and dropped its cancellation receiver while its
registry entry was still present. -/
theorem C4_counterexample :
    ∃ s : Sys, Reachable (managerInit [cPlain]) s ∧
      s.tasks.contains 0 = true ∧
      cancelTask s 0 = Except.error TaskError.invalidState :=
  ⟨runTo (managerInit [cPlain]) trRxDropped, ⟨trRxDropped, by decide⟩,
    by decide, rfl⟩

end Hako

